import Mathlib

/-!
# Model acquisition and cache management (package `nsfw`)

A shallow embedding of `helper.go`, `manager.go` and `archive.go`.

* A Go string is modelled as the text it holds, a `List Char` (`Str`), written
  `"...".toList`; this covers the strings that are valid UTF-8. The content of
  a file and the body of an answer are byte strings (`Bytes`).
* Library functions the package calls (`strings`, `strconv`, `path/filepath`,
  `unicode/utf8`) are modelled after their Go sources. The JSON codec
  `jsoniter` is a parameter `Codec` of the functions that call it; a model of
  it on bytes, written after the library, serves the metadata round trip and
  the example worlds. The operating system, the network and the zip reader are
  an interface `OS W` over an arbitrary world `W`, every call returning its
  outcome and the next world.
* A run records the calls it makes in a trace, so that "no query was made"
  and "the directory was checked" are statements about the run. Logging is
  left out.
* A function that may hit a run-time panic returns an `Outcome`, or `none`
  for the panic.
* `int` is 64 bits wide and paths are Unix paths.
-/

set_option maxRecDepth 4000

namespace Nsfw

/-- A Go string, read as text: the sequence of the Unicode characters its
bytes encode. -/
abbrev Str := List Char

/-- A byte string, what a `[]byte` holds: the content of a file, the body of an
answer. A byte is a number below 256. -/
abbrev Bytes := List Nat

/-! ## package strings -/

/-- The predicate `unicode.IsSpace`. -/
def isSpace (c : Char) : Bool :=
  c = '\t' || c = '\n' || c.toNat = 0x0B || c.toNat = 0x0C || c = '\r' || c = ' ' ||
  c.toNat = 0x85 || c.toNat = 0xA0 || c.toNat = 0x1680 ||
  (0x2000 ≤ c.toNat && c.toNat ≤ 0x200A) ||
  c.toNat = 0x2028 || c.toNat = 0x2029 || c.toNat = 0x202F || c.toNat = 0x205F ||
  c.toNat = 0x3000

/-- The function `strings.TrimSpace`: drops leading and trailing white space. -/
def TrimSpace (s : Str) : Str :=
  ((s.dropWhile isSpace).reverse.dropWhile isSpace).reverse

/-- The function `strings.ToLower`. Only the ASCII letters are mapped; the two
non-ASCII letters whose lower case is ASCII (U+0130, U+212A) map to `i` and `k`,
which occur in none of the words `envBool` compares with. -/
def ToLower (s : Str) : Str := s.map Char.toLower

/-- The function `strings.ReplaceAll s old new` for a one-byte `old`, the only
form the package uses. -/
def ReplaceAll (s : Str) (old : Char) (new : Str) : Str :=
  s.flatMap (fun c => if c = old then new else [c])

/-- The function `strings.HasSuffix`. -/
def HasSuffix (s suffix : Str) : Bool := suffix.isSuffixOf s

/-- The function `strings.TrimSuffix`. -/
def TrimSuffix (s suffix : Str) : Str :=
  if HasSuffix s suffix then s.take (s.length - suffix.length) else s

/-- The length `len(s)` of a Go string, in bytes of its UTF-8 encoding. -/
def byteLen (s : Str) : Nat := (s.map Char.utf8Size).sum

/-! ## package unicode/utf8 -/

/-- The constant `utf8.RuneError`, U+FFFD. -/
def RuneError : Nat := 0xFFFD

/-- The UTF-8 encoding of the code point `r` (`utf8.AppendRune` on a code point
that is no surrogate and at most U+10FFFF). -/
def encodeRune (r : Nat) : Bytes :=
  if r < 0x80 then [r]
  else if r < 0x800 then [0xC0 + r / 64, 0x80 + r % 64]
  else if r < 0x10000 then [0xE0 + r / 4096, 0x80 + r / 64 % 64, 0x80 + r % 64]
  else [0xF0 + r / 262144, 0x80 + r / 4096 % 64, 0x80 + r / 64 % 64, 0x80 + r % 64]

/-- The bytes of a Go string given as text: the conversion `[]byte(s)`. -/
def utf8 (s : Str) : Bytes := s.flatMap (fun c => encodeRune c.toNat)

/-- The function `utf8.DecodeRuneInString`: the code point the first bytes
encode and their number, or `RuneError` and 1 when they are no valid encoding
(`RuneError` and 0 on the empty string). A first byte `C2..DF` starts two
bytes, `E0..EF` three, `F0..F4` four; the second byte lies in `80..BF`, after
`E0` in `A0..BF`, after `ED` in `80..9F`, after `F0` in `90..BF`, after `F4`
in `80..8F`; the further bytes lie in `80..BF`. -/
def DecodeRuneInString (s : Bytes) : Nat × Nat :=
  match s with
  | [] => (RuneError, 0)
  | s0 :: t =>
    if s0 < 0x80 then (s0, 1)
    else if s0 < 0xC2 ∨ 0xF4 < s0 then (RuneError, 1)
    else
      let sz := if s0 < 0xE0 then 2 else if s0 < 0xF0 then 3 else 4
      let lo := if s0 = 0xE0 then 0xA0 else if s0 = 0xF0 then 0x90 else 0x80
      let hi := if s0 = 0xED then 0x9F else if s0 = 0xF4 then 0x8F else 0xBF
      if s.length < sz then (RuneError, 1)
      else
        match t with
        | [] => (RuneError, 1)
        | s1 :: t1 =>
          if s1 < lo ∨ hi < s1 then (RuneError, 1)
          else if sz ≤ 2 then (s0 % 32 * 64 + s1 % 64, 2)
          else
            match t1 with
            | [] => (RuneError, 1)
            | s2 :: t2 =>
              if s2 < 0x80 ∨ 0xBF < s2 then (RuneError, 1)
              else if sz ≤ 3 then (s0 % 16 * 4096 + s1 % 64 * 64 + s2 % 64, 3)
              else
                match t2 with
                | [] => (RuneError, 1)
                | s3 :: _ =>
                  if s3 < 0x80 ∨ 0xBF < s3 then (RuneError, 1)
                  else (s0 % 8 * 262144 + s1 % 64 * 4096 + s2 % 64 * 64 + s3 % 64, 4)

/-- The loop of `textOf`. -/
def textLoop : Nat → Bytes → Option Str
  | _, [] => some []
  | 0, _ :: _ => none
  | fuel + 1, b :: rest =>
    match DecodeRuneInString (b :: rest) with
    | (c, size) =>
      if c = RuneError ∧ size = 1 then none
      else
        match textLoop fuel ((b :: rest).drop size) with
        | none => none
        | some s => some (Char.ofNat c :: s)

/-- The text a byte string encodes (the conversion `string(b)` read as text),
`none` when the bytes are not valid UTF-8. -/
def textOf (b : Bytes) : Option Str := textLoop b.length b

/-! ## package strconv -/

/-- The two error kinds of `strconv`. -/
inductive NumError where
  | ErrSyntax
  | ErrRange
deriving DecidableEq, Repr

/-- The constant `1<<64 - 1`. -/
def maxUint64 : Nat := 18446744073709551615

/-- The loop of `strconv.ParseUint(s, 10, 64)`, `n` the value accumulated so
far in a `uint64`. A byte that is no decimal digit is a syntax error with value
0; an overflow is a range error with value `maxUint64`, reported as soon as it
is met. -/
def parseUintLoop : Str → Nat → Nat × Option NumError
  | [], n => (n, none)
  | c :: cs, n =>
    if c.isDigit then
      let d := c.toNat - '0'.toNat
      if n ≥ maxUint64 / 10 + 1 then (maxUint64, some .ErrRange)
      else
        let n10 := n * 10
        let n1 := (n10 + d) % 2 ^ 64
        if n1 < n10 ∨ n1 > maxUint64 then (maxUint64, some .ErrRange)
        else parseUintLoop cs n1
    else (0, some .ErrSyntax)

/-- The function `strconv.ParseUint(s, 10, 64)`. -/
def ParseUint (s : Str) : Nat × Option NumError :=
  if s = [] then (0, some .ErrSyntax) else parseUintLoop s 0

/-- The function `strconv.ParseInt(s, 10, 0)`. -/
def ParseInt (s : Str) : Int × Option NumError :=
  match s with
  | [] => (0, some .ErrSyntax)
  | c0 :: t =>
    let neg := decide (c0 = '-')
    let body := if c0 = '+' ∨ c0 = '-' then t else s
    match ParseUint body with
    | (_, some .ErrSyntax) => (0, some .ErrSyntax)
    | (un, _) =>
      if !neg ∧ un ≥ 2 ^ 63 then ((2 : Int) ^ 63 - 1, some .ErrRange)
      else if neg ∧ un > 2 ^ 63 then (-(2 : Int) ^ 63, some .ErrRange)
      else (if neg then -(un : Int) else (un : Int), none)

/-- The digit loop of the fast path of `strconv.Atoi`; `none` is the syntax
error. Fewer than 19 digits are read, so the accumulator stays below `2^63`. -/
def atoiFastLoop : Str → Nat → Option Nat
  | [], n => some n
  | c :: cs, n =>
    if c.isDigit then atoiFastLoop cs (n * 10 + (c.toNat - '0'.toNat)) else none

/-- The function `strconv.Atoi`: value and error. Callers in this package drop
the error and keep the value. -/
def Atoi (s : Str) : Int × Option NumError :=
  let sLen := byteLen s
  if 0 < sLen ∧ sLen < 19 then
    match s with
    | [] => (0, some .ErrSyntax)
    | c0 :: t =>
      let signed := decide (c0 = '-' ∨ c0 = '+')
      let body := if signed then t else s
      if signed ∧ body.length < 1 then (0, some .ErrSyntax)
      else
        match atoiFastLoop body 0 with
        | none => (0, some .ErrSyntax)
        | some n => (if c0 = '-' then -(n : Int) else (n : Int), none)
  else ParseInt s

/-! ## package path/filepath (Unix) -/

/-- The constant `os.PathSeparator`. -/
def PathSeparator : Char := '/'

/-- Splits a path at every separator. -/
def splitSep : Str → List Str
  | [] => [[]]
  | c :: cs =>
    match splitSep cs with
    | [] => [[c]]
    | p :: ps => if c = PathSeparator then [] :: p :: ps else (c :: p) :: ps

/-- The element pass of `filepath.Clean`: `acc` holds the elements kept so far,
last one first. -/
def cleanParts (rooted : Bool) : List Str → List Str → List Str
  | [], acc => acc.reverse
  | p :: ps, acc =>
    if p = [] ∨ p = ['.'] then cleanParts rooted ps acc
    else if p = ['.', '.'] then
      match acc with
      | a :: acc1 =>
        if a = ['.', '.'] then cleanParts rooted ps (p :: acc)
        else cleanParts rooted ps acc1
      | [] => if rooted then cleanParts rooted ps [] else cleanParts rooted ps [p]
    else cleanParts rooted ps (p :: acc)

/-- The function `filepath.Clean`. -/
def Clean (path : Str) : Str :=
  if path = [] then ['.']
  else
    let rooted := decide (path.head? = some PathSeparator)
    let out := List.intercalate [PathSeparator] (cleanParts rooted (splitSep path) [])
    if rooted then PathSeparator :: out
    else if out = [] then ['.'] else out

/-- The function `filepath.Join` of two elements. -/
def Join (a b : Str) : Str :=
  if a ≠ [] then Clean (a ++ PathSeparator :: b)
  else if b ≠ [] then Clean b
  else []

/-- The function `filepath.Dir`: the path up to its last separator, cleaned. -/
def Dir (path : Str) : Str :=
  Clean ((path.reverse.dropWhile (fun c => c ≠ PathSeparator)).reverse)

/-! ## The world: operating system, network, zip reader -/

/-- An error returned by a system or library call. -/
structure IOErr where
  msg : Str
deriving DecidableEq, Repr

/-- An entry of a directory listing (`os.FileInfo`). -/
structure FileInfo where
  Name : Str
  IsDir : Bool
deriving DecidableEq, Repr

/-- An entry of an opened archive (`zip.File`). -/
structure ZipFile where
  Name : Str
  IsDir : Bool
  Mode : Nat
deriving DecidableEq, Repr

/-- What a stream or file handle stands on. -/
inductive Handle where
  | file (path : Str)
  | body (url : Str)
  | zipEntry (archive : Str) (name : Str)
deriving DecidableEq, Repr

/-- The part of an `http.Response` the package looks at; its body is the
handle `Handle.body url`. -/
structure Response where
  StatusCode : Int
  Status : Str
deriving DecidableEq, Repr

/-- The calls the package makes to the outside, over a world `W`. `none` and
`Except.ok` are a nil error. -/
structure OS (W : Type) where
  Stat : Str → W → Option IOErr × W
  ReadDir : Str → W → Except IOErr (List FileInfo) × W
  Open : Str → W → Option IOErr × W
  ReadAll : Handle → W → Except IOErr Bytes × W
  Close : Handle → W → W
  MkdirAll : Str → Nat → W → Option IOErr × W
  Create : Str → W → Option IOErr × W
  OpenFile : Str → Nat → W → Option IOErr × W
  Write : Handle → Bytes → W → Option IOErr × W
  Copy : Handle → Handle → W → Option IOErr × W
  Remove : Str → W → Option IOErr × W
  HttpGet : Str → W → Except IOErr Response × W
  ZipOpenReader : Str → W → Except IOErr (List ZipFile) × W
  ZipEntryOpen : Str → Str → W → Option IOErr × W

/-- A call made during a run. -/
inductive Event where
  | stat (path : Str) (found : Bool)
  | readDir (path : Str)
  | openRead (path : Str)
  | readAll (h : Handle)
  | close (h : Handle)
  | mkdirAll (path : Str)
  | create (path : Str)
  | openFile (path : Str)
  | write (h : Handle) (data : Bytes)
  | copy (dst src : Handle)
  | remove (path : Str)
  | httpGet (url : Str)
  | zipOpen (path : Str)
  | zipEntryOpen (archive name : Str)
deriving DecidableEq, Repr

/-- The state of a run: the world and the calls made so far, oldest first. -/
structure St (W : Type) where
  world : W
  trace : List Event

/-- Records one call and moves to the next world. -/
def St.step {W : Type} (s : St W) (e : Event) (w : W) : St W :=
  { world := w, trace := s.trace ++ [e] }

/-- The errors the package returns. -/
inductive Err where
  | ErrNoneCached
  | io (e : IOErr)
  | json (msg : Str)
  | overrideNotSavedModel (p : Str)
  | noAssets (tag : Str)
  | badStatus (status : Str)
  | downloadFailed (cause : Err)
  | notSavedModel (mp : Str)
deriving DecidableEq, Repr

/-- The result of a call that may also abort with a run-time panic. -/
inductive Outcome (α : Type) where
  | ok (a : α)
  | err (e : Err)
  | panic
deriving DecidableEq, Repr


/-! ## Calls to the outside, recorded in the trace -/

section Calls
variable {W : Type}

/-- The call `os.Stat`; the trace keeps whether the file was found. -/
def callStat (os : OS W) (p : Str) (s : St W) : Option IOErr × St W :=
  match os.Stat p s.world with
  | (r, w) => (r, s.step (.stat p r.isNone) w)

/-- The call `ioutil.ReadDir`. -/
def callReadDir (os : OS W) (p : Str) (s : St W) : Except IOErr (List FileInfo) × St W :=
  match os.ReadDir p s.world with
  | (r, w) => (r, s.step (.readDir p) w)

/-- The call `os.Open`. -/
def callOpen (os : OS W) (p : Str) (s : St W) : Option IOErr × St W :=
  match os.Open p s.world with
  | (r, w) => (r, s.step (.openRead p) w)

/-- The call `ioutil.ReadAll`. -/
def callReadAll (os : OS W) (h : Handle) (s : St W) : Except IOErr Bytes × St W :=
  match os.ReadAll h s.world with
  | (r, w) => (r, s.step (.readAll h) w)

/-- The call `Close` of a file, a body or an archive entry. -/
def callClose (os : OS W) (h : Handle) (s : St W) : St W :=
  s.step (.close h) (os.Close h s.world)

/-- The call `os.MkdirAll`. -/
def callMkdirAll (os : OS W) (p : Str) (perm : Nat) (s : St W) : Option IOErr × St W :=
  match os.MkdirAll p perm s.world with
  | (r, w) => (r, s.step (.mkdirAll p) w)

/-- The call `os.Create`. -/
def callCreate (os : OS W) (p : Str) (s : St W) : Option IOErr × St W :=
  match os.Create p s.world with
  | (r, w) => (r, s.step (.create p) w)

/-- The call `os.OpenFile` for writing, creating and truncating. -/
def callOpenFile (os : OS W) (p : Str) (mode : Nat) (s : St W) : Option IOErr × St W :=
  match os.OpenFile p mode s.world with
  | (r, w) => (r, s.step (.openFile p) w)

/-- The call `Write` on a file. -/
def callWrite (os : OS W) (h : Handle) (data : Bytes) (s : St W) : Option IOErr × St W :=
  match os.Write h data s.world with
  | (r, w) => (r, s.step (.write h data) w)

/-- The call `io.Copy`. -/
def callCopy (os : OS W) (dst src : Handle) (s : St W) : Option IOErr × St W :=
  match os.Copy dst src s.world with
  | (r, w) => (r, s.step (.copy dst src) w)

/-- The call `os.Remove`. -/
def callRemove (os : OS W) (p : Str) (s : St W) : Option IOErr × St W :=
  match os.Remove p s.world with
  | (r, w) => (r, s.step (.remove p) w)

/-- The call `http.Get`. -/
def callHttpGet (os : OS W) (url : Str) (s : St W) : Except IOErr Response × St W :=
  match os.HttpGet url s.world with
  | (r, w) => (r, s.step (.httpGet url) w)

/-- The call `zip.OpenReader`. -/
def callZipOpenReader (os : OS W) (p : Str) (s : St W) : Except IOErr (List ZipFile) × St W :=
  match os.ZipOpenReader p s.world with
  | (r, w) => (r, s.step (.zipOpen p) w)

/-- The call `Open` on an entry of an archive. -/
def callZipEntryOpen (os : OS W) (archive name : Str) (s : St W) : Option IOErr × St W :=
  match os.ZipEntryOpen archive name s.world with
  | (r, w) => (r, s.step (.zipEntryOpen archive name) w)

end Calls
/-! ## helper.go -/

/-- The process environment, as `os.Getenv` reads it. -/
abbrev Env := Str → Str

/-- The function `envBool` of helper.go. -/
def envBool (env : Env) (key : Str) : Bool :=
  let v := ToLower (TrimSpace (env key))
  v = "1".toList || v = "true".toList || v = "yes".toList

/-- The function `envStr` of helper.go. -/
def envStr (env : Env) (key de : Str) : Str :=
  let v := TrimSpace (env key)
  if v = [] then de else v

/-- The function `fileExists` of helper.go. -/
def fileExists {W : Type} (os : OS W) (p : Str) (s : St W) : Bool × St W :=
  match callStat os p s with
  | (err, s1) => (err.isNone, s1)

/-- The function `looksLikeSavedModel` of helper.go: the directory holds the
marker file `saved_model.pb`. -/
def looksLikeSavedModel {W : Type} (os : OS W) (dir : Str) (s : St W) : Bool × St W :=
  fileExists os (Join dir "saved_model.pb".toList) s

/-! ## manager.go: the release description -/

/-- The type `Path` of archive.go, a string. -/
abbrev Path := Str

/-- An element of `releaseInfo.Assets`. -/
structure Asset where
  ID : Int
  Name : Str
  DownloadURL : Str
deriving DecidableEq, Repr

/-- The struct `releaseInfo`. `Assets = none` is the nil slice, which the JSON
encoder writes as `null`. -/
structure releaseInfo where
  LocalPath : Str
  TagName : Str
  Assets : Option (List Asset)
deriving DecidableEq, Repr

/-- The zero value `releaseInfo{}`. -/
def releaseInfo.zero : releaseInfo := { LocalPath := [], TagName := [], Assets := none }

/-- The value `len(i.Assets)`. -/
def releaseInfo.numAssets (i : releaseInfo) : Nat := (i.Assets.getD []).length

/-- The package variable `DefaultCachePath`, as initialised at start-up. -/
def initDefaultCachePath (env : Env) : Str :=
  envStr env "NSFW_MODEL_CACHE_DIR".toList "./.models/".toList

/-- The function `defaultFallbackRelease` of manager.go. -/
def defaultFallbackRelease (env : Env) : releaseInfo :=
  let tag := envStr env "NSFW_MODEL_FALLBACK_TAG".toList "1.2.0".toList
  let name := envStr env "NSFW_MODEL_FALLBACK_NAME".toList "mobilenet_v2_140_224.1.zip".toList
  let url := envStr env "NSFW_MODEL_FALLBACK_URL".toList
    "https://github.com/GantMan/nsfw_model/releases/download/1.2.0/mobilenet_v2_140_224.1.zip".toList
  { LocalPath := [], TagName := tag, Assets := some [{ ID := 0, Name := name, DownloadURL := url }] }

/-- The method `getTagPath`. -/
def releaseInfo.getTagPath (i : releaseInfo) : Str :=
  ReplaceAll i.TagName '.' ['_']

/-- The method `getModelFolder`. -/
def releaseInfo.getModelFolder (i : releaseInfo) : Path :=
  Join i.LocalPath "model".toList ++ [PathSeparator]

/-- The method `getModelPath`; `none` is the run-time panic of `i.Assets[0]` on
a release without assets. -/
def releaseInfo.getModelPath (i : releaseInfo) : Option Path :=
  match i.Assets with
  | some (a :: _) =>
    let inner := TrimSuffix a.Name ".zip".toList
    let inner := TrimSuffix inner ".1".toList
    some (i.getModelFolder ++ inner)
  | _ => none

/-- The method `getZipPath`. -/
def releaseInfo.getZipPath (i : releaseInfo) : Path :=
  Join i.LocalPath "model.zip".toList

/-- The method `getMetaPath`. -/
def releaseInfo.getMetaPath (i : releaseInfo) : Path :=
  Join i.LocalPath "meta.json".toList

/-- The method `isNewer`. -/
def releaseInfo.isNewer (i than : releaseInfo) : Bool :=
  if than.TagName = [] then true
  else
    let tag1 := (Atoi (ReplaceAll i.TagName '.' [])).1
    let tag2 := (Atoi (ReplaceAll than.TagName '.' [])).1
    decide (tag1 > tag2)

/-- The method `isOlderDir`: the receiver's tag has its dots removed, the
directory name its underscores. -/
def releaseInfo.isOlderDir (i : releaseInfo) (than : Str) : Bool :=
  let tag1 := (Atoi (ReplaceAll i.TagName '.' [])).1
  let tag2 := (Atoi (ReplaceAll than '_' [])).1
  decide (tag1 < tag2)

/-! ## manager.go: cache and release feed -/

/-- The JSON codec the package calls, `jsoniter.Marshal` and
`jsoniter.Unmarshal` into a fresh `releaseInfo`. The library is no part of the
package; the functions of manager.go and archive.go take it as a parameter.
`Except.ok` is a nil error. -/
structure Codec where
  Marshal : releaseInfo → Except Str Bytes
  Unmarshal : Bytes → Except Str releaseInfo

section Manager
variable {W : Type}

/-- The loop of `getLatestCached` over the directory listing. `ioutil.ReadDir`
returns the entries sorted by name; the loop is defined for any listing. -/
def scanCached (folder : Str) : List FileInfo → releaseInfo → releaseInfo
  | [], latest => latest
  | file :: files, latest =>
    if !file.IsDir then scanCached folder files latest
    else if latest.isOlderDir file.Name then
      scanCached folder files
        { LocalPath := Join folder file.Name, TagName := file.Name, Assets := none }
    else scanCached folder files latest

/-- The function `parseReleaseInfoFile` of manager.go. -/
def parseReleaseInfoFile (js : Codec) (os : OS W) (filename : Str) (s : St W) :
    Except Err releaseInfo × St W :=
  match callOpen os filename s with
  | (some e, s1) => (.error (.io e), s1)
  | (none, s1) =>
    match callReadAll os (.file filename) s1 with
    | (.error e, s2) => (.error (.io e), callClose os (.file filename) s2)
    | (.ok data, s2) =>
      match js.Unmarshal data with
      | .error e => (.error (.json e), callClose os (.file filename) s2)
      | .ok info => (.ok info, callClose os (.file filename) s2)

/-- The function `getLatestCached` of manager.go. -/
def getLatestCached (js : Codec) (os : OS W) (folder : Str) (s : St W) :
    Except Err releaseInfo × St W :=
  match callReadDir os folder s with
  | (.error _, s1) => (.error .ErrNoneCached, s1)
  | (.ok files, s1) =>
    let latest := scanCached folder files { LocalPath := [], TagName := ['0'], Assets := none }
    if latest.TagName = ['0'] then (.error .ErrNoneCached, s1)
    else
      match parseReleaseInfoFile js os (Join latest.LocalPath "meta.json".toList) s1 with
      | (.error e, s2) => (.error e, s2)
      | (.ok info, s2) => (.ok { info with LocalPath := latest.LocalPath }, s2)

/-- The address of the release feed. -/
def feedURL : Str := "https://api.github.com/repos/GantMan/nsfw_model/releases/latest".toList

/-- The function `getLatestReleaseInfo`: the release and the error it returns. -/
def getLatestReleaseInfo (js : Codec) (os : OS W) (env : Env) (s : St W) :
    (releaseInfo × Option Err) × St W :=
  if envBool env "NSFW_MODEL_SKIP_REMOTE".toList then ((defaultFallbackRelease env, none), s)
  else
    match callHttpGet os feedURL s with
    | (.error _, s1) => ((defaultFallbackRelease env, none), s1)
    | (.ok resp, s1) =>
      if resp.StatusCode ≠ 200 then
        ((defaultFallbackRelease env, none), callClose os (.body feedURL) s1)
      else
        match callReadAll os (.body feedURL) s1 with
        | (.error _, s2) =>
          ((defaultFallbackRelease env, none), callClose os (.body feedURL) s2)
        | (.ok body, s2) =>
          match js.Unmarshal body with
          | .error _ => ((defaultFallbackRelease env, none), callClose os (.body feedURL) s2)
          | .ok info => ((info, none), callClose os (.body feedURL) s2)

/-- The method `download`. -/
def releaseInfo.download (os : OS W) (i : releaseInfo) (filename : Path) (s : St W) :
    Option Err × St W :=
  match i.Assets with
  | none => (some (.noAssets i.TagName), s)
  | some [] => (some (.noAssets i.TagName), s)
  | some (a :: _) =>
    let filename := if !HasSuffix filename ".zip".toList then filename ++ ".zip".toList
      else filename
    match callMkdirAll os (Dir filename) 0o770 s with
    | (some e, s1) => (some (.io e), s1)
    | (none, s1) =>
      match callCreate os filename s1 with
      | (some e, s2) => (some (.io e), s2)
      | (none, s2) =>
        match callHttpGet os a.DownloadURL s2 with
        | (.error e, s3) => (some (.io e), callClose os (.file filename) s3)
        | (.ok resp, s3) =>
          if resp.StatusCode ≠ 200 then
            (some (.badStatus resp.Status),
              callClose os (.file filename) (callClose os (.body a.DownloadURL) s3))
          else
            match callCopy os (.file filename) (.body a.DownloadURL) s3 with
            | (r, s4) =>
              (r.map Err.io,
                callClose os (.file filename) (callClose os (.body a.DownloadURL) s4))

/-- The method `saveMeta`. -/
def releaseInfo.saveMeta (js : Codec) (os : OS W) (i : releaseInfo) (filename : Path)
    (s : St W) : Option Err × St W :=
  match callCreate os filename s with
  | (some e, s1) => (some (.io e), s1)
  | (none, s1) =>
    match js.Marshal i with
    | .error e => (some (.json e), callClose os (.file filename) s1)
    | .ok data =>
      match callWrite os (.file filename) data s1 with
      | (r, s2) => (r.map Err.io, callClose os (.file filename) s2)

end Manager
/-! ## archive.go -/

section Archive
variable {W : Type}

/-- The function `GetLocalModelPath` of archive.go. -/
def GetLocalModelPath (js : Codec) (os : OS W) (DefaultCachePath : Str) (s : St W) :
    Outcome Path × St W :=
  match getLatestCached js os DefaultCachePath s with
  | (.error e, s1) => (.err e, s1)
  | (.ok cached, s1) =>
    match cached.getModelPath with
    | none => (.panic, s1)
    | some mp => (.ok mp, s1)

/-- The loop of `unzip` over the entries of the archive. -/
def unzipEntries (os : OS W) (i : releaseInfo) : List ZipFile → St W → Option Err × St W
  | [], s => (none, s)
  | f :: fs, s =>
    let filePath := Join i.getModelFolder f.Name
    if f.IsDir then
      match callMkdirAll os filePath 0o777 s with
      | (some e, s1) => (some (.io e), s1)
      | (none, s1) => unzipEntries os i fs s1
    else
      match callMkdirAll os (Dir filePath) 0o777 s with
      | (some e, s1) => (some (.io e), s1)
      | (none, s1) =>
        match callOpenFile os filePath f.Mode s1 with
        | (some e, s2) => (some (.io e), s2)
        | (none, s2) =>
          match callZipEntryOpen os i.getZipPath f.Name s2 with
          | (some e, s3) => (some (.io e), callClose os (.file filePath) s3)
          | (none, s3) =>
            match callCopy os (.file filePath) (.zipEntry i.getZipPath f.Name) s3 with
            | (r, s4) =>
              let s5 := callClose os (.file filePath) s4
              let s6 := callClose os (.zipEntry i.getZipPath f.Name) s5
              match r with
              | some e => (some (.io e), s6)
              | none => unzipEntries os i fs s6

/-- The method `unzip`. -/
def releaseInfo.unzip (os : OS W) (i : releaseInfo) (s : St W) : Option Err × St W :=
  match callZipOpenReader os i.getZipPath s with
  | (.error e, s1) => (some (.io e), s1)
  | (.ok files, s1) =>
    match unzipEntries os i files s1 with
    | (r, s2) => (r, callClose os (.file i.getZipPath) s2)

/-- The method `cleanup`. -/
def releaseInfo.cleanup (os : OS W) (i : releaseInfo) (s : St W) : Option Err × St W :=
  match callRemove os i.getZipPath s with
  | (r, s1) => (r.map Err.io, s1)

/-- The method `unpack`; a failed `cleanup` is logged and not returned. -/
def releaseInfo.unpack (os : OS W) (i : releaseInfo) (s : St W) : Option Err × St W :=
  match i.unzip os s with
  | (some e, s1) => (some e, s1)
  | (none, s1) =>
    match i.cleanup os s1 with
    | (_, s2) => (none, s2)

/-- Lines 51 to 83 of `GetLatestModelPath`: download and unpack the chosen
release. `cachedRes` is the pair `cached, cachedErr`. -/
def installLatest (js : Codec) (os : OS W) (DefaultCachePath : Str)
    (cachedRes : Except Err releaseInfo) (chosen : releaseInfo) (s : St W) :
    Outcome Path × St W :=
  let latest := { chosen with LocalPath := Join DefaultCachePath chosen.getTagPath }
  match callMkdirAll os latest.LocalPath 0o770 s with
  | (some e, s1) => (.err (.io e), s1)
  | (none, s1) =>
    match latest.download os latest.getZipPath s1 with
    | (some e, s2) =>
      match cachedRes with
      | .error _ => (.err (.downloadFailed e), s2)
      | .ok cached =>
        match cached.getModelPath with
        | none => (.panic, s2)
        | some mp =>
          match looksLikeSavedModel os mp s2 with
          | (true, s3) => (.ok mp, s3)
          | (false, s3) => (.err (.downloadFailed e), s3)
    | (none, s2) =>
      match latest.saveMeta js os latest.getMetaPath s2 with
      | (_, s3) =>
        match latest.unpack os s3 with
        | (some e, s4) => (.err e, s4)
        | (none, s4) =>
          match latest.getModelPath with
          | none => (.panic, s4)
          | some mp =>
            match looksLikeSavedModel os mp s4 with
            | (false, s5) => (.err (.notSavedModel mp), s5)
            | (true, s5) => (.ok mp, s5)

/-- Lines 41 to 49 of `GetLatestModelPath`: ask for the latest release and keep
the cache unless it is newer. -/
def resolveLatest (js : Codec) (os : OS W) (env : Env) (DefaultCachePath : Str)
    (cachedRes : Except Err releaseInfo) (s : St W) : Outcome Path × St W :=
  match getLatestReleaseInfo js os env s with
  | ((latest, _), s1) =>
    match cachedRes with
    | .error _ => installLatest js os DefaultCachePath cachedRes latest s1
    | .ok cached =>
      if latest.isNewer cached then installLatest js os DefaultCachePath cachedRes latest s1
      else
        match cached.getModelPath with
        | none => (.panic, s1)
        | some mp =>
          match looksLikeSavedModel os mp s1 with
          | (false, s2) => installLatest js os DefaultCachePath cachedRes latest s2
          | (true, s2) =>
            if envBool env "NSFW_MODEL_FORCE_UPDATE".toList then
              installLatest js os DefaultCachePath cachedRes latest s2
            else (.ok mp, s2)

/-- The function `GetLatestModelPath` of archive.go, lines 24 to 39; it goes on
in `resolveLatest`. `DefaultCachePath` is the package variable of that name. -/
def GetLatestModelPath (js : Codec) (os : OS W) (env : Env) (DefaultCachePath : Str)
    (s : St W) :
    Outcome Path × St W :=
  let p := envStr env "NSFW_MODEL_PATH".toList []
  if p ≠ [] then
    match looksLikeSavedModel os p s with
    | (true, s1) => (.ok p, s1)
    | (false, s1) => (.err (.overrideNotSavedModel p), s1)
  else
    match getLatestCached js os DefaultCachePath s with
    | (.error e, s1) => resolveLatest js os env DefaultCachePath (.error e) s1
    | (.ok cached, s1) =>
      match cached.getModelPath with
      | none => (.panic, s1)
      | some mp =>
        match looksLikeSavedModel os mp s1 with
        | (false, s2) => resolveLatest js os env DefaultCachePath (.ok cached) s2
        | (true, s2) =>
          if envBool env "NSFW_MODEL_FORCE_UPDATE".toList then
            resolveLatest js os env DefaultCachePath (.ok cached) s2
          else (.ok mp, s2)

end Archive
/-! ## A model of the codec (`jsoniter`, default configuration)

The library works on bytes, so the model does: `rawReleaseInfo` is the struct
`releaseInfo` with its strings as byte strings, which may or may not be valid
UTF-8.

The encoder writes what `jsoniter.Marshal` writes for a `releaseInfo`: the
fields in declaration order, `LocalPath` left out (its tag is `json:"-"`), HTML
escaping on. The decoder follows the library's decoders for this struct on a
fresh value: field names are matched without regard to ASCII case, a `null`
leaves an `int` as it is and empties a string. Two things the library does are
left open, and the decoder answers `Res.unmodelled` where they come up: the
passing over of a member whose name is none of the declared ones (`Skip`), and
the decoding of a second `assets` member into the slice the first one left. -/

/-- An element of `Assets`, strings as bytes. -/
structure rawAsset where
  ID : Int
  Name : Bytes
  DownloadURL : Bytes
deriving DecidableEq, Repr

/-- The struct `releaseInfo`, strings as bytes. -/
structure rawReleaseInfo where
  LocalPath : Bytes
  TagName : Bytes
  Assets : Option (List rawAsset)
deriving DecidableEq, Repr

/-- The zero value `releaseInfo{}`. -/
def rawReleaseInfo.zero : rawReleaseInfo := { LocalPath := [], TagName := [], Assets := none }

/-- The bytes of an asset given as text. -/
def Asset.raw (a : Asset) : rawAsset :=
  { ID := a.ID, Name := utf8 a.Name, DownloadURL := utf8 a.DownloadURL }

/-- The bytes of a release given as text. -/
def releaseInfo.raw (i : releaseInfo) : rawReleaseInfo :=
  { LocalPath := utf8 i.LocalPath, TagName := utf8 i.TagName,
    Assets := i.Assets.map (fun l => l.map Asset.raw) }

/-- The text of an asset, `none` when a string of it is not valid UTF-8. -/
def rawAsset.text (a : rawAsset) : Option Asset :=
  match textOf a.Name, textOf a.DownloadURL with
  | some name, some url => some { ID := a.ID, Name := name, DownloadURL := url }
  | _, _ => none

/-- The text of a list of assets. -/
def textAssets : List rawAsset → Option (List Asset)
  | [] => some []
  | a :: rest =>
    match a.text, textAssets rest with
    | some a1, some rest1 => some (a1 :: rest1)
    | _, _ => none

/-- The text of a release, `none` when a string of it is not valid UTF-8. -/
def rawReleaseInfo.text (i : rawReleaseInfo) : Option releaseInfo :=
  match textOf i.LocalPath, textOf i.TagName with
  | some path, some tag =>
    match i.Assets with
    | none => some { LocalPath := path, TagName := tag, Assets := none }
    | some l =>
      match textAssets l with
      | some l1 => some { LocalPath := path, TagName := tag, Assets := some l1 }
      | none => none
  | _, _ => none

/-! ### The encoder -/

/-- The table `hex`: the lower-case hexadecimal digit of `n < 16`. -/
def hexDigit (n : Nat) : Nat := if n < 10 then '0'.toNat + n else 'a'.toNat + (n - 10)

/-- The table `htmlSafeSet`: the ASCII bytes the string writer copies. -/
def htmlSafe (b : Nat) : Bool :=
  decide (0x20 ≤ b) && decide (b < 0x80) && b != '"'.toNat && b != '&'.toNat &&
    b != '<'.toNat && b != '>'.toNat && b != '\\'.toNat

/-- What the string writer puts for an ASCII byte it does not copy. -/
def writeEscaped (b : Nat) : Bytes :=
  if b = '\\'.toNat ∨ b = '"'.toNat then ['\\'.toNat, b]
  else if b = '\n'.toNat then ['\\'.toNat, 'n'.toNat]
  else if b = '\r'.toNat then ['\\'.toNat, 'r'.toNat]
  else if b = '\t'.toNat then ['\\'.toNat, 't'.toNat]
  else utf8 "\\u00".toList ++ [hexDigit (b / 16), hexDigit (b % 16)]

/-- The loop of `WriteStringWithHTMLEscaped` over the bytes of the string. An
ASCII byte is copied or escaped; a byte that starts no valid UTF-8 encoding is
written as the escape of U+FFFD; U+2028 and U+2029 are escaped; any other encoded character
is copied. -/
def writeStringLoop : Nat → Bytes → Bytes
  | 0, _ => []
  | _ + 1, [] => []
  | fuel + 1, b :: rest =>
    if b < 0x80 then
      (if htmlSafe b then [b] else writeEscaped b) ++ writeStringLoop fuel rest
    else
      match DecodeRuneInString (b :: rest) with
      | (c, size) =>
        if c = RuneError ∧ size = 1 then
          utf8 "\\ufffd".toList ++ writeStringLoop fuel rest
        else if c = 0x2028 ∨ c = 0x2029 then
          utf8 "\\u202".toList ++
            hexDigit (c % 16) :: writeStringLoop fuel ((b :: rest).drop size)
        else (b :: rest).take size ++ writeStringLoop fuel ((b :: rest).drop size)

/-- The method `WriteStringWithHTMLEscaped`: the string quoted and escaped. -/
def WriteString (s : Bytes) : Bytes :=
  '"'.toNat :: (writeStringLoop s.length s ++ ['"'.toNat])

/-- The decimal digits of `n` in front of `acc`; a `uint64` has at most 20. -/
def writeUintAux : Nat → Nat → Bytes → Bytes
  | 0, _, acc => acc
  | fuel + 1, n, acc =>
    let acc1 := ('0'.toNat + n % 10) :: acc
    if n / 10 = 0 then acc1 else writeUintAux fuel (n / 10) acc1

/-- The method `WriteUint64`. -/
def WriteUint64 (n : Nat) : Bytes := writeUintAux 20 n []

/-- The method `WriteInt64`. -/
def WriteInt64 (n : Int) : Bytes :=
  if n < 0 then '-'.toNat :: WriteUint64 n.natAbs else WriteUint64 n.natAbs

/-- The encoding of one element of `Assets`. -/
def encodeAsset (a : rawAsset) : Bytes :=
  utf8 "\x7b\"id\":".toList ++ WriteInt64 a.ID ++
    utf8 ",\"name\":".toList ++ WriteString a.Name ++
    utf8 ",\"browser_download_url\":".toList ++ WriteString a.DownloadURL ++ utf8 "\x7d".toList

/-- The encoding of the field `Assets`: `null` for the nil slice. -/
def encodeAssets : Option (List rawAsset) → Bytes
  | none => utf8 "null".toList
  | some [] => utf8 "[]".toList
  | some (a :: rest) =>
    '['.toNat :: encodeAsset a ++ rest.flatMap (fun x => ','.toNat :: encodeAsset x) ++
      [']'.toNat]

/-- The function `jsoniter.Marshal` at type `releaseInfo`; it returns no error
for this type. -/
def Marshal (i : rawReleaseInfo) : Bytes :=
  utf8 "\x7b\"tag_name\":".toList ++ WriteString i.TagName ++
    utf8 ",\"assets\":".toList ++ encodeAssets i.Assets ++ utf8 "\x7d".toList

/-! ### The decoder -/

/-- The outcome of decoding: a value, an error, or an input whose treatment is
left open. -/
inductive Res (α : Type) where
  | ok (a : α)
  | error (msg : Str)
  | unmodelled
deriving DecidableEq, Repr

/-- A decoding step: the value read and the input left. -/
abbrev Dec (α : Type) := Res (α × Bytes)

/-- The white space `nextToken` passes over. -/
def isJsonSpace (b : Nat) : Bool :=
  b = ' '.toNat || b = '\n'.toNat || b = '\t'.toNat || b = '\r'.toNat

/-- The input from its next token on. -/
def skipWs (inp : Bytes) : Bytes := inp.dropWhile isJsonSpace

/-- Reads exactly the bytes `lit` (`skipThreeBytes`). -/
def skipBytes (lit inp : Bytes) : Dec Unit :=
  if lit.isPrefixOf inp then .ok ((), inp.drop lit.length)
  else .error "unexpected bytes".toList

/-- The value of a hexadecimal digit. -/
def hexVal (b : Nat) : Option Nat :=
  if '0'.toNat ≤ b ∧ b ≤ '9'.toNat then some (b - '0'.toNat)
  else if 'a'.toNat ≤ b ∧ b ≤ 'f'.toNat then some (b - 'a'.toNat + 10)
  else if 'A'.toNat ≤ b ∧ b ≤ 'F'.toNat then some (b - 'A'.toNat + 10)
  else none

/-- The method `readU4`: four hexadecimal digits. -/
def readU4 : Bytes → Dec Nat
  | a :: b :: c :: d :: rest =>
    match hexVal a, hexVal b, hexVal c, hexVal d with
    | some x, some y, some z, some w => .ok (((x * 16 + y) * 16 + z) * 16 + w, rest)
    | _, _, _, _ => .error "readU4: expects 0~9 or a~f".toList
  | _ => .error "readU4: unexpected end of input".toList

/-- The function `appendRune`: the bytes of the code point `r`, of U+FFFD for
half of a surrogate pair or a value above U+10FFFF. -/
def appendRune (r : Nat) : Bytes :=
  if (0xD800 ≤ r ∧ r ≤ 0xDFFF) ∨ 0x10FFFF < r then encodeRune RuneError else encodeRune r

/-- The function `utf16.DecodeRune`. -/
def decodeRune (r1 r2 : Nat) : Nat :=
  if 0xD800 ≤ r1 ∧ r1 < 0xDC00 ∧ 0xDC00 ≤ r2 ∧ r2 < 0xE000 then
    (r1 - 0xD800) * 1024 + (r2 - 0xDC00) + 0x10000
  else RuneError

/-- The method `readEscapedChar`, `c` the byte after the backslash: the bytes
it appends and the input left. -/
def readEscapedChar : Nat → Nat → Bytes → Dec Bytes
  | 0, _, _ => .error "readEscapedChar: unexpected end of input".toList
  | fuel + 1, c, inp =>
    if c = 'u'.toNat then
      match readU4 inp with
      | .error e => .error e
      | .unmodelled => .unmodelled
      | .ok (r, rest) =>
        if 0xD800 ≤ r ∧ r ≤ 0xDFFF then
          match rest with
          | [] => .error "readEscapedChar: unexpected end of input".toList
          | c1 :: rest1 =>
            if c1 ≠ '\\'.toNat then .ok (appendRune r, rest)
            else
              match rest1 with
              | [] => .error "readEscapedChar: unexpected end of input".toList
              | c2 :: rest2 =>
                if c2 ≠ 'u'.toNat then
                  match readEscapedChar fuel c2 rest2 with
                  | .error e => .error e
                  | .unmodelled => .unmodelled
                  | .ok (cs, rest3) => .ok (appendRune r ++ cs, rest3)
                else
                  match readU4 rest2 with
                  | .error e => .error e
                  | .unmodelled => .unmodelled
                  | .ok (r2, rest3) =>
                    if decodeRune r r2 = RuneError then
                      .ok (appendRune r ++ appendRune r2, rest3)
                    else .ok (appendRune (decodeRune r r2), rest3)
        else .ok (appendRune r, rest)
    else if c = '"'.toNat then .ok (['"'.toNat], inp)
    else if c = '\\'.toNat then .ok (['\\'.toNat], inp)
    else if c = '/'.toNat then .ok (['/'.toNat], inp)
    else if c = 'b'.toNat then .ok ([8], inp)
    else if c = 'f'.toNat then .ok ([12], inp)
    else if c = 'n'.toNat then .ok (['\n'.toNat], inp)
    else if c = 'r'.toNat then .ok (['\r'.toNat], inp)
    else if c = 't'.toNat then .ok (['\t'.toNat], inp)
    else .error "readEscapedChar: invalid escape char".toList

/-- The loop of `readStringSlowPath`, entered after the opening quote. -/
def readStringLoop : Nat → Bytes → Dec Bytes
  | 0, _ => .error "readStringSlowPath: unexpected end of input".toList
  | _ + 1, [] => .error "readStringSlowPath: unexpected end of input".toList
  | fuel + 1, c :: rest =>
    if c = '"'.toNat then .ok ([], rest)
    else if c = '\\'.toNat then
      match rest with
      | [] => .error "readStringSlowPath: unexpected end of input".toList
      | e :: rest1 =>
        match readEscapedChar (rest1.length + 1) e rest1 with
        | .error err => .error err
        | .unmodelled => .unmodelled
        | .ok (cs, rest2) =>
          match readStringLoop fuel rest2 with
          | .error err => .error err
          | .unmodelled => .unmodelled
          | .ok (s, rest3) => .ok (cs ++ s, rest3)
    else
      match readStringLoop fuel rest with
      | .error err => .error err
      | .unmodelled => .unmodelled
      | .ok (s, rest1) => .ok (c :: s, rest1)

/-- The method `readStringSlowPath`. -/
def readStringSlowPath (inp : Bytes) : Dec Bytes := readStringLoop (inp.length + 1) inp

/-- The scan `ReadString` makes first: `some true` when it reaches the closing
quote or a backslash over bytes that are no control characters, `some false`
on a control character, `none` when the input ends. -/
def readStringScan : Bytes → Option Bool
  | [] => none
  | c :: rest =>
    if c = '"'.toNat ∨ c = '\\'.toNat then some true
    else if c < 0x20 then some false
    else readStringScan rest

/-- The method `ReadString`: a string or `null`, which reads as the empty
string. -/
def ReadString (inp : Bytes) : Dec Bytes :=
  match skipWs inp with
  | [] => .error "ReadString: expects \" or n".toList
  | c :: rest =>
    if c = '"'.toNat then
      if readStringScan rest = some false then
        .error "ReadString: invalid control character found".toList
      else readStringSlowPath rest
    else if c = 'n'.toNat then
      match skipBytes (utf8 "ull".toList) rest with
      | .error e => .error e
      | .unmodelled => .unmodelled
      | .ok (_, rest1) => .ok ([], rest1)
    else .error "ReadString: expects \" or n".toList

/-- The constant `uint64SafeToMultiple10`. -/
def uint64SafeToMultiple10 : Nat := 1844674407370955160

/-- The table `intDigits`: the byte is a decimal digit. -/
def isDigitByte (b : Nat) : Bool := decide ('0'.toNat ≤ b) && decide (b ≤ '9'.toNat)

/-- The digit loop of `readUint64`, `value` held in a `uint64`. -/
def readUint64Loop : Bytes → Nat → Dec Nat
  | [], value => .ok (value, [])
  | c :: rest, value =>
    if isDigitByte c then
      let value2 := (value * 10 + (c - '0'.toNat)) % 2 ^ 64
      if value > uint64SafeToMultiple10 ∧ value2 < value then
        .error "readUint64: overflow".toList
      else readUint64Loop rest value2
    else if c = '.'.toNat then .error "assertInteger: can not decode float as int".toList
    else .ok (value, c :: rest)

/-- The method `readUint64`, `c` the first byte: a single `0`, or digits. -/
def readUint64 (c : Nat) (inp : Bytes) : Dec Nat :=
  if c = '0'.toNat then
    match inp with
    | [] => .ok (0, inp)
    | d :: _ =>
      if d = '.'.toNat then .error "assertInteger: can not decode float as int".toList
      else .ok (0, inp)
  else if isDigitByte c then readUint64Loop inp (c - '0'.toNat)
  else .error "readUint64: unexpected character".toList

/-- The method `ReadInt64`. -/
def ReadInt64 (inp : Bytes) : Dec Int :=
  match skipWs inp with
  | [] => .error "readUint64: unexpected character".toList
  | c :: rest =>
    if c = '-'.toNat then
      match rest with
      | [] => .error "readUint64: unexpected character".toList
      | c1 :: rest1 =>
        match readUint64 c1 rest1 with
        | .error e => .error e
        | .unmodelled => .unmodelled
        | .ok (val, rest2) =>
          if val > 2 ^ 63 then .error "ReadInt64: overflow".toList
          else .ok (-(val : Int), rest2)
    else
      match readUint64 c rest with
      | .error e => .error e
      | .unmodelled => .unmodelled
      | .ok (val, rest1) =>
        if val > 2 ^ 63 - 1 then .error "ReadInt64: overflow".toList
        else .ok ((val : Int), rest1)

/-- The decoder of an `int` field: `null` keeps the value. -/
def decodeInt (old : Int) (inp : Bytes) : Dec Int :=
  match skipWs inp with
  | [] => ReadInt64 inp
  | c :: rest =>
    if c = 'n'.toNat then
      match skipBytes (utf8 "ull".toList) rest with
      | .error e => .error e
      | .unmodelled => .unmodelled
      | .ok (_, rest1) => .ok (old, rest1)
    else ReadInt64 inp

/-- The byte with an ASCII capital lowered. -/
def lowerByte (b : Nat) : Nat := if 'A'.toNat ≤ b ∧ b ≤ 'Z'.toNat then b + 32 else b

/-- Reads a field name and the colon after it (`readFieldHash`): the name with
its ASCII capitals lowered. The library hashes the name and compares hashes;
the model compares names. -/
def readFieldName (inp : Bytes) : Dec Bytes :=
  match skipWs inp with
  | [] => .error "readFieldHash: expect \"".toList
  | c :: rest =>
    if c ≠ '"'.toNat then .error "readFieldHash: expect \"".toList
    else
      match readStringSlowPath rest with
      | .error e => .error e
      | .unmodelled => .unmodelled
      | .ok (name, rest1) =>
        match skipWs rest1 with
        | [] => .error "readFieldHash: expect :".toList
        | d :: rest2 =>
          if d = ':'.toNat then .ok (name.map lowerByte, rest2)
          else .error "readFieldHash: expect :".toList

/-- The method `readObjectStart`: `true` when fields follow, `false` on an
empty object and on `null`. -/
def readObjectStart (inp : Bytes) : Dec Bool :=
  match skipWs inp with
  | [] => .error "readObjectStart: expect an object or null".toList
  | c :: rest =>
    if c = '\x7b'.toNat then
      match skipWs rest with
      | [] => .ok (true, [])
      | d :: rest1 => if d = '\x7d'.toNat then .ok (false, rest1) else .ok (true, d :: rest1)
    else if c = 'n'.toNat then
      match skipBytes (utf8 "ull".toList) rest with
      | .error e => .error e
      | .unmodelled => .unmodelled
      | .ok (_, rest1) => .ok (false, rest1)
    else .error "readObjectStart: expect an object or null".toList

/-- The method `isObjectEnd`, after a member: `false` on a comma, `true` on the
closing brace. -/
def isObjectEnd (inp : Bytes) : Dec Bool :=
  match skipWs inp with
  | [] => .error "isObjectEnd: object ended prematurely".toList
  | c :: rest =>
    if c = ','.toNat then .ok (false, rest)
    else if c = '\x7d'.toNat then .ok (true, rest)
    else .error "isObjectEnd: object ended prematurely".toList

/-- One member of an element of `Assets`, its name read. -/
def decodeAssetField (key : Bytes) (a : rawAsset) (inp : Bytes) : Dec rawAsset :=
  if key = utf8 "id".toList then
    match decodeInt a.ID inp with
    | .error e => .error e
    | .unmodelled => .unmodelled
    | .ok (v, rest) => .ok ({ a with ID := v }, rest)
  else if key = utf8 "name".toList then
    match ReadString inp with
    | .error e => .error e
    | .unmodelled => .unmodelled
    | .ok (v, rest) => .ok ({ a with Name := v }, rest)
  else if key = utf8 "browser_download_url".toList then
    match ReadString inp with
    | .error e => .error e
    | .unmodelled => .unmodelled
    | .ok (v, rest) => .ok ({ a with DownloadURL := v }, rest)
  else .unmodelled

/-- The member loop of the decoder of an element of `Assets`. -/
def decodeAssetFields : Nat → rawAsset → Bytes → Dec rawAsset
  | 0, _, _ => .error "incomplete object".toList
  | fuel + 1, a, inp =>
    match readFieldName inp with
    | .error e => .error e
    | .unmodelled => .unmodelled
    | .ok (key, rest) =>
      match decodeAssetField key a rest with
      | .error e => .error e
      | .unmodelled => .unmodelled
      | .ok (a1, rest1) =>
        match isObjectEnd rest1 with
        | .error e => .error e
        | .unmodelled => .unmodelled
        | .ok (true, rest2) => .ok (a1, rest2)
        | .ok (false, rest2) => decodeAssetFields fuel a1 rest2

/-- The decoder of an element of `Assets`, into the zero element the slice has
grown by. -/
def decodeAsset (inp : Bytes) : Dec rawAsset :=
  let a : rawAsset := { ID := 0, Name := [], DownloadURL := [] }
  match readObjectStart inp with
  | .error e => .error e
  | .unmodelled => .unmodelled
  | .ok (false, rest) => .ok (a, rest)
  | .ok (true, rest) => decodeAssetFields (rest.length + 1) a rest

/-- The element loop of the slice decoder: `acc` holds the elements read, last
one first. -/
def decodeAssetsLoop : Nat → List rawAsset → Bytes → Dec (List rawAsset)
  | 0, _, _ => .error "decode slice: incomplete array".toList
  | fuel + 1, acc, inp =>
    match decodeAsset inp with
    | .error e => .error e
    | .unmodelled => .unmodelled
    | .ok (a, rest) =>
      match skipWs rest with
      | [] => .error "decode slice: expect ]".toList
      | c :: rest1 =>
        if c = ','.toNat then decodeAssetsLoop fuel (a :: acc) rest1
        else if c = ']'.toNat then .ok ((a :: acc).reverse, rest1)
        else .error "decode slice: expect ]".toList

/-- The decoder of the field `Assets` while it is nil: `null` is the nil
slice, `[]` the empty one. -/
def decodeAssets (inp : Bytes) : Dec (Option (List rawAsset)) :=
  match skipWs inp with
  | [] => .error "decode slice: expect [ or n".toList
  | c :: rest =>
    if c = 'n'.toNat then
      match skipBytes (utf8 "ull".toList) rest with
      | .error e => .error e
      | .unmodelled => .unmodelled
      | .ok (_, rest1) => .ok (none, rest1)
    else if c = '['.toNat then
      match skipWs rest with
      | [] => .error "decode slice: expect ]".toList
      | d :: rest1 =>
        if d = ']'.toNat then .ok (some [], rest1)
        else
          match decodeAssetsLoop (rest1.length + 2) [] (d :: rest1) with
          | .error e => .error e
          | .unmodelled => .unmodelled
          | .ok (l, rest2) => .ok (some l, rest2)
    else .error "decode slice: expect [ or n".toList

/-- The member loop of the decoder of `releaseInfo`; `seen` tells that an
`assets` member has been decoded. -/
def decodeReleaseFields : Nat → Bool → rawReleaseInfo → Bytes → Dec rawReleaseInfo
  | 0, _, _, _ => .error "incomplete object".toList
  | fuel + 1, seen, i, inp =>
    match readFieldName inp with
    | .error e => .error e
    | .unmodelled => .unmodelled
    | .ok (key, rest) =>
      let field : Dec (rawReleaseInfo × Bool) :=
        if key = utf8 "tag_name".toList then
          match ReadString rest with
          | .error e => .error e
          | .unmodelled => .unmodelled
          | .ok (v, rest1) => .ok (({ i with TagName := v }, seen), rest1)
        else if key = utf8 "assets".toList then
          if seen then .unmodelled
          else
            match decodeAssets rest with
            | .error e => .error e
            | .unmodelled => .unmodelled
            | .ok (v, rest1) => .ok (({ i with Assets := v }, true), rest1)
        else .unmodelled
      match field with
      | .error e => .error e
      | .unmodelled => .unmodelled
      | .ok ((i1, seen1), rest1) =>
        match isObjectEnd rest1 with
        | .error e => .error e
        | .unmodelled => .unmodelled
        | .ok (true, rest2) => .ok (i1, rest2)
        | .ok (false, rest2) => decodeReleaseFields fuel seen1 i1 rest2

/-- The function `jsoniter.Unmarshal(data, &info)` for a fresh `info` of type
`releaseInfo`: the value decoded, or the error. After the value the input must
end, white space apart; a zero byte counts as its end. -/
def Unmarshal (data : Bytes) : Res rawReleaseInfo :=
  let decoded : Dec rawReleaseInfo :=
    match readObjectStart data with
    | .error e => .error e
    | .unmodelled => .unmodelled
    | .ok (false, rest) => .ok (rawReleaseInfo.zero, rest)
    | .ok (true, rest) => decodeReleaseFields (rest.length + 1) false rawReleaseInfo.zero rest
  match decoded with
  | .error e => .error e
  | .unmodelled => .unmodelled
  | .ok (info, rest) =>
    match skipWs rest with
    | [] => .ok info
    | c :: _ =>
      if c = 0 then .ok info
      else .error "Unmarshal: there are bytes left after unmarshal".toList

/-- The codec of the example worlds, made of the model of `jsoniter`, for
releases that are text. Where the model leaves the library's answer open, and
where a decoded string is not valid UTF-8, it answers with an error; no file
and no body of the example worlds is such an input. -/
def exampleCodec : Codec where
  Marshal := fun i => .ok (Marshal i.raw)
  Unmarshal := fun data =>
    match Unmarshal data with
    | .error e => .error e
    | .unmodelled => .error "input outside the model of the codec".toList
    | .ok info =>
      match info.text with
      | some i => .ok i
      | none => .error "string outside the model: not valid UTF-8".toList

/-! ## A concrete world

An in-memory file tree, a table of URLs and a table of archives, for running
the package on examples. Paths are looked up in their `Clean` form. -/

/-- The state of the concrete world. -/
structure Sim where
  /-- The directories that can be listed, with their listing. -/
  listings : List (Str × List FileInfo)
  /-- The regular files, with their content. -/
  files : List (Str × Bytes)
  /-- The URLs that answer, with status code, status line and body. -/
  web : List (Str × Response × Bytes)
  /-- The byte strings that are archives, with their entries and the content
  of each. -/
  archives : List (Bytes × List (ZipFile × Bytes))

namespace Sim

/-- The error every failing call of the concrete world returns. -/
def fail (what : String) : IOErr := { msg := what.toList }

/-- Sets the content of a file, creating it when it is missing. -/
def setFile (w : Sim) (p : Str) (data : Bytes) : Sim :=
  { w with files := (Clean p, data) :: w.files.filter (fun f => f.1 ≠ Clean p) }

/-- The content of the regular file at a path. -/
def file (w : Sim) (p : Str) : Option Bytes := w.files.lookup (Clean p)

/-- The listing of the directory at a path. -/
def listing (w : Sim) (p : Str) : Option (List FileInfo) := w.listings.lookup (Clean p)

/-- What reading a handle to its end yields. -/
def content (w : Sim) : Handle → Option Bytes
  | .file p => w.file p
  | .body url => (w.web.lookup url).map (·.2)
  | .zipEntry archive name =>
    match w.file archive with
    | none => none
    | some bytes =>
      match w.archives.lookup bytes with
      | none => none
      | some entries => (entries.find? (fun e => e.1.Name = name)).map (·.2)

/-- The calls, answered from the tables. -/
def os : OS Sim where
  Stat := fun p w =>
    if (w.file p).isSome ∨ (w.listing p).isSome then (none, w)
    else (some (fail "no such file or directory"), w)
  ReadDir := fun p w =>
    match w.listing p with
    | some l => (.ok l, w)
    | none => (.error (fail "no such file or directory"), w)
  Open := fun p w =>
    if (w.file p).isSome then (none, w)
    else (some (fail "no such file or directory"), w)
  ReadAll := fun h w =>
    match w.content h with
    | some data => (.ok data, w)
    | none => (.error (fail "read error"), w)
  Close := fun _ w => w
  MkdirAll := fun _ _ w => (none, w)
  Create := fun p w => (none, w.setFile p [])
  OpenFile := fun p _ w => (none, w.setFile p [])
  Write := fun h data w =>
    match h with
    | .file p => (none, w.setFile p ((w.file p).getD [] ++ data))
    | _ => (some (fail "not a file"), w)
  Copy := fun dst src w =>
    match dst, w.content src with
    | .file p, some data => (none, w.setFile p ((w.file p).getD [] ++ data))
    | _, _ => (some (fail "copy error"), w)
  Remove := fun p w =>
    if (w.file p).isSome then
      (none, { w with files := w.files.filter (fun f => f.1 ≠ Clean p) })
    else (some (fail "no such file or directory"), w)
  HttpGet := fun url w =>
    match w.web.lookup url with
    | some r => (.ok r.1, w)
    | none => (.error (fail "no such host"), w)
  ZipOpenReader := fun p w =>
    match w.file p with
    | none => (.error (fail "no such file or directory"), w)
    | some bytes =>
      match w.archives.lookup bytes with
      | none => (.error (fail "zip: not a valid zip file"), w)
      | some entries => (.ok (entries.map (·.1)), w)
  ZipEntryOpen := fun archive name w =>
    if (w.content (.zipEntry archive name)).isSome then (none, w)
    else (some (fail "zip: entry not found"), w)

/-- A run starts with an empty trace. -/
def start (w : Sim) : St Sim := { world := w, trace := [] }

end Sim
/-! ## Notions the statements use -/

/-- The number a group of decimal digits denotes. -/
def digitsVal (ds : Str) : Nat := ds.foldl (fun n c => n * 10 + (c.toNat - '0'.toNat)) 0

/-- The tag whose dot-separated groups are `gs`. -/
def tagOf (gs : List Str) : Str := List.intercalate ['.'] gs

/-- A group of decimal digits: at least one character, all of them digits. -/
def isDigitGroup (g : Str) : Bool := !g.isEmpty && g.all Char.isDigit

/-- The ordinal `isOlderDir` derives from a directory name: the value `Atoi`
returns for the name without its underscores. -/
def dirOrdinal (name : Str) : Int := (Atoi (ReplaceAll name '_' [])).1

/-- The ordinal `isNewer` and `isOlderDir` derive from a tag: the value `Atoi`
returns for the tag without its dots. -/
def tagOrdinal (tag : Str) : Int := (Atoi (ReplaceAll tag '.' [])).1

/-- The calls a run made from state `s` to state `t`. -/
def St.since {W : Type} (s t : St W) : List Event := t.trace.drop s.trace.length

/-- A call that removes a file. -/
def Event.isRemove : Event → Bool
  | .remove _ => true
  | _ => false

/-- A call that only reads the cache: listing a directory, opening, reading and
closing a file. -/
def Event.isCacheRead : Event → Bool
  | .readDir _ => true
  | .openRead _ => true
  | .readAll (.file _) => true
  | .close (.file _) => true
  | _ => false

/-- A marker check, whatever its answer. -/
def Event.isStat : Event → Bool
  | .stat _ _ => true
  | _ => false

/-- The input after a number: it ends there, or goes on with a byte that is no
digit and no dot. -/
def intEnd (rest : Bytes) : Prop :=
  ∀ c t, rest = c :: t → isDigitByte c = false ∧ c ≠ '.'.toNat

/-- What the string writer puts for one character of a string that is text:
an escape, or the bytes of the character. -/
def writeChar (c : Char) : Bytes :=
  if c.toNat < 0x80 then (if htmlSafe c.toNat then [c.toNat] else writeEscaped c.toNat)
  else if c.toNat = 0x2028 ∨ c.toNat = 0x2029 then
    utf8 "\\u202".toList ++ [hexDigit (c.toNat % 16)]
  else encodeRune c.toNat

/-- The number a string of digit bytes denotes. -/
def bytesVal (ds : Bytes) : Nat := ds.foldl (fun n b => n * 10 + (b - '0'.toNat)) 0

/-- The identifiers of the assets fit the type `int`. -/
def releaseInfo.idsInRange (i : releaseInfo) : Bool :=
  (i.Assets.getD []).all (fun a => decide (-(2 : Int) ^ 63 ≤ a.ID) && decide (a.ID < (2 : Int) ^ 63))

/-- A field name as the encoder writes it: no quote, no backslash, no capital. -/
def plainName (key : Bytes) : Bool :=
  key.all (fun b => b != '"'.toNat && b != '\\'.toNat && lowerByte b == b)

/-- The name of the marker file of a SavedModel. -/
def marker : Str := "saved_model.pb".toList

/-- The entry `getLatestCached` makes of a directory it selects. -/
def entryOf (folder name : Str) : releaseInfo :=
  { LocalPath := Join folder name, TagName := name, Assets := none }

/-- The entry the scan of `getLatestCached` starts with. -/
def startEntry : releaseInfo := { LocalPath := [], TagName := ['0'], Assets := none }

/-- A string read as a decimal integer, an optional sign and then digits; 0
when it is not one. -/
def decimalValue (s : Str) : Int :=
  match s with
  | '-' :: t => if isDigitGroup t then -(digitsVal t : Int) else 0
  | '+' :: t => if isDigitGroup t then (digitsVal t : Int) else 0
  | t => if isDigitGroup t then (digitsVal t : Int) else 0

/-- The ordinal of a directory name as the specification words it: the name
with every underscore removed, parsed as a decimal integer, 0 when
unparseable. -/
def specOrdinal (name : Str) : Int := decimalValue (ReplaceAll name '_' [])

/-- The value `strconv.Atoi` returns, in closed form. The string is read as
an optional sign and a body. For a body that is a non-empty string of digits
it is the integer denoted, cut to the range of `int`. For any other string it
is 0, unless the digits at the head of the body denote a number of `2^64` or
more: then it is the bound of `int` on the side of the sign. -/
def atoiValue (s : Str) : Int :=
  let neg := decide (s.head? = some '-')
  let body := match s with
    | [] => []
    | c :: t => if c = '+' ∨ c = '-' then t else c :: t
  let v := digitsVal (body.takeWhile Char.isDigit)
  if body = [] then 0
  else if body.all Char.isDigit then
    if neg then (if v > 2 ^ 63 then -(2 : Int) ^ 63 else -(v : Int))
    else (if v ≥ 2 ^ 63 then (2 : Int) ^ 63 - 1 else (v : Int))
  else if v ≥ 2 ^ 64 then (if neg then -(2 : Int) ^ 63 else (2 : Int) ^ 63 - 1)
  else 0

deriving instance DecidableEq for Except

/-! ## Example worlds -/

/-- The environment with no variable set. -/
def emptyEnv : Env := fun _ => []

/-- A subdirectory in a listing. -/
def subdir (name : String) : FileInfo := { Name := name.toList, IsDir := true }

/-- The answer `200 OK`. -/
def ok200 : Response := { StatusCode := 200, Status := "200 OK".toList }

/-- The release with tag `tag` and the one asset `mobilenet_v2_140_224.1.zip`,
to be downloaded from `https://example.org/` followed by the tag. -/
def releaseOf (tag : String) : releaseInfo :=
  { LocalPath := [], TagName := tag.toList,
    Assets := some [{ ID := 1, Name := "mobilenet_v2_140_224.1.zip".toList,
                      DownloadURL := "https://example.org/".toList ++ tag.toList }] }

/-- The JSON text of `releaseOf tag`, as a metadata file or an answer of the
feed holds it. -/
def jsonOf (tag : String) : Bytes :=
  utf8 ("\x7b\"tag_name\":\"".toList ++ tag.toList ++
    "\",\"assets\":[\x7b\"id\":1,\"name\":\"mobilenet_v2_140_224.1.zip\",".toList ++
    "\"browser_download_url\":\"https://example.org/".toList ++ tag.toList ++
    "\"\x7d]\x7d".toList)

/-- The bytes the example worlds serve as the model archive. -/
def archiveBytes : Bytes := utf8 "PK-model".toList

/-- The entries of that archive: the model directory and its marker file. -/
def archiveEntries : List (ZipFile × Bytes) :=
  [({ Name := "mobilenet_v2_140_224/".toList, IsDir := true, Mode := 0o755 }, []),
   ({ Name := "mobilenet_v2_140_224/saved_model.pb".toList, IsDir := false, Mode := 0o644 },
      utf8 "model".toList)]

/-- The fallback asset's address. -/
def fallbackURL : Str :=
  "https://github.com/GantMan/nsfw_model/releases/download/1.2.0/mobilenet_v2_140_224.1.zip".toList

/-- The model directory of the cache entry `1_2_0` under the default root. -/
def modelDir120 : Str := ".models/1_2_0/model/mobilenet_v2_140_224".toList

/-- A cache root with the two entries `1_10_0` and `1_9_0`, listed in the
order of their names, as `ioutil.ReadDir` returns them. -/
def worldTwoEntries : Sim :=
  { listings := [(".models".toList, [subdir "1_10_0", subdir "1_9_0"])]
    files := [(".models/1_10_0/meta.json".toList, jsonOf "1.10.0"),
              (".models/1_9_0/meta.json".toList, jsonOf "1.9.0")]
    web := []
    archives := [] }

/-- A cache root whose one entry has a name that is no decimal integer and
starts with twenty digits. -/
def worldLongName : Sim :=
  { listings := [(".models".toList, [subdir "99999999999999999999x"])]
    files := [(".models/99999999999999999999x/meta.json".toList, jsonOf "1.2.0")]
    web := []
    archives := [] }

/-- A cache root whose subdirectories `0` and `latest` have the ordinal 0, next
to a regular file with a positive one. -/
def worldNoOrdinal : Sim :=
  { listings := [(".models".toList,
      [subdir "0", { Name := "1_2_0".toList, IsDir := false }, subdir "latest"])]
    files := [(".models/0/meta.json".toList, jsonOf "0"),
              (".models/latest/meta.json".toList, jsonOf "1.2.0")]
    web := []
    archives := [] }

/-- A valid cache entry at tag 1.2.0, and a feed that answers release 1.3.0. -/
def worldNewerRemote : Sim :=
  { listings := [(".models".toList, [subdir "1_2_0"])]
    files := [(".models/1_2_0/meta.json".toList, jsonOf "1.2.0"),
              (".models/1_2_0/model/mobilenet_v2_140_224/saved_model.pb".toList, utf8 "model".toList)]
    web := [(feedURL, ok200, jsonOf "1.3.0"),
            ("https://example.org/1.3.0".toList, ok200, archiveBytes)]
    archives := [(archiveBytes, archiveEntries)] }

/-- A cache entry at tag 1.2.0 whose metadata lists no asset. -/
def worldNoAssets : Sim :=
  { listings := [(".models".toList, [subdir "1_2_0"])]
    files := [(".models/1_2_0/meta.json".toList,
                utf8 "\x7b\"tag_name\":\"1.2.0\",\"assets\":[]\x7d".toList)]
    web := [(fallbackURL, ok200, archiveBytes)]
    archives := [(archiveBytes, archiveEntries)] }

/-- A cache entry at tag 1.2.0 whose model directory lacks the marker file, a
feed that does not answer, and the fallback asset on offer. -/
def worldBrokenEntry : Sim :=
  { listings := [(".models".toList, [subdir "1_2_0"])]
    files := [(".models/1_2_0/meta.json".toList, jsonOf "1.2.0")]
    web := [(fallbackURL, ok200, archiveBytes)]
    archives := [(archiveBytes, archiveEntries)] }

/-- An environment that sets the override path, with blanks around it. -/
def overrideEnv : Env := fun key =>
  if key = "NSFW_MODEL_PATH".toList then " /opt/model ".toList else []

/-- A world with a SavedModel at the override path and nothing else. -/
def worldOverride : Sim :=
  { listings := []
    files := [("/opt/model/saved_model.pb".toList, utf8 "model".toList)]
    web := []
    archives := [] }




/-! # Theorems -/

/-! ## Calls and the trace -/

section TraceLemmas
variable {W : Type}

@[simp] theorem step_trace (s : St W) (e : Event) (w : W) :
    (s.step e w).trace = s.trace ++ [e] := rfl

@[simp] theorem step_world (s : St W) (e : Event) (w : W) : (s.step e w).world = w := rfl

@[simp] theorem callStat_fst (os : OS W) (p : Str) (s : St W) :
    (callStat os p s).1 = (os.Stat p s.world).1 := rfl

@[simp] theorem callStat_trace (os : OS W) (p : Str) (s : St W) :
    (callStat os p s).2.trace = s.trace ++ [.stat p (os.Stat p s.world).1.isNone] := rfl

@[simp] theorem callStat_world (os : OS W) (p : Str) (s : St W) :
    (callStat os p s).2.world = (os.Stat p s.world).2 := rfl

@[simp] theorem callReadDir_fst (os : OS W) (p : Str) (s : St W) :
    (callReadDir os p s).1 = (os.ReadDir p s.world).1 := rfl

@[simp] theorem callReadDir_trace (os : OS W) (p : Str) (s : St W) :
    (callReadDir os p s).2.trace = s.trace ++ [.readDir p] := rfl

@[simp] theorem callOpen_trace (os : OS W) (p : Str) (s : St W) :
    (callOpen os p s).2.trace = s.trace ++ [.openRead p] := rfl

@[simp] theorem callReadAll_trace (os : OS W) (h : Handle) (s : St W) :
    (callReadAll os h s).2.trace = s.trace ++ [.readAll h] := rfl

@[simp] theorem callClose_trace (os : OS W) (h : Handle) (s : St W) :
    (callClose os h s).trace = s.trace ++ [.close h] := rfl

@[simp] theorem callMkdirAll_trace (os : OS W) (p : Str) (perm : Nat) (s : St W) :
    (callMkdirAll os p perm s).2.trace = s.trace ++ [.mkdirAll p] := rfl

@[simp] theorem callCreate_trace (os : OS W) (p : Str) (s : St W) :
    (callCreate os p s).2.trace = s.trace ++ [.create p] := rfl

@[simp] theorem callOpenFile_trace (os : OS W) (p : Str) (mode : Nat) (s : St W) :
    (callOpenFile os p mode s).2.trace = s.trace ++ [.openFile p] := rfl

@[simp] theorem callWrite_trace (os : OS W) (h : Handle) (data : Bytes) (s : St W) :
    (callWrite os h data s).2.trace = s.trace ++ [.write h data] := rfl

@[simp] theorem callCopy_trace (os : OS W) (dst src : Handle) (s : St W) :
    (callCopy os dst src s).2.trace = s.trace ++ [.copy dst src] := rfl

@[simp] theorem callRemove_fst (os : OS W) (p : Str) (s : St W) :
    (callRemove os p s).1 = (os.Remove p s.world).1 := rfl

@[simp] theorem callRemove_trace (os : OS W) (p : Str) (s : St W) :
    (callRemove os p s).2.trace = s.trace ++ [.remove p] := rfl

@[simp] theorem callHttpGet_fst (os : OS W) (url : Str) (s : St W) :
    (callHttpGet os url s).1 = (os.HttpGet url s.world).1 := rfl

@[simp] theorem callHttpGet_trace (os : OS W) (url : Str) (s : St W) :
    (callHttpGet os url s).2.trace = s.trace ++ [.httpGet url] := rfl

@[simp] theorem callHttpGet_world (os : OS W) (url : Str) (s : St W) :
    (callHttpGet os url s).2.world = (os.HttpGet url s.world).2 := rfl

@[simp] theorem callZipOpenReader_trace (os : OS W) (p : Str) (s : St W) :
    (callZipOpenReader os p s).2.trace = s.trace ++ [.zipOpen p] := rfl

@[simp] theorem callZipEntryOpen_trace (os : OS W) (a n : Str) (s : St W) :
    (callZipEntryOpen os a n s).2.trace = s.trace ++ [.zipEntryOpen a n] := rfl

/-- The calls made since `s`, when the trace grew by `evs`. -/
theorem since_of_trace_eq {s t : St W} {evs : List Event} (h : t.trace = s.trace ++ evs) :
    s.since t = evs := by
  simp [St.since, h]

/-- The marker check: its answer, and the one call it records. -/
theorem looksLikeSavedModel_eq (os : OS W) (dir : Str) (s : St W) :
    looksLikeSavedModel os dir s =
      ((os.Stat (Join dir marker) s.world).1.isNone,
        s.step (.stat (Join dir marker) (os.Stat (Join dir marker) s.world).1.isNone)
          (os.Stat (Join dir marker) s.world).2) := rfl

theorem looksLikeSavedModel_trace (os : OS W) (dir : Str) (s : St W) :
    (looksLikeSavedModel os dir s).2.trace =
      s.trace ++ [.stat (Join dir marker) (looksLikeSavedModel os dir s).1] := rfl

end TraceLemmas

/-! ## Tags and `isNewer` -/

theorem isDigitGroup_spec {g : Str} (h : isDigitGroup g = true) :
    g ≠ [] ∧ ∀ c ∈ g, c.isDigit = true := by
  simp only [isDigitGroup, Bool.and_eq_true, Bool.not_eq_true', List.isEmpty_eq_false,
    List.all_eq_true] at h
  exact h

theorem isDigit_bounds {c : Char} (h : c.isDigit = true) : 48 ≤ c.toNat ∧ c.toNat ≤ 57 := by
  simp only [Char.isDigit, Bool.and_eq_true, decide_eq_true_eq] at h
  obtain ⟨h1, h2⟩ := h
  have h1' : (48 : UInt32).toNat ≤ c.val.toNat := h1
  have h2' : c.val.toNat ≤ (57 : UInt32).toNat := h2
  exact ⟨h1', h2'⟩

theorem isDigit_utf8Size {c : Char} (h : c.isDigit = true) : c.utf8Size = 1 := by
  have hb := isDigit_bounds h
  have : c.val ≤ 127 := by
    show c.val.toNat ≤ (127 : UInt32).toNat
    have : c.toNat = c.val.toNat := rfl
    have e : (127 : UInt32).toNat = 127 := by decide
    omega
  simp [Char.utf8Size, this]

theorem isDigit_ne {c : Char} (h : c.isDigit = true) :
    c ≠ '-' ∧ c ≠ '+' ∧ c ≠ '.' ∧ c ≠ '_' := by
  have hb := isDigit_bounds h
  refine ⟨?_, ?_, ?_, ?_⟩ <;> (rintro rfl; revert hb; decide)

theorem byteLen_digits (ds : Str) (h : ∀ c ∈ ds, c.isDigit = true) : byteLen ds = ds.length := by
  induction ds with
  | nil => rfl
  | cons c cs ih =>
    have hc := isDigit_utf8Size (h c (List.mem_cons_self _ _))
    have := ih (fun x hx => h x (List.mem_cons_of_mem _ hx))
    simp only [byteLen, List.map_cons, List.sum_cons, List.length_cons] at this ⊢
    omega

theorem foldl_digits_acc (ds : Str) (n : Nat) :
    ds.foldl (fun n c => n * 10 + (c.toNat - '0'.toNat)) n
      = n * 10 ^ ds.length + digitsVal ds := by
  induction ds generalizing n with
  | nil => simp [digitsVal]
  | cons c cs ih =>
    simp only [List.foldl_cons, List.length_cons, digitsVal]
    rw [ih, ih (0 * 10 + _)]
    ring

theorem digitsVal_append (a b : Str) :
    digitsVal (a ++ b) = digitsVal a * 10 ^ b.length + digitsVal b := by
  unfold digitsVal
  rw [List.foldl_append, foldl_digits_acc]
  rfl

theorem digitsVal_lt (ds : Str) (h : ∀ c ∈ ds, c.isDigit = true) :
    digitsVal ds < 10 ^ ds.length := by
  induction ds using List.reverseRecOn with
  | nil => simp [digitsVal]
  | append_singleton cs c ih =>
    have hc := isDigit_bounds (h c (by simp))
    have := ih (fun x hx => h x (by simp [hx]))
    rw [digitsVal_append]
    have e : digitsVal [c] = c.toNat - 48 := by simp [digitsVal]
    simp only [List.length_append, List.length_singleton, pow_succ, pow_zero, e]
    omega


theorem atoiFastLoop_digits (ds : Str) (h : ∀ c ∈ ds, c.isDigit = true) (n : Nat) :
    atoiFastLoop ds n = some (ds.foldl (fun n c => n * 10 + (c.toNat - '0'.toNat)) n) := by
  induction ds generalizing n with
  | nil => rfl
  | cons c cs ih =>
    simp only [atoiFastLoop, h c (List.mem_cons_self _ _), if_true, List.foldl_cons]
    exact ih (fun x hx => h x (List.mem_cons_of_mem _ hx)) _

/-- On one to eighteen decimal digits `Atoi` returns the number they denote. -/
theorem Atoi_digits (ds : Str) (hne : ds ≠ []) (h : ∀ c ∈ ds, c.isDigit = true)
    (hlen : ds.length ≤ 18) : Atoi ds = ((digitsVal ds : Int), none) := by
  have hb := byteLen_digits ds h
  cases ds with
  | nil => exact absurd rfl hne
  | cons c cs =>
    have hc := isDigit_ne (h c (List.mem_cons_self _ _))
    have hl : 0 < byteLen (c :: cs) ∧ byteLen (c :: cs) < 19 := by
      rw [hb]; simp only [List.length_cons] at hlen ⊢; omega
    simp only [Atoi, hl, and_self, if_true, hc.1, hc.2.1, or_self, decide_False,
      Bool.false_eq_true, false_and, if_false, atoiFastLoop_digits (c :: cs) h 0]
    rfl

theorem ReplaceAll_append (a b : Str) (old : Char) (new : Str) :
    ReplaceAll (a ++ b) old new = ReplaceAll a old new ++ ReplaceAll b old new := by
  simp [ReplaceAll, List.flatMap_append]

theorem ReplaceAll_absent (a : Str) (old : Char) (new : Str) (h : ∀ c ∈ a, c ≠ old) :
    ReplaceAll a old new = a := by
  induction a with
  | nil => rfl
  | cons c cs ih =>
    have := ih (fun x hx => h x (List.mem_cons_of_mem _ hx))
    simp only [ReplaceAll, List.flatMap_cons] at this ⊢
    rw [this]
    simp [h c (List.mem_cons_self _ _)]

theorem ReplaceAll_tagOf (gs : List Str) (h : ∀ g ∈ gs, isDigitGroup g = true) :
    ReplaceAll (tagOf gs) '.' [] = gs.flatten := by
  induction gs with
  | nil => rfl
  | cons g gs ih =>
    have hg : ReplaceAll g '.' [] = g :=
      ReplaceAll_absent g '.' [] (fun c hc => (isDigit_ne ((isDigitGroup_spec (h g (List.mem_cons_self _ _))).2 c hc)).2.2.1)
    have ih' := ih (fun x hx => h x (List.mem_cons_of_mem _ hx))
    cases gs with
    | nil => simpa [tagOf, List.intercalate] using hg
    | cons g2 gs2 =>
      have e : tagOf (g :: g2 :: gs2) = g ++ ('.' :: tagOf (g2 :: gs2)) := by
        simp [tagOf, List.intercalate, List.intersperse]
      rw [e, ReplaceAll_append, hg]
      have e2 : ReplaceAll ('.' :: tagOf (g2 :: gs2)) '.' [] = ReplaceAll (tagOf (g2 :: gs2)) '.' [] := by
        simp [ReplaceAll, List.flatMap_cons]
      rw [e2, ih']
      simp

theorem tagOf_ne_nil (gs : List Str) (hne : gs ≠ []) (h : ∀ g ∈ gs, isDigitGroup g = true) :
    tagOf gs ≠ [] := by
  cases gs with
  | nil => exact absurd rfl hne
  | cons g gs =>
    have hg := (isDigitGroup_spec (h g (List.mem_cons_self _ _))).1
    cases gs with
    | nil => simpa [tagOf, List.intercalate] using hg
    | cons g2 gs2 =>
      simp [tagOf, List.intercalate, List.intersperse, hg]

theorem flatten_digits (gs : List Str) (h : ∀ g ∈ gs, isDigitGroup g = true) :
    ∀ c ∈ gs.flatten, c.isDigit = true := by
  intro c hc
  obtain ⟨g, hg, hcg⟩ := List.mem_flatten.mp hc
  exact (isDigitGroup_spec (h g hg)).2 c hcg

/-- With groups of pairwise equal widths, comparing the concatenated digits as
numbers is comparing the group values lexicographically. -/
theorem digitsVal_flatten_lt (ga : List Str) : ∀ (gb : List Str),
    ga.map List.length = gb.map List.length →
    (∀ g ∈ ga, isDigitGroup g = true) → (∀ g ∈ gb, isDigitGroup g = true) →
    (digitsVal gb.flatten < digitsVal ga.flatten ↔
      List.Lex (· < ·) (gb.map digitsVal) (ga.map digitsVal)) := by
  induction ga with
  | nil =>
    intro gb hw _ _
    cases gb with
    | nil => simp [digitsVal]
    | cons y ys => simp at hw
  | cons x xs ih =>
    intro gb hw ha hb
    cases gb with
    | nil => simp at hw
    | cons y ys =>
      simp only [List.map_cons, List.cons.injEq] at hw
      obtain ⟨hxy, hrest⟩ := hw
      have ih' := ih ys hrest (fun g hg => ha g (List.mem_cons_of_mem _ hg))
        (fun g hg => hb g (List.mem_cons_of_mem _ hg))
      have hlen : xs.flatten.length = ys.flatten.length := by
        simp only [List.length_flatten, hrest]
      have hx := digitsVal_lt xs.flatten
        (flatten_digits xs (fun g hg => ha g (List.mem_cons_of_mem _ hg)))
      have hy := digitsVal_lt ys.flatten
        (flatten_digits ys (fun g hg => hb g (List.mem_cons_of_mem _ hg)))
      simp only [List.flatten_cons, digitsVal_append, List.map_cons]
      rw [hlen] at hx ⊢
      generalize 10 ^ ys.flatten.length = P at hx hy ⊢
      generalize digitsVal xs.flatten = rx at hx ih' ⊢
      generalize digitsVal ys.flatten = ry at hy ih' ⊢
      generalize digitsVal x = vx
      generalize digitsVal y = vy
      constructor
      · intro hlt
        rcases Nat.lt_trichotomy vy vx with h | h | h
        · exact List.Lex.rel h
        · subst h
          exact List.Lex.cons (ih'.mp (by omega))
        · exfalso
          have : (vx + 1) * P ≤ vy * P := Nat.mul_le_mul_right _ h
          have e : (vx + 1) * P = vx * P + P := by ring
          omega
      · intro hlt
        cases hlt with
        | rel h =>
          have : (vy + 1) * P ≤ vx * P := Nat.mul_le_mul_right _ h
          have e : (vy + 1) * P = vy * P + P := by ring
          omega
        | cons h3 =>
          have := ih'.mpr h3
          omega

/-- C3. For two tags made of the same number of dot-separated groups of decimal
digits, corresponding groups equally wide and at most 18 digits in all,
`isNewer` holds exactly when the group values of the first tag are
lexicographically greater than those of the second; `isNewer` of "1.3.0" over
"1.2.0" is true and of "1.2.0" over "1.3.0" is false. -/
theorem isNewer_equal_width_groups (i than : releaseInfo) (ga gb : List Str)
    (hi : i.TagName = tagOf ga) (ht : than.TagName = tagOf gb)
    (hne : ga ≠ [])
    (ha : ∀ g ∈ ga, isDigitGroup g = true) (hb : ∀ g ∈ gb, isDigitGroup g = true)
    (hw : ga.map List.length = gb.map List.length)
    (hlen : ga.flatten.length ≤ 18) :
    (i.isNewer than = true ↔ List.Lex (· < ·) (gb.map digitsVal) (ga.map digitsVal))
    ∧ releaseInfo.isNewer { LocalPath := [], TagName := "1.3.0".toList, Assets := none }
        { LocalPath := [], TagName := "1.2.0".toList, Assets := none } = true
    ∧ releaseInfo.isNewer { LocalPath := [], TagName := "1.2.0".toList, Assets := none }
        { LocalPath := [], TagName := "1.3.0".toList, Assets := none } = false := by
  refine ⟨?_, by decide, by decide⟩
  have hneb : gb ≠ [] := by
    intro h; subst h
    cases ga with
    | nil => exact hne rfl
    | cons _ _ => simp at hw
  have hlenb : gb.flatten.length = ga.flatten.length := by
    simp only [List.length_flatten, hw]
  have hfa : ga.flatten ≠ [] := by
    cases ga with
    | nil => exact absurd rfl hne
    | cons g gs =>
      have := (isDigitGroup_spec (ha g (List.mem_cons_self _ _))).1
      simp [this]
  have hfb : gb.flatten ≠ [] := by
    intro h
    have : ga.flatten.length = 0 := by rw [← hlenb, h]; rfl
    exact hfa (List.length_eq_zero.mp this)
  have e1 := Atoi_digits ga.flatten hfa (flatten_digits ga ha) hlen
  have e2 := Atoi_digits gb.flatten hfb (flatten_digits gb hb) (by omega)
  have ht2 : tagOf gb ≠ [] := tagOf_ne_nil gb hneb hb
  simp only [releaseInfo.isNewer, hi, ht, if_neg ht2, ReplaceAll_tagOf ga ha,
    ReplaceAll_tagOf gb hb, e1, e2, gt_iff_lt, decide_eq_true_eq, Nat.cast_lt]
  exact digitsVal_flatten_lt ga gb hw ha hb

/-- C3 at an example: the tags 1.10.0 and 1.09.5, with groups of widths 1, 2
and 1. -/
theorem isNewer_equal_width_groups_witness :
    (releaseInfo.isNewer { LocalPath := [], TagName := "1.10.0".toList, Assets := none }
        { LocalPath := [], TagName := "1.09.5".toList, Assets := none } = true ↔
      List.Lex (· < ·) ([['1'], ['0', '9'], ['5']].map digitsVal)
        ([['1'], ['1', '0'], ['0']].map digitsVal))
    ∧ releaseInfo.isNewer { LocalPath := [], TagName := "1.3.0".toList, Assets := none }
        { LocalPath := [], TagName := "1.2.0".toList, Assets := none } = true
    ∧ releaseInfo.isNewer { LocalPath := [], TagName := "1.2.0".toList, Assets := none }
        { LocalPath := [], TagName := "1.3.0".toList, Assets := none } = false :=
  isNewer_equal_width_groups _ _ [['1'], ['1', '0'], ['0']] [['1'], ['0', '9'], ['5']]
    (by decide) (by decide) (by decide) (by decide) (by decide) (by decide) (by decide)

/-! ## The sign of `Atoi` -/

theorem ParseInt_neg_head (s : Str) (h : (ParseInt s).1 < 0) : ∃ t, s = '-' :: t := by
  cases s with
  | nil => simp [ParseInt] at h
  | cons c0 t =>
    by_cases hc : c0 = '-'
    · exact ⟨t, by rw [hc]⟩
    · exfalso
      simp only [ParseInt, hc, decide_False, Bool.not_false, true_and, Bool.false_eq_true,
        false_and, if_false] at h
      split at h
      · simp at h
      · split at h
        · norm_num at h
        · have : (0 : Int) ≤ ((ParseUint (if c0 = '+' ∨ False then t else c0 :: t)).1 : Int) :=
            Int.natCast_nonneg _
          simp_all
          omega

theorem ParseInt_minus_nonpos (t : Str) : (ParseInt ('-' :: t)).1 ≤ 0 := by
  simp only [ParseInt, decide_True, Bool.not_true, Bool.false_eq_true, false_and, if_false,
    or_true, if_true, true_and]
  split
  · simp
  · split
    · norm_num
    · simp

theorem ParseInt_dot_zero (t : Str) : (ParseInt ('.' :: t)).1 = 0 := by
  have h1 : ('.' : Char) ≠ '-' := by decide
  have h2 : ('.' : Char) ≠ '+' := by decide
  have h3 : ('.' : Char).isDigit = false := by decide
  simp [ParseInt, ParseUint, parseUintLoop, h1, h2, h3]

/-- The value `Atoi` returns is negative only for a string that starts with a
minus sign. -/
theorem Atoi_neg_head (s : Str) (h : (Atoi s).1 < 0) : ∃ t, s = '-' :: t := by
  unfold Atoi at h
  simp only at h
  split at h
  · cases s with
    | nil => simp at h
    | cons c0 t =>
      by_cases hc : c0 = '-'
      · exact ⟨t, by rw [hc]⟩
      · exfalso
        simp only [hc, if_false] at h
        generalize (if decide (False ∨ c0 = '+') = true then t else c0 :: t) = body at h
        split at h
        · simp at h
        · generalize atoiFastLoop body 0 = o at h
          cases o with
          | none => simp at h
          | some n =>
            have := Int.natCast_nonneg n
            simp only at h
            omega
  · exact ParseInt_neg_head s h

/-- On a string that starts with a minus sign `Atoi` returns no positive value. -/
theorem Atoi_minus_nonpos (t : Str) : (Atoi ('-' :: t)).1 ≤ 0 := by
  unfold Atoi
  simp only
  split
  · simp only [true_or, decide_True, if_true, true_and]
    split
    · simp
    · generalize atoiFastLoop _ 0 = o
      cases o with
      | none => simp
      | some n => simp
  · exact ParseInt_minus_nonpos t

/-- On a string that starts with a dot `Atoi` returns 0. -/
theorem Atoi_dot_zero (t : Str) : (Atoi ('.' :: t)).1 = 0 := by
  have h1 : ('.' : Char) ≠ '-' := by decide
  have h2 : ('.' : Char) ≠ '+' := by decide
  have h3 : ('.' : Char).isDigit = false := by decide
  unfold Atoi
  simp only
  split
  · simp [h1, h2, h3, atoiFastLoop]
  · exact ParseInt_dot_zero t

/-- A directory name with a positive ordinal has a tag ordinal that is not
negative: once such a name is the tag of `latest`, the left side of the
comparison in `isOlderDir` is at least 0. -/
theorem tagOrdinal_nonneg_of_dirOrdinal_pos (name : Str) (h : 0 < dirOrdinal name) :
    0 ≤ tagOrdinal name := by
  by_contra hneg
  have hlt : (Atoi (ReplaceAll name '.' [])).1 < 0 := by
    simpa [tagOrdinal] using hneg
  obtain ⟨t, ht⟩ := Atoi_neg_head _ hlt
  cases name with
  | nil => simp [ReplaceAll] at ht
  | cons c cs =>
    by_cases hdot : c = '.'
    · subst hdot
      have e : ReplaceAll ('.' :: cs) '_' [] = '.' :: ReplaceAll cs '_' [] := by
        simp [ReplaceAll, List.flatMap_cons]
      have := Atoi_dot_zero (ReplaceAll cs '_' [])
      simp only [dirOrdinal, e] at h
      omega
    · have e : ReplaceAll (c :: cs) '.' [] = c :: ReplaceAll cs '.' [] := by
        simp [ReplaceAll, List.flatMap_cons, hdot]
      rw [e] at ht
      have hc : c = '-' := (List.cons.inj ht).1
      subst hc
      have e2 : ReplaceAll ('-' :: cs) '_' [] = '-' :: ReplaceAll cs '_' [] := by
        simp [ReplaceAll, List.flatMap_cons]
      have := Atoi_minus_nonpos (ReplaceAll cs '_' [])
      simp only [dirOrdinal, e2] at h
      omega

/-! ## The scan of the cache root -/

theorem isOlderDir_iff (i : releaseInfo) (name : Str) :
    i.isOlderDir name = true ↔ tagOrdinal i.TagName < dirOrdinal name := by
  simp [releaseInfo.isOlderDir, tagOrdinal, dirOrdinal]

/-- What the scan returns: the entry it started with when no subdirectory beat
it, else the entry of a subdirectory of the listing with a positive ordinal. -/
theorem scanCached_result (folder : Str) (files : List FileInfo) :
    ∀ latest : releaseInfo, 0 ≤ tagOrdinal latest.TagName →
      (scanCached folder files latest = latest ∧
        ∀ f ∈ files, f.IsDir = true → ¬ tagOrdinal latest.TagName < dirOrdinal f.Name)
      ∨ ∃ f ∈ files, f.IsDir = true ∧ 0 < dirOrdinal f.Name ∧
          scanCached folder files latest = entryOf folder f.Name := by
  induction files with
  | nil => intro latest _; left; simp [scanCached]
  | cons file files ih =>
    intro latest hnn
    by_cases hd : file.IsDir = true
    · by_cases ho : latest.isOlderDir file.Name = true
      · have hlt := (isOlderDir_iff latest file.Name).mp ho
        have hpos : 0 < dirOrdinal file.Name := by omega
        have hstep : scanCached folder (file :: files) latest
            = scanCached folder files (entryOf folder file.Name) := by
          simp [scanCached, hd, ho, entryOf]
        rw [hstep]
        right
        rcases ih (entryOf folder file.Name)
            (tagOrdinal_nonneg_of_dirOrdinal_pos file.Name hpos) with ⟨h1, _⟩ | ⟨f, hf, hfd, hfp, hr⟩
        · exact ⟨file, List.mem_cons_self _ _, hd, hpos, h1⟩
        · exact ⟨f, List.mem_cons_of_mem _ hf, hfd, hfp, hr⟩
      · have hstep : scanCached folder (file :: files) latest
            = scanCached folder files latest := by
          simp [scanCached, hd, ho]
        rw [hstep]
        rcases ih latest hnn with ⟨h1, h2⟩ | ⟨f, hf, hfd, hfp, hr⟩
        · left
          refine ⟨h1, ?_⟩
          intro f hf hfd
          rcases List.mem_cons.mp hf with rfl | hf'
          · intro hlt; exact ho ((isOlderDir_iff latest f.Name).mpr hlt)
          · exact h2 f hf' hfd
        · right; exact ⟨f, List.mem_cons_of_mem _ hf, hfd, hfp, hr⟩
    · have hstep : scanCached folder (file :: files) latest
          = scanCached folder files latest := by
        simp [scanCached, hd]
      rw [hstep]
      rcases ih latest hnn with ⟨h1, h2⟩ | ⟨f, hf, hfd, hfp, hr⟩
      · left
        refine ⟨h1, ?_⟩
        intro f hf hfd
        rcases List.mem_cons.mp hf with rfl | hf'
        · exact absurd hfd hd
        · exact h2 f hf' hfd
      · right; exact ⟨f, List.mem_cons_of_mem _ hf, hfd, hfp, hr⟩

theorem tagOrdinal_start : tagOrdinal startEntry.TagName = 0 := by decide

theorem dirOrdinal_zero_name : dirOrdinal ['0'] = 0 := by decide

/-! ## The ordinal of a short name -/

theorem atoiFastLoop_eq (s : Str) : ∀ n,
    atoiFastLoop s n = if s.all Char.isDigit = true
      then some (s.foldl (fun n c => n * 10 + (c.toNat - '0'.toNat)) n) else none := by
  induction s with
  | nil => intro n; rfl
  | cons c cs ih =>
    intro n
    by_cases hc : c.isDigit = true
    · simp only [atoiFastLoop, hc, if_true, List.all_cons, Bool.true_and, List.foldl_cons]
      exact ih _
    · simp [atoiFastLoop, hc]

theorem byteLen_pos_of_ne_nil (s : Str) (h : s ≠ []) : 0 < byteLen s := by
  cases s with
  | nil => exact absurd rfl h
  | cons c cs =>
    have := Char.utf8Size_pos c
    simp only [byteLen, List.map_cons, List.sum_cons]
    omega

theorem decimalValue_minus (t : Str) :
    decimalValue ('-' :: t) = if isDigitGroup t then -(digitsVal t : Int) else 0 := rfl

theorem decimalValue_plus (t : Str) :
    decimalValue ('+' :: t) = if isDigitGroup t then (digitsVal t : Int) else 0 := rfl

theorem decimalValue_unsigned (c : Char) (t : Str) (hm : c ≠ '-') (hp : c ≠ '+') :
    decimalValue (c :: t) = if isDigitGroup (c :: t) then (digitsVal (c :: t) : Int) else 0 := by
  unfold decimalValue
  split
  · rename_i heq; simp only [List.cons.injEq] at heq; exact absurd heq.1 hm
  · rename_i heq; simp only [List.cons.injEq] at heq; exact absurd heq.1 hp
  · rfl

/-- The value of the digit loop, as an integer. -/
theorem fastValue (body : Str) (neg : Bool) :
    (match atoiFastLoop body 0 with
      | none => ((0 : Int), some NumError.ErrSyntax)
      | some n => (if neg = true then -(n : Int) else (n : Int), none)).1
    = if body.all Char.isDigit = true
        then (if neg = true then -(digitsVal body : Int) else (digitsVal body : Int)) else 0 := by
  rw [atoiFastLoop_eq]
  by_cases h : body.all Char.isDigit = true
  · simp only [h, if_true]; rfl
  · simp only [h, if_false]; rfl

/-- On fewer than 19 bytes `Atoi` returns the decimal integer the string
denotes, and 0 when it denotes none. -/
theorem Atoi_short (s : Str) (hlen : byteLen s < 19) : (Atoi s).1 = decimalValue s := by
  cases s with
  | nil => simp [Atoi, byteLen, ParseInt, decimalValue, isDigitGroup]
  | cons c0 t =>
    have hpos := byteLen_pos_of_ne_nil (c0 :: t) (by simp)
    have hfast : 0 < byteLen (c0 :: t) ∧ byteLen (c0 :: t) < 19 := ⟨hpos, hlen⟩
    unfold Atoi
    simp only [hfast, and_self, if_true]
    by_cases hm : c0 = '-'
    · subst hm
      rw [decimalValue_minus]
      simp only [true_or, decide_True, if_true, true_and]
      cases t with
      | nil => simp [isDigitGroup]
      | cons d ds =>
        have hl : ¬ (d :: ds).length < 1 := by simp
        rw [if_neg hl]
        have := fastValue (d :: ds) true
        simp only [if_true] at this
        rw [this]
        simp [isDigitGroup]
    · by_cases hp : c0 = '+'
      · subst hp
        rw [decimalValue_plus]
        have h1 : ('+' : Char) ≠ '-' := by decide
        simp only [h1, false_or, decide_True, if_true, true_and, if_false]
        cases t with
        | nil => simp [isDigitGroup]
        | cons d ds =>
          have hl : ¬ (d :: ds).length < 1 := by simp
          rw [if_neg hl]
          have := fastValue (d :: ds) false
          simp only [Bool.false_eq_true, if_false] at this
          rw [this]
          simp [isDigitGroup]
      · rw [decimalValue_unsigned c0 t hm hp]
        simp only [hm, hp, or_self, decide_False, Bool.false_eq_true, if_false, false_and]
        have := fastValue (c0 :: t) false
        simp only [Bool.false_eq_true, if_false] at this
        rw [this]
        simp [isDigitGroup]

/-- For a name of fewer than 19 bytes once its underscores are removed, the
ordinal the code derives is the one the specification words. -/
theorem dirOrdinal_eq_specOrdinal_of_short (name : Str)
    (h : byteLen (ReplaceAll name '_' []) < 19) : dirOrdinal name = specOrdinal name := by
  unfold dirOrdinal specOrdinal
  exact Atoi_short _ h

/-! ## The value of `Atoi` on any string -/

theorem digitsVal_cons (c : Char) (ds : Str) :
    digitsVal (c :: ds) = (c.toNat - '0'.toNat) * 10 ^ ds.length + digitsVal ds := by
  have h := digitsVal_append [c] ds
  simpa [digitsVal] using h

theorem takeWhile_digits_all (s : Str) : ∀ c ∈ s.takeWhile Char.isDigit, c.isDigit = true := by
  intro c hc
  exact (List.mem_takeWhile_imp hc)

theorem takeWhile_eq_self_of_all (s : Str) (h : s.all Char.isDigit = true) :
    s.takeWhile Char.isDigit = s := by
  induction s with
  | nil => rfl
  | cons c cs ih =>
    simp only [List.all_cons, Bool.and_eq_true] at h
    simp [List.takeWhile_cons, h.1, ih h.2]

/-- The loop of `ParseUint` in closed form: a range error as soon as the digits
at the head denote more than a `uint64` holds, else their value when nothing
follows them, else a syntax error. -/
theorem parseUintLoop_eq (s : Str) : ∀ n, n ≤ maxUint64 →
    parseUintLoop s n =
      if n * 10 ^ (s.takeWhile Char.isDigit).length + digitsVal (s.takeWhile Char.isDigit)
          > maxUint64
      then (maxUint64, some .ErrRange)
      else if s.all Char.isDigit = true
        then (n * 10 ^ (s.takeWhile Char.isDigit).length
          + digitsVal (s.takeWhile Char.isDigit), none)
        else (0, some .ErrSyntax) := by
  induction s with
  | nil =>
    intro n hn
    have : ¬ n > maxUint64 := by omega
    simp [parseUintLoop, digitsVal, this]
  | cons c cs ih =>
    intro n hn
    by_cases hc : c.isDigit = true
    · have hb := isDigit_bounds hc
      have hz : ('0' : Char).toNat = 48 := rfl
      have htw : (c :: cs).takeWhile Char.isDigit = c :: cs.takeWhile Char.isDigit := by
        simp [List.takeWhile_cons, hc]
      have hall : (c :: cs).all Char.isDigit = cs.all Char.isDigit := by
        simp [List.all_cons, hc]
      rw [htw, hall, digitsVal_cons, List.length_cons]
      generalize hd : cs.takeWhile Char.isDigit = d at *
      have hpos : 0 < 10 ^ d.length := pow_pos (by norm_num) _
      have hv : n * 10 ^ (d.length + 1) + ((c.toNat - '0'.toNat) * 10 ^ d.length + digitsVal d)
          = (n * 10 + (c.toNat - '0'.toNat)) * 10 ^ d.length + digitsVal d := by
        rw [pow_succ]; ring
      rw [hv]
      have hge : n * 10 + (c.toNat - '0'.toNat)
          ≤ (n * 10 + (c.toNat - '0'.toNat)) * 10 ^ d.length :=
        Nat.le_mul_of_pos_right _ hpos
      unfold parseUintLoop
      simp only [hc, if_true]
      by_cases h1 : n ≥ maxUint64 / 10 + 1
      · have hbig : (n * 10 + (c.toNat - '0'.toNat)) * 10 ^ d.length + digitsVal d > maxUint64 := by
          simp only [maxUint64] at h1 ⊢
          omega
        rw [if_pos h1, if_pos hbig]
      · rw [if_neg h1]
        by_cases h2 : n * 10 + (c.toNat - '0'.toNat) < 2 ^ 64
        · have hmod : (n * 10 + (c.toNat - '0'.toNat)) % 2 ^ 64
              = n * 10 + (c.toNat - '0'.toNat) := Nat.mod_eq_of_lt h2
          have hn1 : n * 10 + (c.toNat - '0'.toNat) ≤ maxUint64 := by
            simp only [maxUint64]; norm_num at h2; omega
          have hno : ¬ ((n * 10 + (c.toNat - '0'.toNat)) % 2 ^ 64 < n * 10
              ∨ (n * 10 + (c.toNat - '0'.toNat)) % 2 ^ 64 > maxUint64) := by
            rw [hmod]; omega
          simp only [hno, if_false]
          rw [hmod, ih _ hn1]
        · have hwrap : (n * 10 + (c.toNat - '0'.toNat)) % 2 ^ 64 < n * 10 := by
            simp only [maxUint64] at h1
            norm_num at h2 ⊢
            omega
          have hbig : (n * 10 + (c.toNat - '0'.toNat)) * 10 ^ d.length + digitsVal d
              > maxUint64 := by
            simp only [maxUint64]
            norm_num at h2
            omega
          simp only [hwrap, true_or, if_true]
          rw [if_pos hbig]
    · have htw : (c :: cs).takeWhile Char.isDigit = [] := by
        simp [List.takeWhile_cons, hc]
      have hall : (c :: cs).all Char.isDigit = false := by
        simp [List.all_cons, hc]
      have : ¬ n > maxUint64 := by omega
      simp [parseUintLoop, hc, htw, hall, digitsVal, this]

/-- The function `ParseUint` in closed form. -/
theorem ParseUint_eq (s : Str) :
    ParseUint s =
      if s = [] then (0, some .ErrSyntax)
      else if digitsVal (s.takeWhile Char.isDigit) > maxUint64 then (maxUint64, some .ErrRange)
      else if s.all Char.isDigit = true then (digitsVal (s.takeWhile Char.isDigit), none)
      else (0, some .ErrSyntax) := by
  unfold ParseUint
  split
  · rfl
  · rw [parseUintLoop_eq s 0 (by simp [maxUint64])]
    simp

/-- The value `ParseInt` returns from a body and a sign. -/
theorem ParseInt_value_aux (neg : Bool) (body : Str) :
    (match ParseUint body with
      | (_, some .ErrSyntax) => ((0 : Int), some NumError.ErrSyntax)
      | (un, _) =>
        if !neg ∧ un ≥ 2 ^ 63 then ((2 : Int) ^ 63 - 1, some .ErrRange)
        else if neg ∧ un > 2 ^ 63 then (-(2 : Int) ^ 63, some .ErrRange)
        else (if neg then -(un : Int) else (un : Int), none)).1
    = (if body = [] then 0
      else if body.all Char.isDigit then
        if neg then (if digitsVal (body.takeWhile Char.isDigit) > 2 ^ 63
          then -(2 : Int) ^ 63 else -(digitsVal (body.takeWhile Char.isDigit) : Int))
        else (if digitsVal (body.takeWhile Char.isDigit) ≥ 2 ^ 63
          then (2 : Int) ^ 63 - 1 else (digitsVal (body.takeWhile Char.isDigit) : Int))
      else if digitsVal (body.takeWhile Char.isDigit) ≥ 2 ^ 64
        then (if neg then -(2 : Int) ^ 63 else (2 : Int) ^ 63 - 1)
      else 0) := by
  rw [ParseUint_eq]
  generalize digitsVal (body.takeWhile Char.isDigit) = v
  by_cases hb : body = []
  · simp [hb]
  · simp only [hb, if_false]
    by_cases hv : v > maxUint64
    · have h64 : v ≥ 2 ^ 64 := by simp only [maxUint64] at hv; norm_num; omega
      have h63 : v ≥ 2 ^ 63 := by norm_num at h64 ⊢; omega
      have h63' : v > 2 ^ 63 := by norm_num at h64 ⊢; omega
      simp only [hv, if_true, h64, h63, h63']
      cases neg <;> cases body.all Char.isDigit <;> simp [maxUint64]
    · have h64 : ¬ v ≥ 2 ^ 64 := by simp only [maxUint64] at hv; norm_num; omega
      simp only [hv, if_false, h64]
      cases hall : body.all Char.isDigit
      · simp
      · simp only [if_true]
        cases neg
        · simp only [Bool.not_false, true_and, Bool.false_eq_true, false_and, if_false]
          split_ifs <;> rfl
        · simp only [Bool.not_true, Bool.false_eq_true, false_and, if_false, true_and, if_true]
          split_ifs <;> rfl

/-- The function `ParseInt` returns the value `atoiValue` describes. -/
theorem ParseInt_value (s : Str) : (ParseInt s).1 = atoiValue s := by
  cases s with
  | nil => simp [ParseInt, atoiValue]
  | cons c0 t =>
    have h := ParseInt_value_aux (decide (c0 = '-')) (if c0 = '+' ∨ c0 = '-' then t else c0 :: t)
    unfold ParseInt atoiValue
    simp only [List.head?_cons, Option.some.injEq]
    exact h

theorem length_le_byteLen (s : Str) : s.length ≤ byteLen s := by
  induction s with
  | nil => simp [byteLen]
  | cons c cs ih =>
    have := Char.utf8Size_pos c
    simp only [byteLen, List.map_cons, List.sum_cons, List.length_cons] at ih ⊢
    omega

theorem digitsVal_takeWhile_lt (s : Str) (h : s.length ≤ 18) :
    digitsVal (s.takeWhile Char.isDigit) < 10 ^ 18 := by
  have h1 := digitsVal_lt (s.takeWhile Char.isDigit) (takeWhile_digits_all s)
  have h2 : (s.takeWhile Char.isDigit).length ≤ 18 :=
    le_trans (List.takeWhile_prefix _).length_le h
  exact lt_of_lt_of_le h1 (Nat.pow_le_pow_right (by norm_num) h2)

/-- On at most 18 characters the decimal reading and the closed form agree. -/
theorem decimalValue_eq_atoiValue (s : Str) (h : s.length ≤ 18) :
    decimalValue s = atoiValue s := by
  have key : ∀ body : Str, body.length ≤ 18 → ∀ neg : Bool,
      (if isDigitGroup body then (if neg then -(digitsVal body : Int) else (digitsVal body : Int))
        else 0)
      = (if body = [] then 0
        else if body.all Char.isDigit then
          if neg then (if digitsVal (body.takeWhile Char.isDigit) > 2 ^ 63
            then -(2 : Int) ^ 63 else -(digitsVal (body.takeWhile Char.isDigit) : Int))
          else (if digitsVal (body.takeWhile Char.isDigit) ≥ 2 ^ 63
            then (2 : Int) ^ 63 - 1 else (digitsVal (body.takeWhile Char.isDigit) : Int))
        else if digitsVal (body.takeWhile Char.isDigit) ≥ 2 ^ 64
          then (if neg then -(2 : Int) ^ 63 else (2 : Int) ^ 63 - 1)
        else 0) := by
    intro body hl neg
    have hlt := digitsVal_takeWhile_lt body hl
    have h63 : ¬ digitsVal (body.takeWhile Char.isDigit) ≥ 2 ^ 63 := by norm_num at hlt ⊢; omega
    have h63' : ¬ digitsVal (body.takeWhile Char.isDigit) > 2 ^ 63 := by norm_num at hlt ⊢; omega
    have h64 : ¬ digitsVal (body.takeWhile Char.isDigit) ≥ 2 ^ 64 := by norm_num at hlt ⊢; omega
    by_cases hb : body = []
    · subst hb; simp [isDigitGroup]
    · cases hall : body.all Char.isDigit
      · simp only [isDigitGroup, hall, Bool.and_false, Bool.false_eq_true, if_false, hb, h64]
      · have htw := takeWhile_eq_self_of_all body hall
        rw [htw] at h63 h63' h64 ⊢
        have he : body.isEmpty = false := by cases body <;> simp_all
        simp only [isDigitGroup, hall, he, Bool.not_false, Bool.and_self, if_true, hb, if_false,
          h63, h63']
  cases s with
  | nil => simp [decimalValue, atoiValue, isDigitGroup]
  | cons c0 t =>
    have ht : t.length ≤ 18 := by simp only [List.length_cons] at h; omega
    by_cases hm : c0 = '-'
    · subst hm
      rw [decimalValue_minus]
      have := key t ht true
      simp only [if_true] at this
      unfold atoiValue
      simp only [List.head?_cons, decide_True, or_true, if_true]
      exact this
    · by_cases hp : c0 = '+'
      · subst hp
        rw [decimalValue_plus]
        have := key t ht false
        simp only [Bool.false_eq_true, if_false] at this
        unfold atoiValue
        simp only [List.head?_cons, Option.some.injEq, true_or, if_true]
        have hd : decide (('+' : Char) = '-') = false := by decide
        rw [hd]
        simpa using this
      · rw [decimalValue_unsigned c0 t hm hp]
        have := key (c0 :: t) h false
        simp only [Bool.false_eq_true, if_false] at this
        unfold atoiValue
        simp only [List.head?_cons, Option.some.injEq, hm, hp, or_self, if_false, decide_False]
        simpa using this

/-- The function `Atoi` returns the value `atoiValue` describes, on every
string. -/
theorem Atoi_value (s : Str) : (Atoi s).1 = atoiValue s := by
  by_cases hfast : 0 < byteLen s ∧ byteLen s < 19
  · rw [Atoi_short s hfast.2]
    exact decimalValue_eq_atoiValue s (by have := length_le_byteLen s; omega)
  · unfold Atoi
    simp only [hfast, if_false]
    exact ParseInt_value s

/-- The ordinal of a directory name in closed form. -/
theorem dirOrdinal_eq_atoiValue (name : Str) :
    dirOrdinal name = atoiValue (ReplaceAll name '_' []) := Atoi_value _

/-! ## `getLatestCached` -/

section Cached
variable {W : Type}

/-- Reading a metadata file never yields the sentinel `ErrNoneCached`. -/
theorem parseReleaseInfoFile_ne_noneCached (js : Codec) (os : OS W) (filename : Str) (s : St W) :
    (parseReleaseInfoFile js os filename s).1 ≠ .error Err.ErrNoneCached := by
  unfold parseReleaseInfoFile
  split
  · simp
  · split
    · simp
    · split <;> simp

/-- Reading a metadata file opens it. -/
theorem parseReleaseInfoFile_opens (js : Codec) (os : OS W) (filename : Str) (s : St W) :
    ∃ evs, (parseReleaseInfoFile js os filename s).2.trace
      = s.trace ++ Event.openRead filename :: evs := by
  unfold parseReleaseInfoFile
  split
  · rename_i e s1 h
    have : s1 = (callOpen os filename s).2 := by rw [h]
    exact ⟨[], by rw [this]; simp⟩
  · rename_i s1 h
    have h1 : s1 = (callOpen os filename s).2 := by rw [h]
    split
    · rename_i e s2 h2
      have : s2 = (callReadAll os (.file filename) s1).2 := by rw [h2]
      exact ⟨[.readAll (.file filename), .close (.file filename)], by rw [this, h1]; simp⟩
    · rename_i data s2 h2
      have : s2 = (callReadAll os (.file filename) s1).2 := by rw [h2]
      split <;>
        exact ⟨[.readAll (.file filename), .close (.file filename)], by rw [this, h1]; simp⟩

/-- What `getLatestCached` does after a listing `files`: the sentinel when no
subdirectory has a positive ordinal, else the metadata of one that has. -/
theorem getLatestCached_of_listing (js : Codec) (os : OS W) (folder : Str) (s : St W)
    (files : List FileInfo) (hl : (os.ReadDir folder s.world).1 = .ok files) :
    ((∀ f ∈ files, f.IsDir = true → ¬ 0 < dirOrdinal f.Name) ∧
      getLatestCached js os folder s = (.error .ErrNoneCached, (callReadDir os folder s).2))
    ∨ ∃ f ∈ files, f.IsDir = true ∧ 0 < dirOrdinal f.Name ∧
        getLatestCached js os folder s =
          (match parseReleaseInfoFile js os (Join (Join folder f.Name) "meta.json".toList)
              (callReadDir os folder s).2 with
            | (.error e, s2) => (.error e, s2)
            | (.ok info, s2) => (.ok { info with LocalPath := Join folder f.Name }, s2)) := by
  have hcall : callReadDir os folder s = (.ok files, (callReadDir os folder s).2) := by
    apply Prod.ext
    · simpa using hl
    · rfl
  have h0 := scanCached_result folder files startEntry (by rw [tagOrdinal_start])
  rcases h0 with ⟨heq, hnone⟩ | ⟨f, hf, hfd, hfp, hr⟩
  · left
    refine ⟨fun f hf hfd => ?_, ?_⟩
    · have := hnone f hf hfd
      rwa [tagOrdinal_start] at this
    · unfold getLatestCached
      rw [hcall]
      have : scanCached folder files { LocalPath := [], TagName := ['0'], Assets := none }
          = startEntry := heq
      simp [this, startEntry]
  · right
    refine ⟨f, hf, hfd, hfp, ?_⟩
    have hne : f.Name ≠ ['0'] := by
      intro h0
      rw [h0, dirOrdinal_zero_name] at hfp
      exact absurd hfp (by decide)
    have hr' : scanCached folder files { LocalPath := [], TagName := ['0'], Assets := none }
        = entryOf folder f.Name := hr
    unfold getLatestCached
    rw [hcall]
    simp only [hr', entryOf, hne, if_false]

end Cached

section CachedClaims
variable {W : Type}

/-- C10, as amended. `getLatestCached` returns `ErrNoneCached` exactly when the
cache root cannot be listed or no subdirectory of the listing has a positive
ordinal, the ordinal of a name being the value `strconv.Atoi` returns for the
name without its underscores; in every other case the metadata file of a
subdirectory with a positive ordinal is opened and decides the result. That
value is, for every name, the one `atoiValue` spells out: the integer denoted,
cut to the range of `int`, when an optional sign and then only digits remain;
else 0, unless the digits after the optional sign denote `2^64` or more, when
it is the bound of `int` on the side of the sign. For a name of fewer than 19
bytes it is the decimal integer the name denotes and 0 when it denotes none, as
the specification words it. -/
theorem getLatestCached_none_cached_iff (js : Codec) (os : OS W) (folder : Str) (s : St W) :
    ((getLatestCached js os folder s).1 = .error Err.ErrNoneCached ↔
      ((∃ e, (os.ReadDir folder s.world).1 = .error e) ∨
        ∃ files, (os.ReadDir folder s.world).1 = .ok files ∧
          ∀ f ∈ files, f.IsDir = true → ¬ 0 < dirOrdinal f.Name))
    ∧ ((getLatestCached js os folder s).1 ≠ .error Err.ErrNoneCached →
        ∃ files, (os.ReadDir folder s.world).1 = .ok files ∧
          ∃ f ∈ files, f.IsDir = true ∧ 0 < dirOrdinal f.Name ∧
            Event.openRead (Join (Join folder f.Name) "meta.json".toList)
              ∈ s.since (getLatestCached js os folder s).2 ∧
            getLatestCached js os folder s =
              (match parseReleaseInfoFile js os (Join (Join folder f.Name) "meta.json".toList)
                  (callReadDir os folder s).2 with
                | (.error e, s2) => (.error e, s2)
                | (.ok info, s2) => (.ok { info with LocalPath := Join folder f.Name }, s2)))
    ∧ (∀ name, dirOrdinal name = atoiValue (ReplaceAll name '_' []))
    ∧ (∀ name, byteLen (ReplaceAll name '_' []) < 19 → dirOrdinal name = specOrdinal name) := by
  have key : ∀ files, (os.ReadDir folder s.world).1 = .ok files →
      (∃ f ∈ files, f.IsDir = true ∧ 0 < dirOrdinal f.Name) →
      (getLatestCached js os folder s).1 ≠ .error Err.ErrNoneCached ∧
        ∃ f ∈ files, f.IsDir = true ∧ 0 < dirOrdinal f.Name ∧
          Event.openRead (Join (Join folder f.Name) "meta.json".toList)
            ∈ s.since (getLatestCached js os folder s).2 ∧
          getLatestCached js os folder s =
            (match parseReleaseInfoFile js os (Join (Join folder f.Name) "meta.json".toList)
                (callReadDir os folder s).2 with
              | (.error e, s2) => (.error e, s2)
              | (.ok info, s2) => (.ok { info with LocalPath := Join folder f.Name }, s2)) := by
    intro files hl hex
    rcases getLatestCached_of_listing js os folder s files hl with ⟨hnone, _⟩ | ⟨f, hf, hfd, hfp, hr⟩
    · obtain ⟨f, hf, hfd, hfp⟩ := hex
      exact absurd hfp (hnone f hf hfd)
    · have hne := parseReleaseInfoFile_ne_noneCached js os
        (Join (Join folder f.Name) "meta.json".toList) (callReadDir os folder s).2
      obtain ⟨evs, hevs⟩ := parseReleaseInfoFile_opens js os
        (Join (Join folder f.Name) "meta.json".toList) (callReadDir os folder s).2
      refine ⟨?_, f, hf, hfd, hfp, ?_, hr⟩
      · rw [hr]
        revert hne
        generalize parseReleaseInfoFile js os _ _ = r
        rcases r with ⟨_ | _, _⟩ <;> simp
      · have htr : (getLatestCached js os folder s).2.trace
            = (parseReleaseInfoFile js os (Join (Join folder f.Name) "meta.json".toList)
                (callReadDir os folder s).2).2.trace := by
          rw [hr]
          generalize parseReleaseInfoFile js os _ _ = r
          rcases r with ⟨_ | _, _⟩ <;> rfl
        have : (getLatestCached js os folder s).2.trace = s.trace ++
            (Event.readDir folder ::
              Event.openRead (Join (Join folder f.Name) "meta.json".toList) :: evs) := by
          rw [htr, hevs]; simp
        rw [since_of_trace_eq this]
        simp
  have hfail : ∀ e, (os.ReadDir folder s.world).1 = .error e →
      (getLatestCached js os folder s).1 = .error Err.ErrNoneCached := by
    intro e he
    have hcall : callReadDir os folder s = (.error e, (callReadDir os folder s).2) := by
      apply Prod.ext
      · simpa using he
      · rfl
    unfold getLatestCached
    rw [hcall]
  refine ⟨⟨?_, ?_⟩, ?_, dirOrdinal_eq_atoiValue, dirOrdinal_eq_specOrdinal_of_short⟩
  · intro herr
    cases hl : (os.ReadDir folder s.world).1 with
    | error e => exact Or.inl ⟨e, rfl⟩
    | ok files =>
      right
      refine ⟨files, rfl, ?_⟩
      intro f hf hfd hfp
      exact (key files hl ⟨f, hf, hfd, hfp⟩).1 herr
  · rintro (⟨e, he⟩ | ⟨files, hl, hnone⟩)
    · exact hfail e he
    · rcases getLatestCached_of_listing js os folder s files hl with ⟨_, hr⟩ | ⟨f, hf, hfd, hfp, _⟩
      · rw [hr]
      · exact absurd hfp (hnone f hf hfd)
  · intro hne
    cases hl : (os.ReadDir folder s.world).1 with
    | error e => exact absurd (hfail e hl) hne
    | ok files =>
      refine ⟨files, rfl, ?_⟩
      rcases getLatestCached_of_listing js os folder s files hl with ⟨_, hr⟩ | ⟨f, hf, hfd, hfp, _⟩
      · rw [hr] at hne; exact absurd rfl hne
      · exact (key files hl ⟨f, hf, hfd, hfp⟩).2

end CachedClaims

/-- C10, the claim as stated fails. The cache root lists the one subdirectory
`99999999999999999999x`. Its name is no decimal integer, so its ordinal in the
words of the claim is 0 and no subdirectory has a positive one; `Atoi` meets
the overflow before the `x` and returns the largest `int`, the directory is
selected and its metadata is returned instead of `ErrNoneCached`. -/
theorem getLatestCached_long_name_not_none_cached :
    (Sim.os.ReadDir "./.models/".toList worldLongName).1
        = .ok [subdir "99999999999999999999x"]
    ∧ specOrdinal (subdir "99999999999999999999x").Name = 0
    ∧ dirOrdinal (subdir "99999999999999999999x").Name = 9223372036854775807
    ∧ (getLatestCached exampleCodec Sim.os "./.models/".toList worldLongName.start).1
        = .ok { (releaseOf "1.2.0") with LocalPath := ".models/99999999999999999999x".toList } := by
  refine ⟨by decide, by decide, by decide, by decide⟩

/-- C2, the code at the failing input. The cache root lists `1_10_0` and
`1_9_0`, whose ordinals are 1100 and 190; `getLatestCached` returns the entry
`1_9_0`, not the one of maximal ordinal: with `1_10_0` selected, the left side
of the comparison in `isOlderDir` is the tag ordinal of `1_10_0`, which is 0. -/
theorem getLatestCached_selects_smaller_ordinal :
    (Sim.os.ReadDir "./.models/".toList worldTwoEntries).1
        = .ok [subdir "1_10_0", subdir "1_9_0"]
    ∧ dirOrdinal (subdir "1_10_0").Name = 1100
    ∧ dirOrdinal (subdir "1_9_0").Name = 190
    ∧ specOrdinal (subdir "1_10_0").Name = 1100
    ∧ specOrdinal (subdir "1_9_0").Name = 190
    ∧ (getLatestCached exampleCodec Sim.os "./.models/".toList worldTwoEntries.start).1
        = .ok { (releaseOf "1.9.0") with LocalPath := ".models/1_9_0".toList }
    ∧ tagOrdinal (subdir "1_10_0").Name = 0 := by
  refine ⟨by decide, by decide, by decide, by decide, by decide, by decide, by decide⟩

/-! ## `getLatestReleaseInfo` -/

section Feed
variable {W : Type}

/-- C4. `getLatestReleaseInfo` returns a nil error whatever the configuration,
the outcome of the query and the codec. With the skip-remote flag set it
returns the fallback release and makes no call at all; otherwise it queries the
feed, and returns the fallback release when the query fails, the status is not
200, the body cannot be read or the codec cannot decode it, and the release the
codec decoded from the body otherwise. -/
theorem getLatestReleaseInfo_never_fails (js : Codec) (os : OS W) (env : Env) (s : St W) :
    (getLatestReleaseInfo js os env s).1.2 = none
    ∧ (envBool env "NSFW_MODEL_SKIP_REMOTE".toList = true →
        getLatestReleaseInfo js os env s = ((defaultFallbackRelease env, none), s))
    ∧ (envBool env "NSFW_MODEL_SKIP_REMOTE".toList = false →
        (∃ evs, (getLatestReleaseInfo js os env s).2.trace
            = s.trace ++ Event.httpGet feedURL :: evs)
        ∧ (∀ e, (os.HttpGet feedURL s.world).1 = .error e →
            (getLatestReleaseInfo js os env s).1.1 = defaultFallbackRelease env)
        ∧ (∀ resp, (os.HttpGet feedURL s.world).1 = .ok resp → resp.StatusCode ≠ 200 →
            (getLatestReleaseInfo js os env s).1.1 = defaultFallbackRelease env)
        ∧ (∀ resp e, (os.HttpGet feedURL s.world).1 = .ok resp → resp.StatusCode = 200 →
            (os.ReadAll (.body feedURL) (os.HttpGet feedURL s.world).2).1 = .error e →
            (getLatestReleaseInfo js os env s).1.1 = defaultFallbackRelease env)
        ∧ (∀ resp body, (os.HttpGet feedURL s.world).1 = .ok resp → resp.StatusCode = 200 →
            (os.ReadAll (.body feedURL) (os.HttpGet feedURL s.world).2).1 = .ok body →
            (getLatestReleaseInfo js os env s).1.1 =
              (match js.Unmarshal body with
                | .error _ => defaultFallbackRelease env
                | .ok info => info))) := by
  refine ⟨?_, ?_, ?_⟩
  · unfold getLatestReleaseInfo
    split
    · rfl
    · split
      · rfl
      · split
        · rfl
        · split
          · rfl
          · split <;> rfl
  · intro hskip
    unfold getLatestReleaseInfo
    rw [if_pos hskip]
  · intro hskip
    have hget : callHttpGet os feedURL s
        = ((os.HttpGet feedURL s.world).1, (callHttpGet os feedURL s).2) := rfl
    have hread : ∀ t : St W, callReadAll os (.body feedURL) t
        = ((os.ReadAll (.body feedURL) t.world).1, (callReadAll os (.body feedURL) t).2) :=
      fun _ => rfl
    refine ⟨?_, ?_, ?_, ?_, ?_⟩
    · unfold getLatestReleaseInfo
      simp only [hskip, Bool.false_eq_true, if_false]
      rw [hget]
      cases (os.HttpGet feedURL s.world).1 with
      | error e => exact ⟨[], by simp⟩
      | ok resp =>
        simp only
        split
        · exact ⟨[.close (.body feedURL)], by simp⟩
        · rw [hread]
          cases (os.ReadAll (.body feedURL) (callHttpGet os feedURL s).2.world).1 with
          | error e => exact ⟨[.readAll (.body feedURL), .close (.body feedURL)], by simp⟩
          | ok body =>
            simp only
            split <;> exact ⟨[.readAll (.body feedURL), .close (.body feedURL)], by simp⟩
    · intro e he
      unfold getLatestReleaseInfo
      simp only [hskip, Bool.false_eq_true, if_false]
      rw [hget, he]
    · intro resp hresp hcode
      unfold getLatestReleaseInfo
      simp only [hskip, Bool.false_eq_true, if_false]
      rw [hget, hresp]
      simp [hcode]
    · intro resp e hresp hcode he
      unfold getLatestReleaseInfo
      simp only [hskip, Bool.false_eq_true, if_false]
      rw [hget, hresp]
      simp only [hcode, ne_eq, not_true_eq_false, if_false]
      rw [hread]
      simp only [callHttpGet_world, he]
    · intro resp body hresp hcode hbody
      unfold getLatestReleaseInfo
      simp only [hskip, Bool.false_eq_true, if_false]
      rw [hget, hresp]
      simp only [hcode, ne_eq, not_true_eq_false, if_false]
      rw [hread]
      simp only [callHttpGet_world, hbody]
      cases js.Unmarshal body <;> rfl

end Feed

/-! ## `unzip`, `cleanup`, `unpack` -/

section Unpack
variable {W : Type}

/-- Extracting the entries of an archive removes no file. -/
theorem unzipEntries_no_remove (os : OS W) (i : releaseInfo) (files : List ZipFile) :
    ∀ s : St W, ∃ evs, (unzipEntries os i files s).2.trace = s.trace ++ evs ∧
      ∀ ev ∈ evs, ev.isRemove = false := by
  induction files with
  | nil => intro s; exact ⟨[], by simp [unzipEntries]⟩
  | cons f fs ih =>
    intro s
    unfold unzipEntries
    simp only
    split
    · -- a directory entry
      generalize hm : callMkdirAll os (Join i.getModelFolder f.Name) 0o777 s = r
      have ht : r.2.trace = s.trace ++ [.mkdirAll (Join i.getModelFolder f.Name)] := by
        rw [← hm]; simp
      rcases r with ⟨_ | e, s1⟩
      · obtain ⟨evs, h1, h2⟩ := ih s1
        refine ⟨.mkdirAll (Join i.getModelFolder f.Name) :: evs, ?_, ?_⟩
        · simp only at ht ⊢; rw [h1, ht]; simp
        · intro ev hev
          rcases List.mem_cons.mp hev with rfl | h
          · rfl
          · exact h2 ev h
      · exact ⟨[.mkdirAll (Join i.getModelFolder f.Name)], ht, by simp [Event.isRemove]⟩
    · -- a file entry
      generalize hm : callMkdirAll os (Dir (Join i.getModelFolder f.Name)) 0o777 s = r
      have ht : r.2.trace = s.trace ++ [.mkdirAll (Dir (Join i.getModelFolder f.Name))] := by
        rw [← hm]; simp
      rcases r with ⟨_ | e, s1⟩
      swap
      · exact ⟨[.mkdirAll (Dir (Join i.getModelFolder f.Name))], ht, by simp [Event.isRemove]⟩
      simp only at ht ⊢
      generalize ho : callOpenFile os (Join i.getModelFolder f.Name) f.Mode s1 = r2
      have ht2 : r2.2.trace = s1.trace ++ [.openFile (Join i.getModelFolder f.Name)] := by
        rw [← ho]; simp
      rcases r2 with ⟨_ | e, s2⟩
      swap
      · refine ⟨[.mkdirAll (Dir (Join i.getModelFolder f.Name)),
          .openFile (Join i.getModelFolder f.Name)], ?_, by simp [Event.isRemove]⟩
        simp only at ht2 ⊢; rw [ht2, ht]; simp
      simp only at ht2 ⊢
      generalize hz : callZipEntryOpen os i.getZipPath f.Name s2 = r3
      have ht3 : r3.2.trace = s2.trace ++ [.zipEntryOpen i.getZipPath f.Name] := by
        rw [← hz]; simp
      rcases r3 with ⟨_ | e, s3⟩
      swap
      · refine ⟨[.mkdirAll (Dir (Join i.getModelFolder f.Name)),
          .openFile (Join i.getModelFolder f.Name), .zipEntryOpen i.getZipPath f.Name,
          .close (.file (Join i.getModelFolder f.Name))], ?_, by simp [Event.isRemove]⟩
        simp only at ht3 ⊢; rw [callClose_trace, ht3, ht2, ht]; simp
      simp only at ht3 ⊢
      generalize hc : callCopy os (.file (Join i.getModelFolder f.Name))
        (.zipEntry i.getZipPath f.Name) s3 = r4
      have ht4 : r4.2.trace = s3.trace ++ [.copy (.file (Join i.getModelFolder f.Name))
          (.zipEntry i.getZipPath f.Name)] := by
        rw [← hc]; simp
      rcases r4 with ⟨_ | e, s4⟩
      · simp only at ht4 ⊢
        obtain ⟨evs, h1, h2⟩ := ih (callClose os (.zipEntry i.getZipPath f.Name)
          (callClose os (.file (Join i.getModelFolder f.Name)) s4))
        refine ⟨[.mkdirAll (Dir (Join i.getModelFolder f.Name)),
          .openFile (Join i.getModelFolder f.Name), .zipEntryOpen i.getZipPath f.Name,
          .copy (.file (Join i.getModelFolder f.Name)) (.zipEntry i.getZipPath f.Name),
          .close (.file (Join i.getModelFolder f.Name)),
          .close (.zipEntry i.getZipPath f.Name)] ++ evs, ?_, ?_⟩
        · rw [h1, callClose_trace, callClose_trace, ht4, ht3, ht2, ht]; simp
        · intro ev hev
          rcases List.mem_append.mp hev with h | h
          · revert h; simp only [List.mem_cons, List.mem_singleton, List.not_mem_nil, or_false]
            rintro (rfl | rfl | rfl | rfl | rfl | rfl) <;> rfl
          · exact h2 ev h
      · simp only at ht4 ⊢
        refine ⟨[.mkdirAll (Dir (Join i.getModelFolder f.Name)),
          .openFile (Join i.getModelFolder f.Name), .zipEntryOpen i.getZipPath f.Name,
          .copy (.file (Join i.getModelFolder f.Name)) (.zipEntry i.getZipPath f.Name),
          .close (.file (Join i.getModelFolder f.Name)),
          .close (.zipEntry i.getZipPath f.Name)], ?_, by simp [Event.isRemove]⟩
        rw [callClose_trace, callClose_trace, ht4, ht3, ht2, ht]; simp

/-- The method `unzip` removes no file. -/
theorem unzip_no_remove (os : OS W) (i : releaseInfo) (s : St W) :
    ∀ ev ∈ s.since (i.unzip os s).2, ev.isRemove = false := by
  unfold releaseInfo.unzip
  generalize hz : callZipOpenReader os i.getZipPath s = r
  have ht : r.2.trace = s.trace ++ [.zipOpen i.getZipPath] := by rw [← hz]; simp
  rcases r with ⟨e | files, s1⟩
  · simp only at ht ⊢
    rw [since_of_trace_eq ht]
    simp [Event.isRemove]
  · simp only at ht ⊢
    obtain ⟨evs, h1, h2⟩ := unzipEntries_no_remove os i files s1
    have : (callClose os (.file i.getZipPath) (unzipEntries os i files s1).2).trace
        = s.trace ++ (.zipOpen i.getZipPath :: evs ++ [.close (.file i.getZipPath)]) := by
      rw [callClose_trace, h1, ht]; simp
    rw [since_of_trace_eq this]
    intro ev hev
    simp only [List.cons_append, List.mem_cons, List.mem_append, List.mem_singleton,
      List.not_mem_nil, or_false] at hev
    rcases hev with rfl | h | rfl
    · rfl
    · exact h2 ev h
    · rfl

/-- C8. The method `unpack` returns the error of `unzip`, and nil when `unzip`
returns nil; it tries to remove the archive exactly when `unzip` succeeded, as
the one call it makes after those of `unzip`, which remove nothing; after a
failed extraction it makes no further call and leaves the world as `unzip`
left it; and whatever the removal returns, the result stays nil. -/
theorem unpack_returns_unzip_error (os : OS W) (i : releaseInfo) (s : St W) :
    (i.unpack os s).1 = (i.unzip os s).1
    ∧ (∀ ev ∈ s.since (i.unzip os s).2, ev.isRemove = false)
    ∧ (∀ e, (i.unzip os s).1 = some e → i.unpack os s = i.unzip os s)
    ∧ ((i.unzip os s).1 = none →
        (i.unpack os s).2.trace = (i.unzip os s).2.trace ++ [.remove i.getZipPath]
        ∧ (i.unpack os s).2.world = (os.Remove i.getZipPath (i.unzip os s).2.world).2
        ∧ ∀ r, (os.Remove i.getZipPath (i.unzip os s).2.world).1 = r → (i.unpack os s).1 = none) := by
  refine ⟨?_, unzip_no_remove os i s, ?_, ?_⟩
  · unfold releaseInfo.unpack
    generalize i.unzip os s = r
    rcases r with ⟨_ | e, s1⟩ <;> rfl
  · intro e he
    unfold releaseInfo.unpack
    revert he
    generalize i.unzip os s = r
    rcases r with ⟨_ | e1, s1⟩
    · intro h; simp at h
    · intro _; rfl
  · intro he
    unfold releaseInfo.unpack
    revert he
    generalize i.unzip os s = r
    rcases r with ⟨_ | e1, s1⟩
    · intro _
      exact ⟨rfl, rfl, fun _ _ => rfl⟩
    · intro h; simp at h

end Unpack

/-! ## `GetLatestModelPath` -/

section Resolve
variable {W : Type}

/-- A marker check with a positive answer is the last call of the state it
leaves. -/
theorem looksLikeSavedModel_last {os : OS W} {dir : Str} {s t : St W}
    (h : looksLikeSavedModel os dir s = (true, t)) :
    t.trace.getLast? = some (.stat (Join dir marker) true) := by
  have := looksLikeSavedModel_trace os dir s
  rw [h] at this
  simp only at this
  rw [this]
  simp

/-- Reading a metadata file makes cache reads only. -/
theorem parseReleaseInfoFile_reads (js : Codec) (os : OS W) (filename : Str) (s : St W) :
    ∀ ev ∈ s.since (parseReleaseInfoFile js os filename s).2, ev.isCacheRead = true := by
  have hshape : ∃ evs, (parseReleaseInfoFile js os filename s).2.trace = s.trace ++ evs ∧
      ∀ ev ∈ evs, ev.isCacheRead = true := by
    unfold parseReleaseInfoFile
    generalize ho : callOpen os filename s = r
    have ht : r.2.trace = s.trace ++ [.openRead filename] := by rw [← ho]; simp
    rcases r with ⟨_ | e, s1⟩
    swap
    · exact ⟨[.openRead filename], ht, by simp [Event.isCacheRead]⟩
    simp only at ht ⊢
    generalize hr : callReadAll os (.file filename) s1 = r2
    have ht2 : r2.2.trace = s1.trace ++ [.readAll (.file filename)] := by rw [← hr]; simp
    have hall : ∀ ev ∈ [Event.openRead filename, .readAll (.file filename),
        .close (.file filename)], ev.isCacheRead = true := by
      simp [Event.isCacheRead]
    rcases r2 with ⟨e | data, s2⟩
    · refine ⟨_, ?_, hall⟩
      simp only at ht2 ⊢; rw [callClose_trace, ht2, ht]; simp
    · simp only at ht2 ⊢
      split <;>
      · refine ⟨_, ?_, hall⟩
        rw [callClose_trace, ht2, ht]; simp
  obtain ⟨evs, h1, h2⟩ := hshape
  rw [since_of_trace_eq h1]
  exact h2

/-- The cache scan makes cache reads only: no marker check, no query, no
download, no extraction. -/
theorem getLatestCached_trace (js : Codec) (os : OS W) (folder : Str) (s : St W) :
    ∃ evs, (getLatestCached js os folder s).2.trace = s.trace ++ evs ∧
      ∀ ev ∈ evs, ev.isCacheRead = true := by
  have hshape : ∃ evs, (getLatestCached js os folder s).2.trace = s.trace ++ evs ∧
      ∀ ev ∈ evs, ev.isCacheRead = true := by
    unfold getLatestCached
    generalize hd : callReadDir os folder s = r
    have ht : r.2.trace = s.trace ++ [.readDir folder] := by rw [← hd]; simp
    rcases r with ⟨e | files, s1⟩
    · exact ⟨[.readDir folder], ht, by simp [Event.isCacheRead]⟩
    · simp only at ht ⊢
      split
      · exact ⟨[.readDir folder], ht, by simp [Event.isCacheRead]⟩
      · generalize hfile : Join (scanCached folder files _).LocalPath "meta.json".toList = fn
        have hp := parseReleaseInfoFile_reads js os fn s1
        have hpre : ∃ evs, (parseReleaseInfoFile js os fn s1).2.trace = s1.trace ++ evs := by
          obtain ⟨evs, h⟩ := parseReleaseInfoFile_opens js os fn s1
          exact ⟨_, h⟩
        obtain ⟨evs, hevs⟩ := hpre
        rw [since_of_trace_eq hevs] at hp
        have : ∀ r : Except Err releaseInfo × St W, r = parseReleaseInfoFile js os fn s1 →
            (match r with
              | (.error e, s2) => ((.error e : Except Err releaseInfo), s2)
              | (.ok info, s2) => (.ok { info with
                  LocalPath := (scanCached folder files
                    { LocalPath := [], TagName := ['0'], Assets := none }).LocalPath }, s2)).2
              = r.2 := by
          intro r _
          rcases r with ⟨_ | _, _⟩ <;> rfl
        rw [this _ rfl]
        refine ⟨.readDir folder :: evs, ?_, ?_⟩
        · rw [hevs, ht]; simp
        · intro ev hev
          rcases List.mem_cons.mp hev with rfl | h
          · rfl
          · exact hp ev h
  exact hshape

theorem getLatestCached_reads (js : Codec) (os : OS W) (folder : Str) (s : St W) :
    ∀ ev ∈ s.since (getLatestCached js os folder s).2, ev.isCacheRead = true := by
  obtain ⟨evs, h1, h2⟩ := getLatestCached_trace js os folder s
  rw [since_of_trace_eq h1]
  exact h2

/-- A download that succeeds was of a release with an asset. -/
theorem download_ok_has_asset (os : OS W) (i : releaseInfo) (filename : Str) (s t : St W)
    (h : i.download os filename s = (none, t)) : ∃ a l, i.Assets = some (a :: l) := by
  unfold releaseInfo.download at h
  split at h
  · simp at h
  · simp at h
  · rename_i a l hA
    exact ⟨a, l, hA⟩

/-- The model path of a release with an asset is defined. -/
theorem getModelPath_isSome_iff (i : releaseInfo) :
    i.getModelPath.isSome = true ↔ 0 < i.numAssets := by
  unfold releaseInfo.getModelPath releaseInfo.numAssets
  rcases hA : i.Assets with _ | ⟨_ | ⟨a, l⟩⟩ <;> simp

/-- What `installLatest` returns with a nil error was checked last; and it
panics only on a cached release without assets. -/
theorem installLatest_spec (js : Codec) (os : OS W) (root : Str) (cachedRes : Except Err releaseInfo)
    (chosen : releaseInfo) (s : St W) :
    (∀ p t, installLatest js os root cachedRes chosen s = (.ok p, t) →
      t.trace.getLast? = some (.stat (Join p marker) true))
    ∧ (∀ t, installLatest js os root cachedRes chosen s = (.panic, t) →
      ∃ cached, cachedRes = .ok cached ∧ cached.getModelPath = none) := by
  unfold installLatest
  simp only
  generalize callMkdirAll os (Join root chosen.getTagPath) 0o770 s = r0
  rcases r0 with ⟨_ | e0, s1⟩
  swap
  · exact ⟨fun p t h => by simp at h, fun t h => by simp at h⟩
  simp only
  generalize hd : releaseInfo.download os
    { LocalPath := Join root chosen.getTagPath, TagName := chosen.TagName,
      Assets := chosen.Assets } _ s1 = r1
  rcases r1 with ⟨_ | e1, s2⟩
  · -- downloaded
    simp only
    obtain ⟨a, l, hA⟩ := download_ok_has_asset os _ _ _ _ hd
    simp only at hA
    generalize releaseInfo.saveMeta js os _ _ s2 = r2
    rcases r2 with ⟨_, s3⟩
    simp only
    generalize releaseInfo.unpack os _ s3 = r3
    rcases r3 with ⟨_ | e3, s4⟩
    swap
    · exact ⟨fun p t h => by simp at h, fun t h => by simp at h⟩
    simp only
    have hmp : ∃ mp, releaseInfo.getModelPath
        { LocalPath := Join root chosen.getTagPath, TagName := chosen.TagName,
          Assets := chosen.Assets } = some mp := by
      simp [releaseInfo.getModelPath, hA]
    obtain ⟨mp, hmp⟩ := hmp
    rw [hmp]
    simp only
    generalize hl : looksLikeSavedModel os mp s4 = r4
    rcases r4 with ⟨_ | _, s5⟩
    · exact ⟨fun p t h => by simp at h, fun t h => by simp at h⟩
    · refine ⟨fun p t h => ?_, fun t h => by simp at h⟩
      simp only [Prod.mk.injEq, Outcome.ok.injEq] at h
      obtain ⟨rfl, rfl⟩ := h
      exact looksLikeSavedModel_last hl
  · -- the download failed
    simp only
    rcases cachedRes with e | cached
    · exact ⟨fun p t h => by simp at h, fun t h => by simp at h⟩
    · simp only
      rcases hmp : cached.getModelPath with _ | mp
      · exact ⟨fun p t h => by simp at h, fun t _ => ⟨cached, rfl, hmp⟩⟩
      · simp only
        generalize hl : looksLikeSavedModel os mp s2 = r4
        rcases r4 with ⟨_ | _, s5⟩
        · exact ⟨fun p t h => by simp at h, fun t h => by simp at h⟩
        · refine ⟨fun p t h => ?_, fun t h => by simp at h⟩
          simp only [Prod.mk.injEq, Outcome.ok.injEq] at h
          obtain ⟨rfl, rfl⟩ := h
          exact looksLikeSavedModel_last hl

/-- The same for `resolveLatest`. -/
theorem resolveLatest_spec (js : Codec) (os : OS W) (env : Env) (root : Str)
    (cachedRes : Except Err releaseInfo) (s : St W) :
    (∀ p t, resolveLatest js os env root cachedRes s = (.ok p, t) →
      t.trace.getLast? = some (.stat (Join p marker) true))
    ∧ (∀ t, resolveLatest js os env root cachedRes s = (.panic, t) →
      ∃ cached, cachedRes = .ok cached ∧ cached.getModelPath = none) := by
  unfold resolveLatest
  generalize getLatestReleaseInfo js os env s = r0
  rcases r0 with ⟨⟨latest, _⟩, s1⟩
  simp only
  rcases cachedRes with e | cached
  · exact installLatest_spec js os root (.error e) latest s1
  · simp only
    split
    · exact installLatest_spec js os root (.ok cached) latest s1
    · rcases hmp : cached.getModelPath with _ | mp
      · exact ⟨fun p t h => by simp at h, fun t _ => ⟨cached, rfl, hmp⟩⟩
      · simp only
        generalize hl : looksLikeSavedModel os mp s1 = r4
        rcases r4 with ⟨_ | _, s2⟩
        · simp only
          have := installLatest_spec js os root (.ok cached) latest s2
          exact this
        · simp only
          split
          · exact installLatest_spec js os root (.ok cached) latest s2
          · refine ⟨fun p t h => ?_, fun t h => by simp at h⟩
            simp only [Prod.mk.injEq, Outcome.ok.injEq] at h
            obtain ⟨rfl, rfl⟩ := h
            exact looksLikeSavedModel_last hl

end Resolve

section ResolveClaims
variable {W : Type}

theorem isStat_false_of_isCacheRead {ev : Event} (h : ev.isCacheRead = true) :
    ev.isStat = false := by
  cases ev <;> simp_all [Event.isCacheRead, Event.isStat]

/-- C5, as amended. Whenever `GetLatestModelPath` returns a path with a nil
error, the last call of the run is the marker check of exactly that path, and
its answer was true; hence after a failed check the call returns an error or a
path whose later check succeeded. It aborts only before any check was made. -/
theorem GetLatestModelPath_returns_checked_path (js : Codec) (os : OS W) (env : Env) (root : Str)
    (s : St W) :
    (∀ p t, GetLatestModelPath js os env root s = (.ok p, t) →
      t.trace.getLast? = some (.stat (Join p marker) true))
    ∧ (∀ t, GetLatestModelPath js os env root s = (.panic, t) →
      ∀ ev ∈ s.since t, ev.isStat = false) := by
  unfold GetLatestModelPath
  simp only
  split
  · -- the override path
    generalize hl : looksLikeSavedModel os (envStr env "NSFW_MODEL_PATH".toList []) s = r
    rcases r with ⟨_ | _, s1⟩
    · exact ⟨fun p t h => by simp at h, fun t h => by simp at h⟩
    · refine ⟨fun p t h => ?_, fun t h => by simp at h⟩
      simp only [Prod.mk.injEq, Outcome.ok.injEq] at h
      obtain ⟨rfl, rfl⟩ := h
      exact looksLikeSavedModel_last hl
  · have hreads := getLatestCached_reads js os root s
    generalize getLatestCached js os root s = r at hreads
    rcases r with ⟨e | cached, s1⟩
    · simp only
      have h := resolveLatest_spec js os env root (.error e) s1
      refine ⟨h.1, fun t ht => ?_⟩
      obtain ⟨c, hc, _⟩ := h.2 t ht
      simp at hc
    · simp only
      rcases hmp : cached.getModelPath with _ | mp
      · refine ⟨fun p t h => by simp at h, fun t h => ?_⟩
        simp only [Prod.mk.injEq, true_and] at h
        subst h
        exact fun ev hev => isStat_false_of_isCacheRead (hreads ev hev)
      · simp only
        have hres : ∀ s2, (∀ p t, resolveLatest js os env root (.ok cached) s2 = (.ok p, t) →
              t.trace.getLast? = some (.stat (Join p marker) true))
            ∧ (∀ t, resolveLatest js os env root (.ok cached) s2 = (.panic, t) →
              ∀ ev ∈ s.since t, ev.isStat = false) := by
          intro s2
          have h := resolveLatest_spec js os env root (.ok cached) s2
          refine ⟨h.1, fun t ht => ?_⟩
          obtain ⟨c, hc, hnone⟩ := h.2 t ht
          simp only [Except.ok.injEq] at hc
          subst hc
          rw [hmp] at hnone
          simp at hnone
        generalize hl : looksLikeSavedModel os mp s1 = r4
        rcases r4 with ⟨_ | _, s2⟩
        · exact hres s2
        · simp only
          split
          · exact hres s2
          · refine ⟨fun p t h => ?_, fun t h => by simp at h⟩
            simp only [Prod.mk.injEq, Outcome.ok.injEq] at h
            obtain ⟨rfl, rfl⟩ := h
            exact looksLikeSavedModel_last hl

/-- C1, as amended. With no override path and force-update unset, a valid
cache entry decides the call: the model path of the cached entry is returned
after the cache scan and one marker check, and no query of the feed, no
download and no extraction is made, whatever the feed would answer. -/
theorem GetLatestModelPath_prefers_valid_cache (js : Codec) (os : OS W) (env : Env) (root : Str)
    (s s1 : St W) (cached : releaseInfo) (mp : Str)
    (hover : envStr env "NSFW_MODEL_PATH".toList [] = [])
    (hforce : envBool env "NSFW_MODEL_FORCE_UPDATE".toList = false)
    (hcache : getLatestCached js os root s = (.ok cached, s1))
    (hmp : cached.getModelPath = some mp)
    (hvalid : (looksLikeSavedModel os mp s1).1 = true) :
    (GetLatestModelPath js os env root s).1 = .ok mp
    ∧ (GetLatestModelPath js os env root s).2.trace
        = s1.trace ++ [.stat (Join mp marker) true]
    ∧ (∀ ev ∈ s.since (GetLatestModelPath js os env root s).2,
        ev.isCacheRead = true ∨ ev = .stat (Join mp marker) true)
    ∧ ∀ url, Event.httpGet url ∉ s.since (GetLatestModelPath js os env root s).2 := by
  have hrun : GetLatestModelPath js os env root s = (.ok mp, (looksLikeSavedModel os mp s1).2) := by
    have hl : looksLikeSavedModel os mp s1 = (true, (looksLikeSavedModel os mp s1).2) :=
      Prod.ext hvalid rfl
    unfold GetLatestModelPath
    simp only [hover, ne_eq, not_true_eq_false, if_false, hcache, hmp]
    rw [hl]
    simp only [hforce, Bool.false_eq_true, if_false]
  have htr : (looksLikeSavedModel os mp s1).2.trace
      = s1.trace ++ [.stat (Join mp marker) true] := by
    rw [looksLikeSavedModel_trace, hvalid]
  obtain ⟨evs, hevs, hreads⟩ := getLatestCached_trace js os root s
  rw [hcache] at hevs
  simp only at hevs
  have hall : (looksLikeSavedModel os mp s1).2.trace
      = s.trace ++ (evs ++ [.stat (Join mp marker) true]) := by
    rw [htr, hevs, List.append_assoc]
  have hsince : ∀ ev ∈ s.since (looksLikeSavedModel os mp s1).2,
      ev.isCacheRead = true ∨ ev = .stat (Join mp marker) true := by
    intro ev hev
    rw [since_of_trace_eq hall] at hev
    rcases List.mem_append.mp hev with h | h
    · exact Or.inl (hreads ev h)
    · right; simpa using h
  rw [hrun]
  refine ⟨rfl, htr, hsince, ?_⟩
  intro url hmem
  rcases hsince _ hmem with h | h
  · simp [Event.isCacheRead] at h
  · simp at h

/-- C6. With the override path configured (`NSFW_MODEL_PATH`, not empty once
trimmed) `GetLatestModelPath` makes one call, the marker check of that path: it
returns the path with a nil error when the marker file is there and an error
when it is not, whatever the cache root and the rest of the configuration. -/
theorem GetLatestModelPath_override (js : Codec) (os : OS W) (env : Env) (root : Str) (s : St W)
    (hset : TrimSpace (env "NSFW_MODEL_PATH".toList) ≠ []) :
    (GetLatestModelPath js os env root s).1 =
        (if (os.Stat (Join (TrimSpace (env "NSFW_MODEL_PATH".toList)) marker) s.world).1 = none
          then .ok (TrimSpace (env "NSFW_MODEL_PATH".toList))
          else .err (.overrideNotSavedModel (TrimSpace (env "NSFW_MODEL_PATH".toList))))
    ∧ s.since (GetLatestModelPath js os env root s).2 =
        [.stat (Join (TrimSpace (env "NSFW_MODEL_PATH".toList)) marker)
          (os.Stat (Join (TrimSpace (env "NSFW_MODEL_PATH".toList)) marker) s.world).1.isNone] := by
  have hp : envStr env "NSFW_MODEL_PATH".toList [] = TrimSpace (env "NSFW_MODEL_PATH".toList) := by
    unfold envStr
    simp only [hset, if_false]
  unfold GetLatestModelPath
  simp only [hp, ne_eq, hset, not_false_eq_true, if_true]
  rw [looksLikeSavedModel_eq]
  cases hst : (os.Stat (Join (TrimSpace (env "NSFW_MODEL_PATH".toList)) marker) s.world).1 with
  | none => exact ⟨by simp, since_of_trace_eq rfl⟩
  | some e => exact ⟨by simp, since_of_trace_eq rfl⟩

end ResolveClaims

/-! ## UTF-8 -/

/-- A character is a code point below U+110000 that is no surrogate. -/
theorem char_valid (c : Char) :
    c.toNat < 0xD800 ∨ (0xDFFF < c.toNat ∧ c.toNat < 0x110000) := c.valid

theorem encodeRune_ascii (n : Nat) (h : n < 0x80) : encodeRune n = [n] := by
  unfold encodeRune
  rw [if_pos h]

theorem DecodeRuneInString_ascii (b : Nat) (rest : Bytes) (h : b < 0x80) :
    DecodeRuneInString (b :: rest) = (b, 1) := by
  unfold DecodeRuneInString
  simp only [h, if_true]

/-- A valid encoding of two bytes. -/
theorem decode2 (s0 s1 : Nat) (rest : Bytes) (h0 : 0xC2 ≤ s0) (h0' : s0 < 0xE0)
    (h1 : 0x80 ≤ s1) (h1' : s1 ≤ 0xBF) :
    DecodeRuneInString (s0 :: s1 :: rest) = (s0 % 32 * 64 + s1 % 64, 2) := by
  have a1 : ¬ s0 < 128 := by omega
  have a2 : ¬ (s0 < 194 ∨ 244 < s0) := by omega
  have a3 : ¬ s0 = 224 := by omega
  have a4 : ¬ s0 = 240 := by omega
  have a5 : ¬ s0 = 237 := by omega
  have a6 : ¬ s0 = 244 := by omega
  have a7 : ¬ (s1 < 128 ∨ 191 < s1) := by omega
  have a8 : ¬ (rest.length + 1 + 1 < 2) := by omega
  unfold DecodeRuneInString
  simp only [a1, a2, h0', a3, a4, a5, a6, a7, a8, if_true, if_false, List.length_cons,
    le_refl]

/-- A valid encoding of three bytes. -/
theorem decode3 (s0 s1 s2 : Nat) (rest : Bytes) (h0 : 0xE0 ≤ s0) (h0' : s0 < 0xF0)
    (h1 : (if s0 = 0xE0 then 0xA0 else 0x80) ≤ s1)
    (h1' : s1 ≤ (if s0 = 0xED then 0x9F else 0xBF))
    (h2 : 0x80 ≤ s2) (h2' : s2 ≤ 0xBF) :
    DecodeRuneInString (s0 :: s1 :: s2 :: rest)
      = (s0 % 16 * 4096 + s1 % 64 * 64 + s2 % 64, 3) := by
  have a1 : ¬ s0 < 128 := by omega
  have a2 : ¬ (s0 < 194 ∨ 244 < s0) := by omega
  have a3 : ¬ s0 < 224 := by omega
  have a4 : ¬ s0 = 240 := by omega
  have a6 : ¬ s0 = 244 := by omega
  have a7 : ¬ (s2 < 128 ∨ 191 < s2) := by omega
  have a8 : ¬ (rest.length + 1 + 1 + 1 < 3) := by omega
  have a9 : ¬ ((s1 < if s0 = 224 then 160 else 128)
      ∨ (if s0 = 237 then 159 else 191) < s1) := by
    split_ifs at h1 h1' ⊢ <;> omega
  have a10 : ¬ (3 ≤ 2) := by omega
  unfold DecodeRuneInString
  simp only [a1, a2, a3, h0', a4, a6, a7, a8, a9, a10, if_true, if_false, List.length_cons,
    le_refl]

/-- A valid encoding of four bytes. -/
theorem decode4 (s0 s1 s2 s3 : Nat) (rest : Bytes) (h0 : 0xF0 ≤ s0) (h0' : s0 ≤ 0xF4)
    (h1 : (if s0 = 0xF0 then 0x90 else 0x80) ≤ s1)
    (h1' : s1 ≤ (if s0 = 0xF4 then 0x8F else 0xBF))
    (h2 : 0x80 ≤ s2) (h2' : s2 ≤ 0xBF) (h3 : 0x80 ≤ s3) (h3' : s3 ≤ 0xBF) :
    DecodeRuneInString (s0 :: s1 :: s2 :: s3 :: rest)
      = (s0 % 8 * 262144 + s1 % 64 * 4096 + s2 % 64 * 64 + s3 % 64, 4) := by
  have a1 : ¬ s0 < 128 := by omega
  have a2 : ¬ (s0 < 194 ∨ 244 < s0) := by omega
  have a3 : ¬ s0 < 224 := by omega
  have a3' : ¬ s0 < 240 := by omega
  have a4 : ¬ s0 = 224 := by omega
  have a6 : ¬ s0 = 237 := by omega
  have a7 : ¬ (s2 < 128 ∨ 191 < s2) := by omega
  have a7' : ¬ (s3 < 128 ∨ 191 < s3) := by omega
  have a8 : ¬ (rest.length + 1 + 1 + 1 + 1 < 4) := by omega
  have a9 : ¬ ((s1 < if s0 = 240 then 144 else 128)
      ∨ (if s0 = 244 then 143 else 191) < s1) := by
    split_ifs at h1 h1' ⊢ <;> omega
  have a10 : ¬ (4 ≤ 2) := by omega
  have a11 : ¬ (4 ≤ 3) := by omega
  unfold DecodeRuneInString
  simp only [a1, a2, a3, a3', a4, a6, a7, a7', a8, a9, a10, a11, if_true, if_false,
    List.length_cons]

/-- Decoding takes back the code point that was encoded, and its length. -/
theorem DecodeRuneInString_encodeRune (n : Nat) (rest : Bytes) (h : 0x80 ≤ n)
    (hv : n < 0xD800 ∨ (0xDFFF < n ∧ n < 0x110000)) :
    DecodeRuneInString (encodeRune n ++ rest) = (n, (encodeRune n).length) := by
  unfold encodeRune
  have h0 : ¬ n < 0x80 := by omega
  rw [if_neg h0]
  by_cases h1 : n < 0x800
  · rw [if_pos h1]
    rw [List.cons_append, List.cons_append, List.nil_append,
      decode2 _ _ _ (by omega) (by omega) (by omega) (by omega)]
    simp only [List.length_cons, List.length_nil, Prod.mk.injEq, and_true]
    omega
  · rw [if_neg h1]
    by_cases h2 : n < 0x10000
    · rw [if_pos h2]
      rw [List.cons_append, List.cons_append, List.cons_append, List.nil_append,
        decode3 _ _ _ _ (by omega) (by omega) (by split_ifs <;> omega)
          (by split_ifs <;> omega) (by omega) (by omega)]
      simp only [List.length_cons, List.length_nil, Prod.mk.injEq, and_true]
      omega
    · rw [if_neg h2]
      rw [List.cons_append, List.cons_append, List.cons_append, List.cons_append,
        List.nil_append,
        decode4 _ _ _ _ _ (by omega) (by omega) (by split_ifs <;> omega)
          (by split_ifs <;> omega) (by omega) (by omega) (by omega) (by omega)]
      simp only [List.length_cons, List.length_nil, Prod.mk.injEq, and_true]
      omega

/-- The bytes of an encoded character: one to four, and when the character is
not ASCII every one of them is at least `0x80`. -/
theorem encodeRune_bytes (n : Nat) (h : 0x80 ≤ n) :
    ∀ b ∈ encodeRune n, 0x80 ≤ b := by
  unfold encodeRune
  have h0 : ¬ n < 0x80 := by omega
  rw [if_neg h0]
  split_ifs <;> (intro b hb; simp only [List.mem_cons, List.mem_singleton, List.not_mem_nil,
    or_false] at hb; omega)

theorem encodeRune_length_pos (n : Nat) : 0 < (encodeRune n).length := by
  unfold encodeRune
  split_ifs <;> simp

theorem utf8_cons (c : Char) (s : Str) : utf8 (c :: s) = encodeRune c.toNat ++ utf8 s := by
  simp [utf8, List.flatMap_cons]

theorem length_le_utf8 (s : Str) : s.length ≤ (utf8 s).length := by
  induction s with
  | nil => simp [utf8]
  | cons c cs ih =>
    have := encodeRune_length_pos c.toNat
    rw [utf8_cons]
    simp only [List.length_cons, List.length_append]
    omega

/-- What decoding a character at the head of a text yields: the character,
never the pair that marks a byte as invalid. -/
theorem DecodeRuneInString_char (c : Char) (rest : Bytes) :
    DecodeRuneInString (encodeRune c.toNat ++ rest) = (c.toNat, (encodeRune c.toNat).length) := by
  by_cases h : c.toNat < 0x80
  · rw [encodeRune_ascii _ h]
    exact DecodeRuneInString_ascii _ _ h
  · exact DecodeRuneInString_encodeRune _ _ (by omega) (char_valid c)

/-- The text of the bytes of a text is that text. -/
theorem textLoop_utf8 (s : Str) : ∀ fuel, s.length ≤ fuel → textLoop fuel (utf8 s) = some s := by
  induction s with
  | nil => intro fuel _; cases fuel <;> rfl
  | cons c cs ih =>
    intro fuel hf
    obtain ⟨k, rfl⟩ : ∃ k, fuel = k + 1 := ⟨fuel - 1, by simp only [List.length_cons] at hf; omega⟩
    have hpos := encodeRune_length_pos c.toNat
    obtain ⟨b, tl, hb⟩ : ∃ b tl, encodeRune c.toNat = b :: tl := by
      cases he : encodeRune c.toNat with
      | nil => rw [he] at hpos; simp at hpos
      | cons b tl => exact ⟨b, tl, rfl⟩
    have hdec := DecodeRuneInString_char c (utf8 cs)
    have hne : ¬ (c.toNat = RuneError ∧ (encodeRune c.toNat).length = 1) := by
      rintro ⟨h1, h2⟩
      rw [h1] at h2
      revert h2
      decide
    rw [utf8_cons]
    rw [hb] at hdec hne ⊢
    rw [List.cons_append] at hdec ⊢
    unfold textLoop
    rw [hdec]
    simp only
    rw [if_neg hne]
    have hdrop : List.drop (b :: tl).length (b :: (tl ++ utf8 cs)) = utf8 cs := by
      rw [← List.cons_append]
      exact List.drop_left _ _
    rw [hdrop, ih k (by simp only [List.length_cons] at hf; omega)]
    simp only [Char.ofNat_toNat]

theorem textOf_utf8 (s : Str) : textOf (utf8 s) = some s :=
  textLoop_utf8 s _ (length_le_utf8 s)

/-! ## The codec: strings -/

/-- The writer on a string that is text, character by character. -/
theorem writeStringLoop_text (s : Str) : ∀ fuel, s.length ≤ fuel →
    writeStringLoop fuel (utf8 s) = s.flatMap writeChar := by
  induction s with
  | nil => intro fuel _; cases fuel <;> rfl
  | cons c cs ih =>
    intro fuel hf
    obtain ⟨k, rfl⟩ : ∃ k, fuel = k + 1 :=
      ⟨fuel - 1, by simp only [List.length_cons] at hf; omega⟩
    have hk : cs.length ≤ k := by simp only [List.length_cons] at hf; omega
    rw [utf8_cons, List.flatMap_cons]
    by_cases ha : c.toNat < 0x80
    · rw [encodeRune_ascii _ ha]
      show writeStringLoop (k + 1) (c.toNat :: utf8 cs) = _
      rw [writeStringLoop]
      simp only [ha, if_true]
      rw [ih k hk]
      simp only [writeChar, ha, if_true]
    · have hdec := DecodeRuneInString_encodeRune c.toNat (utf8 cs) (by omega) (char_valid c)
      have hbytes := encodeRune_bytes c.toNat (by omega)
      have hpos := encodeRune_length_pos c.toNat
      have hne : ¬ (c.toNat = RuneError ∧ (encodeRune c.toNat).length = 1) := by
        rintro ⟨h1, h2⟩
        rw [h1] at h2
        revert h2
        decide
      obtain ⟨b, tl, hb⟩ : ∃ b tl, encodeRune c.toNat = b :: tl := by
        cases he : encodeRune c.toNat with
        | nil => rw [he] at hpos; simp at hpos
        | cons b tl => exact ⟨b, tl, rfl⟩
      have hb80 : ¬ b < 0x80 := by
        have := hbytes b (by rw [hb]; simp)
        omega
      have htake : List.take (b :: tl).length (b :: (tl ++ utf8 cs)) = b :: tl := by
        rw [← List.cons_append]
        exact List.take_left _ _
      have hdrop : List.drop (b :: tl).length (b :: (tl ++ utf8 cs)) = utf8 cs := by
        rw [← List.cons_append]
        exact List.drop_left _ _
      have hw : writeChar c = if c.toNat = 0x2028 ∨ c.toNat = 0x2029
          then utf8 "\\u202".toList ++ [hexDigit (c.toNat % 16)] else b :: tl := by
        simp only [writeChar, ha, if_false, hb]
      rw [hb] at hdec hne
      rw [List.cons_append] at hdec
      rw [hb, List.cons_append, writeStringLoop]
      simp only [hb80, if_false, hdec]
      rw [if_neg hne, htake, hdrop, ih k hk, hw]
      split_ifs <;> simp

/-- What `WriteString` writes for a string that is text. -/
theorem WriteString_text (s : Str) :
    WriteString (utf8 s) = '"'.toNat :: (s.flatMap writeChar ++ ['"'.toNat]) := by
  unfold WriteString
  rw [writeStringLoop_text s _ (length_le_utf8 s)]

theorem hexVal_hexDigit : ∀ n, n < 16 → hexVal (hexDigit n) = some n := by decide

theorem appendRune_small (n : Nat) (h : n < 0xD800) : appendRune n = encodeRune n := by
  unfold appendRune
  rw [if_neg (by omega)]

/-- A `\u` escape of a code unit that is no surrogate half. -/
theorem readEscapedChar_u4 (fuel : Nat) (a b c d : Nat) (x y z w : Nat) (rest : Bytes)
    (hx : hexVal a = some x) (hy : hexVal b = some y) (hz : hexVal c = some z)
    (hw : hexVal d = some w)
    (hns : ((x * 16 + y) * 16 + z) * 16 + w < 0xD800) :
    readEscapedChar (fuel + 1) 'u'.toNat (a :: b :: c :: d :: rest)
      = .ok (encodeRune (((x * 16 + y) * 16 + z) * 16 + w), rest) := by
  have hns' : ¬ (0xD800 ≤ ((x * 16 + y) * 16 + z) * 16 + w ∧
      ((x * 16 + y) * 16 + z) * 16 + w ≤ 0xDFFF) := by omega
  simp only [readEscapedChar, readU4, hx, hy, hz, hw, if_true, hns', if_false,
    appendRune_small _ hns]

/-- What the writer puts for a character: an escape, which the reader of
escapes takes back, or the bytes of the character, none of which is a quote, a
backslash or a control character. -/
theorem writeChar_shape (c : Char) :
    (∃ e tl, writeChar c = '\\'.toNat :: e :: tl ∧
      ∀ (X : Bytes) (fuel : Nat),
        readEscapedChar (fuel + 1) e (tl ++ X) = .ok (encodeRune c.toNat, X))
    ∨ (writeChar c = encodeRune c.toNat ∧
        ∀ b ∈ encodeRune c.toNat, 0x20 ≤ b ∧ b ≠ '"'.toNat ∧ b ≠ '\\'.toNat) := by
  have h0 : hexVal '0'.toNat = some 0 := by decide
  have h2 : hexVal '2'.toNat = some 2 := by decide
  by_cases ha : c.toNat < 0x80
  · have henc := encodeRune_ascii _ ha
    by_cases hs : htmlSafe c.toNat = true
    · right
      refine ⟨by simp only [writeChar, ha, hs, if_true, henc], ?_⟩
      intro b hb
      rw [henc, List.mem_singleton] at hb
      subst hb
      simp only [htmlSafe, Bool.and_eq_true, decide_eq_true_eq, bne_iff_ne, ne_eq] at hs
      exact ⟨hs.1.1.1.1.1.1, hs.1.1.1.1.2, hs.2⟩
    · left
      have hw : writeChar c = writeEscaped c.toNat := by
        simp only [writeChar, ha, hs, if_true, if_false, Bool.false_eq_true]
      rw [hw, henc]
      unfold writeEscaped
      by_cases h1 : c.toNat = '\\'.toNat ∨ c.toNat = '"'.toNat
      · rw [if_pos h1]
        refine ⟨_, _, rfl, ?_⟩
        intro X fuel
        rcases h1 with h | h <;> rw [h] <;> simp [readEscapedChar]
      rw [if_neg h1]
      by_cases h3 : c.toNat = '\n'.toNat
      · rw [if_pos h3]
        refine ⟨_, _, rfl, ?_⟩
        intro X fuel
        rw [h3]; simp [readEscapedChar]
      rw [if_neg h3]
      by_cases h4 : c.toNat = '\r'.toNat
      · rw [if_pos h4]
        refine ⟨_, _, rfl, ?_⟩
        intro X fuel
        rw [h4]; simp [readEscapedChar]
      rw [if_neg h4]
      by_cases h5 : c.toNat = '\t'.toNat
      · rw [if_pos h5]
        refine ⟨_, _, rfl, ?_⟩
        intro X fuel
        rw [h5]; simp [readEscapedChar]
      rw [if_neg h5]
      refine ⟨'u'.toNat, ['0'.toNat, '0'.toNat, hexDigit (c.toNat / 16),
        hexDigit (c.toNat % 16)], rfl, ?_⟩
      intro X fuel
      have hh := hexVal_hexDigit (c.toNat / 16) (by omega)
      have hl := hexVal_hexDigit (c.toNat % 16) (by omega)
      have hval : ((0 * 16 + 0) * 16 + c.toNat / 16) * 16 + c.toNat % 16 = c.toNat := by omega
      have hu := readEscapedChar_u4 fuel '0'.toNat '0'.toNat (hexDigit (c.toNat / 16))
        (hexDigit (c.toNat % 16)) 0 0 (c.toNat / 16) (c.toNat % 16) X h0 h0 hh hl
        (by rw [hval]; omega)
      rw [hval, henc] at hu
      exact hu
  · by_cases hl : c.toNat = 0x2028 ∨ c.toNat = 0x2029
    · left
      have hw : writeChar c = utf8 "\\u202".toList ++ [hexDigit (c.toNat % 16)] := by
        simp only [writeChar, ha, hl, if_true, if_false]
      rw [hw]
      refine ⟨'u'.toNat, ['2'.toNat, '0'.toNat, '2'.toNat, hexDigit (c.toNat % 16)], rfl, ?_⟩
      intro X fuel
      have hd := hexVal_hexDigit (c.toNat % 16) (by omega)
      have hval : ((2 * 16 + 0) * 16 + 2) * 16 + c.toNat % 16 = c.toNat := by omega
      have hu := readEscapedChar_u4 fuel '2'.toNat '0'.toNat '2'.toNat
        (hexDigit (c.toNat % 16)) 2 0 2 (c.toNat % 16) X h2 h0 h2 hd
        (by rw [hval]; omega)
      rw [hval] at hu
      exact hu
    · right
      refine ⟨by simp only [writeChar, ha, hl, if_false], ?_⟩
      intro b hb
      have := encodeRune_bytes c.toNat (by omega) b hb
      have e1 : '"'.toNat = 34 := rfl
      have e2 : '\\'.toNat = 92 := rfl
      rw [e1, e2]
      omega

/-- The reader copies bytes that are no quote and no backslash. -/
theorem readStringLoop_raw (bs : Bytes) (h : ∀ b ∈ bs, b ≠ '"'.toNat ∧ b ≠ '\\'.toNat) :
    ∀ (fuel : Nat) (inp : Bytes), readStringLoop (fuel + bs.length) (bs ++ inp) =
      (match readStringLoop fuel inp with
        | .error e => .error e
        | .unmodelled => .unmodelled
        | .ok (s, r) => .ok (bs ++ s, r)) := by
  induction bs with
  | nil =>
    intro fuel inp
    simp only [List.length_nil, Nat.add_zero, List.nil_append]
    cases readStringLoop fuel inp with
    | error e => rfl
    | unmodelled => rfl
    | ok v => rfl
  | cons b bs ih =>
    intro fuel inp
    obtain ⟨hq, hb⟩ := h b (List.mem_cons_self _ _)
    have := ih (fun x hx => h x (List.mem_cons_of_mem _ hx)) fuel inp
    show readStringLoop ((fuel + bs.length) + 1) (b :: (bs ++ inp)) = _
    simp only [readStringLoop, hq, hb, if_false, this]
    cases readStringLoop fuel inp with
    | error e => rfl
    | unmodelled => rfl
    | ok v => rfl

theorem writeChar_length_pos (c : Char) : 0 < (writeChar c).length := by
  rcases writeChar_shape c with ⟨e, tl, h, _⟩ | ⟨h, _⟩
  · rw [h]; simp
  · rw [h]; exact encodeRune_length_pos _

/-- The loop of the string reader takes back an escaped text up to its closing
quote. -/
theorem readStringLoop_escaped (s : Str) (rest : Bytes) :
    ∀ fuel, (s.flatMap writeChar).length < fuel →
      readStringLoop fuel (s.flatMap writeChar ++ '"'.toNat :: rest) = .ok (utf8 s, rest) := by
  induction s with
  | nil =>
    intro fuel hf
    obtain ⟨k, rfl⟩ : ∃ k, fuel = k + 1 := ⟨fuel - 1, by simp at hf; omega⟩
    simp [readStringLoop, utf8]
  | cons c cs ih =>
    intro fuel hf
    rw [List.flatMap_cons, List.length_append] at hf
    rw [List.flatMap_cons, List.append_assoc, utf8_cons]
    rcases writeChar_shape c with ⟨e, tl, hw, hread⟩ | ⟨hw, hb⟩
    · obtain ⟨k, rfl⟩ : ∃ k, fuel = k + 1 := ⟨fuel - 1, by omega⟩
      rw [hw] at hf ⊢
      simp only [List.length_cons] at hf
      have hbq : ¬ ('\\'.toNat = '"'.toNat) := by decide
      rw [List.cons_append, List.cons_append, readStringLoop]
      simp only [hbq, if_false, if_true, hread, ih k (by omega)]
    · rw [hw] at hf ⊢
      obtain ⟨k, rfl⟩ : ∃ k, fuel = k + (encodeRune c.toNat).length :=
        ⟨fuel - (encodeRune c.toNat).length, by omega⟩
      rw [readStringLoop_raw _ (fun b hb' => ⟨(hb b hb').2.1, (hb b hb').2.2⟩),
        ih k (by omega)]

/-- The first scan of `ReadString` passes over bytes that are no quote, no
backslash and no control character. -/
theorem readStringScan_raw (bs : Bytes)
    (h : ∀ b ∈ bs, 0x20 ≤ b ∧ b ≠ '"'.toNat ∧ b ≠ '\\'.toNat) (inp : Bytes) :
    readStringScan (bs ++ inp) = readStringScan inp := by
  induction bs with
  | nil => rfl
  | cons b bs ih =>
    obtain ⟨h1, h2, h3⟩ := h b (List.mem_cons_self _ _)
    have h1' : ¬ b < 0x20 := by omega
    rw [List.cons_append, readStringScan]
    simp only [h2, h3, or_self, if_false, h1']
    exact ih (fun x hx => h x (List.mem_cons_of_mem _ hx))

/-- The first scan of `ReadString` never meets a control character in an
escaped text. -/
theorem readStringScan_escaped (s : Str) (rest : Bytes) :
    readStringScan (s.flatMap writeChar ++ '"'.toNat :: rest) = some true := by
  induction s with
  | nil => simp [readStringScan]
  | cons c cs ih =>
    rw [List.flatMap_cons, List.append_assoc]
    rcases writeChar_shape c with ⟨e, tl, hw, _⟩ | ⟨hw, hb⟩
    · rw [hw]
      simp [readStringScan]
    · rw [hw, readStringScan_raw _ hb]
      exact ih

theorem skipWs_cons_of_not_space (c : Nat) (rest : Bytes) (h : isJsonSpace c = false) :
    skipWs (c :: rest) = c :: rest := by
  simp [skipWs, List.dropWhile, h]

/-- Round trip of a string that is text: `ReadString` takes back what
`WriteString` wrote and leaves the input that follows it. -/
theorem ReadString_WriteString (s : Str) (rest : Bytes) :
    ReadString (WriteString (utf8 s) ++ rest) = .ok (utf8 s, rest) := by
  have hsp : isJsonSpace '"'.toNat = false := by decide
  rw [WriteString_text]
  unfold ReadString
  rw [List.cons_append, skipWs_cons_of_not_space _ _ hsp]
  simp only [if_true, List.append_assoc, List.singleton_append]
  rw [readStringScan_escaped]
  simp only [Option.some.injEq, Bool.true_eq_false, if_false]
  unfold readStringSlowPath
  apply readStringLoop_escaped
  simp only [List.length_append, List.length_cons]
  omega

/-! ## The codec: integers -/

theorem isDigitByte_iff (b : Nat) : isDigitByte b = true ↔ 48 ≤ b ∧ b ≤ 57 := by
  have e0 : '0'.toNat = 48 := rfl
  have e9 : '9'.toNat = 57 := rfl
  simp only [isDigitByte, Bool.and_eq_true, decide_eq_true_eq, e0, e9]

theorem bytesVal_acc (ds : Bytes) (n : Nat) :
    ds.foldl (fun n b => n * 10 + (b - '0'.toNat)) n = n * 10 ^ ds.length + bytesVal ds := by
  induction ds generalizing n with
  | nil => simp [bytesVal]
  | cons d ds ih =>
    simp only [List.foldl_cons, bytesVal, List.length_cons]
    rw [ih, ih (0 * 10 + (d - '0'.toNat))]
    ring

theorem bytesVal_append (a b : Bytes) :
    bytesVal (a ++ b) = bytesVal a * 10 ^ b.length + bytesVal b := by
  unfold bytesVal
  rw [List.foldl_append, bytesVal_acc]
  rfl

theorem bytesVal_cons (c : Nat) (ds : Bytes) :
    bytesVal (c :: ds) = (c - 48) * 10 ^ ds.length + bytesVal ds := by
  have h := bytesVal_append [c] ds
  have e0 : '0'.toNat = 48 := rfl
  simpa [bytesVal, e0] using h

/-- What the integer writer writes: the decimal digits of the number, without
a leading zero. -/
theorem writeUintAux_spec : ∀ (fuel n : Nat) (acc : Bytes), n < 10 ^ fuel → 0 < fuel →
    ∃ ds, writeUintAux fuel n acc = ds ++ acc ∧ ds ≠ [] ∧ (∀ c ∈ ds, isDigitByte c = true) ∧
      bytesVal ds = n ∧ (n = 0 → ds = [48]) ∧ (0 < n → ds.head? ≠ some 48) := by
  intro fuel
  have e0 : '0'.toNat = 48 := rfl
  induction fuel with
  | zero => intro n acc _ h; omega
  | succ fuel ih =>
    intro n acc hn _
    have hmod : n % 10 < 10 := Nat.mod_lt _ (by norm_num)
    have hd1 : isDigitByte (48 + n % 10) = true := (isDigitByte_iff _).mpr ⟨by omega, by omega⟩
    unfold writeUintAux
    simp only [e0]
    by_cases hq : n / 10 = 0
    · rw [if_pos hq]
      have hlt : n < 10 := by omega
      have hm : n % 10 = n := Nat.mod_eq_of_lt hlt
      refine ⟨[48 + n % 10], rfl, by simp, ?_, ?_, ?_, ?_⟩
      · intro c hc
        rw [List.mem_singleton] at hc
        rw [hc]; exact hd1
      · rw [bytesVal_cons]
        simp only [List.length_nil, pow_zero, mul_one, bytesVal, List.foldl_nil]
        omega
      · intro h0; rw [h0]
      · intro hpos
        simp only [List.head?_cons, ne_eq, Option.some.injEq]
        omega
    · rw [if_neg hq]
      have hfuel : 0 < fuel := by
        rcases Nat.eq_zero_or_pos fuel with h | h
        · subst h; simp at hn; omega
        · exact h
      have hn' : n / 10 < 10 ^ fuel := by
        rw [pow_succ] at hn
        exact Nat.div_lt_of_lt_mul (by omega)
      obtain ⟨ds, h1, h2, h3, h4, _, h6⟩ := ih (n / 10) ((48 + n % 10) :: acc) hn' hfuel
      refine ⟨ds ++ [48 + n % 10], ?_, by simp, ?_, ?_, ?_, ?_⟩
      · rw [h1]; simp
      · intro c hc
        rcases List.mem_append.mp hc with h | h
        · exact h3 c h
        · rw [List.mem_singleton] at h
          rw [h]; exact hd1
      · rw [bytesVal_append, h4, bytesVal_cons]
        simp only [List.length_singleton, pow_one, List.length_nil, pow_zero, mul_one,
          bytesVal, List.foldl_nil]
        omega
      · intro h0; omega
      · intro _
        have := h6 (Nat.pos_of_ne_zero hq)
        cases ds with
        | nil => exact absurd rfl h2
        | cons d tl => simpa using this

theorem readUint64Loop_digits (ds : Bytes) (rest : Bytes) (hend : intEnd rest)
    (hd : ∀ c ∈ ds, isDigitByte c = true) :
    ∀ v, v * 10 ^ ds.length + bytesVal ds < 2 ^ 64 →
      readUint64Loop (ds ++ rest) v = .ok (v * 10 ^ ds.length + bytesVal ds, rest) := by
  have e0 : '0'.toNat = 48 := rfl
  induction ds with
  | nil =>
    intro v _
    cases rest with
    | nil => simp [readUint64Loop, bytesVal]
    | cons c t =>
      obtain ⟨h1, h2⟩ := hend c t rfl
      have h2' : ¬ c = 46 := h2
      simp [readUint64Loop, bytesVal, h1, h2']
  | cons d ds ih =>
    intro v hv
    have hdd := hd d (List.mem_cons_self _ _)
    rw [bytesVal_cons] at hv ⊢
    have hexp : v * 10 ^ (d :: ds).length = v * 10 * 10 ^ ds.length := by
      simp only [List.length_cons, pow_succ]; ring
    rw [hexp] at hv ⊢
    have hpos : 0 < 10 ^ ds.length := pow_pos (by norm_num) _
    have hle : v * 10 + (d - 48) ≤ (v * 10 + (d - 48)) * 10 ^ ds.length :=
      Nat.le_mul_of_pos_right _ hpos
    have hsum : (v * 10 + (d - 48)) * 10 ^ ds.length
        = v * 10 * 10 ^ ds.length + (d - 48) * 10 ^ ds.length := by ring
    have hsmall : v * 10 + (d - 48) < 2 ^ 64 := by omega
    have hmod : (v * 10 + (d - 48)) % 2 ^ 64 = v * 10 + (d - 48) :=
      Nat.mod_eq_of_lt hsmall
    have hno : ¬ (v > uint64SafeToMultiple10 ∧ v * 10 + (d - 48) < v) := by omega
    have := ih (fun c hc => hd c (List.mem_cons_of_mem _ hc)) (v * 10 + (d - 48))
      (by omega)
    rw [List.cons_append]
    simp only [readUint64Loop, hdd, if_true, e0, hmod, hno, if_false]
    rw [this]
    congr 2
    omega

/-- The number reader takes back what the number writer wrote. -/
theorem readUint64_WriteUint64 (n : Nat) (hn : n < 2 ^ 64) (rest : Bytes) (hend : intEnd rest) :
    ∃ c tl, WriteUint64 n ++ rest = c :: tl ∧ isDigitByte c = true ∧
      readUint64 c tl = .ok (n, rest) := by
  have e0 : '0'.toNat = 48 := rfl
  obtain ⟨ds, h1, h2, h3, h4, h5, h6⟩ := writeUintAux_spec 20 n [] (by omega) (by norm_num)
  rw [List.append_nil] at h1
  unfold WriteUint64
  rw [h1]
  rcases Nat.eq_zero_or_pos n with h0 | hpos
  · subst h0
    rw [h5 rfl]
    refine ⟨48, rest, rfl, by decide, ?_⟩
    unfold readUint64
    simp only [e0, if_true]
    cases rest with
    | nil => rfl
    | cons c t =>
      have := (hend c t rfl).2
      simp only [this, if_false]
  · cases ds with
    | nil => exact absurd rfl h2
    | cons c tl =>
      have hc := h3 c (List.mem_cons_self _ _)
      have hne : c ≠ 48 := by
        have := h6 hpos
        simpa using this
      refine ⟨c, tl ++ rest, rfl, hc, ?_⟩
      unfold readUint64
      rw [e0, if_neg hne]
      simp only [hc, if_true]
      have hv : bytesVal (c :: tl) = (c - 48) * 10 ^ tl.length + bytesVal tl :=
        bytesVal_cons c tl
      rw [readUint64Loop_digits tl rest hend (fun x hx => h3 x (List.mem_cons_of_mem _ hx))
        (c - 48) (by rw [← hv, h4]; exact hn)]
      rw [← hv, h4]

theorem isDigitByte_not_space {c : Nat} (h : isDigitByte c = true) :
    isJsonSpace c = false ∧ c ≠ 'n'.toNat ∧ c ≠ '-'.toNat := by
  have hb := (isDigitByte_iff c).mp h
  have e1 : ' '.toNat = 32 := rfl
  have e2 : '\n'.toNat = 10 := rfl
  have e3 : '\t'.toNat = 9 := rfl
  have e4 : '\r'.toNat = 13 := rfl
  have e5 : 'n'.toNat = 110 := rfl
  have e6 : '-'.toNat = 45 := rfl
  refine ⟨?_, ?_, ?_⟩
  · unfold isJsonSpace
    rw [e1, e2, e3, e4]
    have h1 : c ≠ 32 := by omega
    have h2 : c ≠ 10 := by omega
    have h3 : c ≠ 9 := by omega
    have h4 : c ≠ 13 := by omega
    simp [h1, h2, h3, h4]
  · rw [e5]; omega
  · rw [e6]; omega

/-- Round trip of an `int64`. -/
theorem ReadInt64_WriteInt64 (n : Int) (hlo : -(2 : Int) ^ 63 ≤ n) (hhi : n < (2 : Int) ^ 63)
    (rest : Bytes) (hend : intEnd rest) :
    ReadInt64 (WriteInt64 n ++ rest) = .ok (n, rest) := by
  have habs : n.natAbs < 2 ^ 64 := by omega
  obtain ⟨c, tl, h1, h2, h3⟩ := readUint64_WriteUint64 n.natAbs habs rest hend
  obtain ⟨hs, _, hm⟩ := isDigitByte_not_space h2
  unfold ReadInt64 WriteInt64
  by_cases hneg : n < 0
  · rw [if_pos hneg, List.cons_append, skipWs_cons_of_not_space _ _ (by decide)]
    simp only [if_true]
    rw [h1]
    simp only [h3]
    have : ¬ n.natAbs > 2 ^ 63 := by omega
    rw [if_neg this]
    congr 2
    omega
  · rw [if_neg hneg, h1, skipWs_cons_of_not_space _ _ hs]
    simp only [hm, if_false, h3]
    have : ¬ n.natAbs > 2 ^ 63 - 1 := by omega
    rw [if_neg this]
    congr 2
    omega

/-- The decoder of an `int` field takes back what the writer wrote. -/
theorem decodeInt_WriteInt64 (old n : Int) (hlo : -(2 : Int) ^ 63 ≤ n)
    (hhi : n < (2 : Int) ^ 63) (rest : Bytes) (hend : intEnd rest) :
    decodeInt old (WriteInt64 n ++ rest) = .ok (n, rest) := by
  have hrt := ReadInt64_WriteInt64 n hlo hhi rest hend
  obtain ⟨c, tl, h1, h2, _⟩ := readUint64_WriteUint64 n.natAbs (by omega) rest hend
  obtain ⟨hs, hn, _⟩ := isDigitByte_not_space h2
  have hhead : ∃ c0 t0, WriteInt64 n ++ rest = c0 :: t0 ∧ isJsonSpace c0 = false
      ∧ c0 ≠ 'n'.toNat := by
    unfold WriteInt64
    by_cases hneg : n < 0
    · rw [if_pos hneg]
      exact ⟨'-'.toNat, _, rfl, by decide, by decide⟩
    · rw [if_neg hneg, h1]
      exact ⟨c, tl, rfl, hs, hn⟩
  obtain ⟨c0, t0, e0, hs0, hn0⟩ := hhead
  unfold decodeInt
  rw [e0, skipWs_cons_of_not_space _ _ hs0]
  simp only [hn0, if_false]
  rw [← e0]; exact hrt

/-! ## The codec: objects -/

theorem readStringLoop_plain (key : Bytes) (hk : plainName key = true) (tail : Bytes) :
    ∀ fuel, key.length < fuel →
      readStringLoop fuel (key ++ '"'.toNat :: tail) = .ok (key, tail) := by
  induction key with
  | nil =>
    intro fuel hf
    obtain ⟨k, rfl⟩ : ∃ k, fuel = k + 1 := ⟨fuel - 1, by simp at hf; omega⟩
    simp [readStringLoop]
  | cons c cs ih =>
    intro fuel hf
    obtain ⟨k, rfl⟩ : ∃ k, fuel = k + 1 := ⟨fuel - 1, by omega⟩
    simp only [plainName, List.all_cons, Bool.and_eq_true, bne_iff_ne, ne_eq,
      beq_iff_eq] at hk
    obtain ⟨⟨⟨hq, hb⟩, _⟩, hrest⟩ := hk
    have := ih (by simpa [plainName] using hrest) k
      (by simp only [List.length_cons] at hf; omega)
    rw [List.cons_append]
    simp only [readStringLoop, hq, hb, if_false, this]

/-- Reading a field name the encoder wrote, and the colon after it. -/
theorem readFieldName_plain (key : Bytes) (hk : plainName key = true) (tail : Bytes) :
    readFieldName ('"'.toNat :: (key ++ '"'.toNat :: ':'.toNat :: tail)) = .ok (key, tail) := by
  have hlow : key.map lowerByte = key := by
    clear tail
    induction key with
    | nil => rfl
    | cons c cs ih =>
      simp only [plainName, List.all_cons, Bool.and_eq_true, bne_iff_ne, ne_eq,
        beq_iff_eq] at hk
      obtain ⟨⟨_, hl⟩, hrest⟩ := hk
      rw [List.map_cons, hl, ih (by simpa [plainName] using hrest)]
  unfold readFieldName
  rw [skipWs_cons_of_not_space _ _ (by decide)]
  simp only [ne_eq, not_true_eq_false, if_false]
  unfold readStringSlowPath
  rw [readStringLoop_plain key hk (':'.toNat :: tail) _
    (by simp only [List.length_append, List.length_cons]; omega)]
  simp only
  rw [skipWs_cons_of_not_space _ _ (by decide)]
  simp only [hlow, if_true]

theorem intEnd_comma (t : Bytes) : intEnd (','.toNat :: t) := by
  intro c t' h
  simp only [List.cons.injEq] at h
  rw [← h.1]
  exact ⟨by decide, by decide⟩

theorem isObjectEnd_comma (t : Bytes) : isObjectEnd (','.toNat :: t) = .ok (false, t) := by
  unfold isObjectEnd
  rw [skipWs_cons_of_not_space _ _ (by decide)]
  simp only [if_true]

theorem isObjectEnd_brace (t : Bytes) : isObjectEnd ('\x7d'.toNat :: t) = .ok (true, t) := by
  unfold isObjectEnd
  rw [skipWs_cons_of_not_space _ _ (by decide)]
  have h : ¬ ('\x7d'.toNat = ','.toNat) := by decide
  simp only [h, if_false, if_true]

/-- The text of an asset after its opening brace. -/
theorem encodeAsset_eq (a : rawAsset) (rest : Bytes) :
    encodeAsset a ++ rest = '\x7b'.toNat :: '"'.toNat :: (utf8 "id".toList ++ '"'.toNat ::
      ':'.toNat :: (WriteInt64 a.ID ++ ','.toNat :: '"'.toNat :: (utf8 "name".toList ++
        '"'.toNat :: ':'.toNat :: (WriteString a.Name ++ ','.toNat :: '"'.toNat ::
          (utf8 "browser_download_url".toList ++ '"'.toNat :: ':'.toNat ::
            (WriteString a.DownloadURL ++ '\x7d'.toNat :: rest)))))) := by
  have e1 : utf8 "\x7b\"id\":".toList
      = '\x7b'.toNat :: '"'.toNat :: (utf8 "id".toList ++ ['"'.toNat, ':'.toNat]) := by decide
  have e2 : utf8 ",\"name\":".toList
      = ','.toNat :: '"'.toNat :: (utf8 "name".toList ++ ['"'.toNat, ':'.toNat]) := by decide
  have e3 : utf8 ",\"browser_download_url\":".toList
      = ','.toNat :: '"'.toNat :: (utf8 "browser_download_url".toList
          ++ ['"'.toNat, ':'.toNat]) := by decide
  have e4 : utf8 "\x7d".toList = ['\x7d'.toNat] := by decide
  unfold encodeAsset
  rw [e1, e2, e3, e4]
  simp only [List.append_assoc, List.cons_append, List.nil_append]

theorem readObjectStart_fields (tail : Bytes) :
    readObjectStart ('\x7b'.toNat :: '"'.toNat :: tail) = .ok (true, '"'.toNat :: tail) := by
  unfold readObjectStart
  rw [skipWs_cons_of_not_space _ _ (by decide)]
  simp only [if_true]
  rw [skipWs_cons_of_not_space _ _ (by decide)]
  have h : ¬ ('"'.toNat = '\x7d'.toNat) := by decide
  simp only [h, if_false]

/-- Round trip of one asset that is text: the decoder takes back what the
encoder wrote and leaves the input that follows it. -/
theorem decodeAsset_encodeAsset (a : Asset) (hlo : -(2 : Int) ^ 63 ≤ a.ID)
    (hhi : a.ID < (2 : Int) ^ 63) (rest : Bytes) :
    decodeAsset (encodeAsset a.raw ++ rest) = .ok (a.raw, rest) := by
  rw [encodeAsset_eq]
  unfold decodeAsset
  rw [readObjectStart_fields]
  simp only
  generalize hT3 : '\x7d'.toNat :: rest = T3
  generalize hT2 : ','.toNat :: '"'.toNat :: (utf8 "browser_download_url".toList ++
    '"'.toNat :: ':'.toNat :: (WriteString a.raw.DownloadURL ++ T3)) = T2
  generalize hT1 : ','.toNat :: '"'.toNat :: (utf8 "name".toList ++ '"'.toNat :: ':'.toNat ::
    (WriteString a.raw.Name ++ T2)) = T1
  obtain ⟨k, hk⟩ : ∃ k, ('"'.toNat :: (utf8 "id".toList ++ '"'.toNat :: ':'.toNat ::
      (WriteInt64 a.raw.ID ++ T1))).length + 1 = k + 3 := by
    refine ⟨('"'.toNat :: (utf8 "id".toList ++ '"'.toNat :: ':'.toNat ::
      (WriteInt64 a.raw.ID ++ T1))).length - 2, ?_⟩
    simp only [List.length_cons, List.length_append]
    omega
  rw [hk]
  -- the field `id`
  rw [decodeAssetFields, readFieldName_plain _ (by decide)]
  simp only [decodeAssetField, if_true]
  rw [decodeInt_WriteInt64 0 a.raw.ID hlo hhi T1 (by rw [← hT1]; exact intEnd_comma _)]
  simp only
  rw [← hT1, isObjectEnd_comma]
  simp only
  -- the field `name`
  rw [decodeAssetFields, readFieldName_plain _ (by decide)]
  have n1 : ¬ (utf8 "name".toList = utf8 "id".toList) := by decide
  simp only [decodeAssetField, n1, if_false, if_true]
  rw [show a.raw.Name = utf8 a.Name from rfl, ReadString_WriteString]
  simp only
  rw [← hT2, isObjectEnd_comma]
  simp only
  -- the field `browser_download_url`
  rw [decodeAssetFields, readFieldName_plain _ (by decide)]
  have n2 : ¬ (utf8 "browser_download_url".toList = utf8 "id".toList) := by decide
  have n3 : ¬ (utf8 "browser_download_url".toList = utf8 "name".toList) := by decide
  simp only [decodeAssetField, n2, n3, if_false, if_true]
  rw [show a.raw.DownloadURL = utf8 a.DownloadURL from rfl, ReadString_WriteString]
  simp only
  rw [← hT3, isObjectEnd_brace]
  rfl

/-! ## The codec: the release -/

theorem encodeAsset_head (a : rawAsset) (rest : Bytes) :
    ∃ tl, encodeAsset a ++ rest = '\x7b'.toNat :: tl := by
  rw [encodeAsset_eq]; exact ⟨_, rfl⟩

theorem tail_length (l : List rawAsset) :
    l.length ≤ (l.flatMap (fun x => ','.toNat :: encodeAsset x)).length := by
  induction l with
  | nil => simp
  | cons a l ih =>
    simp only [List.flatMap_cons, List.length_append, List.length_cons]
    omega

/-- The element loop of the slice decoder takes back the assets the encoder
wrote, in their order. -/
theorem decodeAssetsLoop_encoded (l : List Asset) :
    ∀ (a : Asset) (acc : List rawAsset) (fuel : Nat) (rest : Bytes),
      (-(2 : Int) ^ 63 ≤ a.ID ∧ a.ID < (2 : Int) ^ 63) →
      (∀ x ∈ l, -(2 : Int) ^ 63 ≤ x.ID ∧ x.ID < (2 : Int) ^ 63) →
      l.length < fuel →
      decodeAssetsLoop fuel acc
          (encodeAsset a.raw ++ ((l.map Asset.raw).flatMap (fun x => ','.toNat :: encodeAsset x)
            ++ ']'.toNat :: rest))
        = .ok (acc.reverse ++ a.raw :: l.map Asset.raw, rest) := by
  induction l with
  | nil =>
    intro a acc fuel rest ha _ hf
    obtain ⟨k, rfl⟩ : ∃ k, fuel = k + 1 := ⟨fuel - 1, by simp at hf; omega⟩
    simp only [List.map_nil, List.flatMap_nil, List.nil_append]
    rw [decodeAssetsLoop, decodeAsset_encodeAsset a ha.1 ha.2]
    simp only
    rw [skipWs_cons_of_not_space _ _ (by decide)]
    have h : ¬ (']'.toNat = ','.toNat) := by decide
    simp [h]
  | cons b l ih =>
    intro a acc fuel rest ha hl hf
    obtain ⟨k, rfl⟩ : ∃ k, fuel = k + 1 := ⟨fuel - 1, by omega⟩
    have hb := hl b (List.mem_cons_self _ _)
    have hl' : ∀ x ∈ l, -(2 : Int) ^ 63 ≤ x.ID ∧ x.ID < (2 : Int) ^ 63 :=
      fun x hx => hl x (List.mem_cons_of_mem _ hx)
    have hin : encodeAsset a.raw ++
        (((b :: l).map Asset.raw).flatMap (fun x => ','.toNat :: encodeAsset x)
          ++ ']'.toNat :: rest)
        = encodeAsset a.raw ++ (','.toNat :: (encodeAsset b.raw ++
            ((l.map Asset.raw).flatMap (fun x => ','.toNat :: encodeAsset x)
              ++ ']'.toNat :: rest))) := by
      simp [List.flatMap_cons, List.append_assoc]
    rw [hin, decodeAssetsLoop, decodeAsset_encodeAsset a ha.1 ha.2]
    simp only
    rw [skipWs_cons_of_not_space _ _ (by decide)]
    simp only [if_true]
    rw [ih b (a.raw :: acc) k rest hb hl' (by simp only [List.length_cons] at hf; omega)]
    simp

/-- Round trip of the field `Assets`, the nil slice included. -/
theorem decodeAssets_encodeAssets (A : Option (List Asset))
    (hA : ∀ x ∈ A.getD [], -(2 : Int) ^ 63 ≤ x.ID ∧ x.ID < (2 : Int) ^ 63) (rest : Bytes) :
    decodeAssets (encodeAssets (A.map (fun l => l.map Asset.raw)) ++ rest)
      = .ok (A.map (fun l => l.map Asset.raw), rest) := by
  rcases A with _ | ⟨_ | ⟨a, l⟩⟩
  · -- the nil slice
    show decodeAssets ('n'.toNat :: 'u'.toNat :: 'l'.toNat :: 'l'.toNat :: rest) = _
    unfold decodeAssets
    rw [skipWs_cons_of_not_space _ _ (by decide)]
    have e : utf8 "ull".toList = ['u'.toNat, 'l'.toNat, 'l'.toNat] := by decide
    rw [e]
    simp [skipBytes, List.isPrefixOf]
  · -- the empty slice
    show decodeAssets ('['.toNat :: ']'.toNat :: rest) = _
    unfold decodeAssets
    rw [skipWs_cons_of_not_space _ _ (by decide)]
    have h1 : ¬ ('['.toNat = 'n'.toNat) := by decide
    simp only [h1, if_false, if_true]
    rw [skipWs_cons_of_not_space _ _ (by decide)]
    simp
  · -- at least one asset
    have ha := hA a (by simp)
    have hl : ∀ x ∈ l, -(2 : Int) ^ 63 ≤ x.ID ∧ x.ID < (2 : Int) ^ 63 :=
      fun x hx => hA x (by simp [hx])
    have hin : encodeAssets (Option.map (fun l => l.map Asset.raw) (some (a :: l))) ++ rest
        = '['.toNat :: (encodeAsset a.raw ++
            ((l.map Asset.raw).flatMap (fun x => ','.toNat :: encodeAsset x)
              ++ ']'.toNat :: rest)) := by
      simp [encodeAssets, List.append_assoc]
    obtain ⟨tl, htl⟩ := encodeAsset_head a.raw
      ((l.map Asset.raw).flatMap (fun x => ','.toNat :: encodeAsset x) ++ ']'.toNat :: rest)
    rw [hin]
    unfold decodeAssets
    rw [skipWs_cons_of_not_space _ _ (by decide)]
    have h1 : ¬ ('['.toNat = 'n'.toNat) := by decide
    simp only [h1, if_false, if_true]
    have hloop := decodeAssetsLoop_encoded l a [] (tl.length + 2) rest ha hl (by
      have h1 := tail_length (l.map Asset.raw)
      have h2 : (encodeAsset a.raw ++
          ((l.map Asset.raw).flatMap (fun x => ','.toNat :: encodeAsset x)
            ++ ']'.toNat :: rest)).length = ('\x7b'.toNat :: tl).length := by rw [htl]
      simp only [List.length_append, List.length_cons, List.length_map] at h1 h2
      omega)
    rw [htl] at hloop ⊢
    rw [skipWs_cons_of_not_space _ _ (by decide)]
    have h2 : ¬ ('\x7b'.toNat = ']'.toNat) := by decide
    simp only [h2, if_false, hloop]
    simp

/-- The text of a release. -/
theorem Marshal_eq (i : rawReleaseInfo) :
    Marshal i = '\x7b'.toNat :: '"'.toNat :: (utf8 "tag_name".toList ++ '"'.toNat ::
      ':'.toNat :: (WriteString i.TagName ++ ','.toNat :: '"'.toNat ::
        (utf8 "assets".toList ++ '"'.toNat :: ':'.toNat ::
          (encodeAssets i.Assets ++ ['\x7d'.toNat])))) := by
  have e1 : utf8 "\x7b\"tag_name\":".toList
      = '\x7b'.toNat :: '"'.toNat :: (utf8 "tag_name".toList ++ ['"'.toNat, ':'.toNat]) := by
    decide
  have e2 : utf8 ",\"assets\":".toList
      = ','.toNat :: '"'.toNat :: (utf8 "assets".toList ++ ['"'.toNat, ':'.toNat]) := by decide
  have e4 : utf8 "\x7d".toList = ['\x7d'.toNat] := by decide
  unfold Marshal
  rw [e1, e2, e4]
  simp only [List.append_assoc, List.cons_append, List.nil_append]

/-- Round trip of a release that is text through the model of the codec: the
tag and the assets come back, the local path does not. -/
theorem Unmarshal_Marshal (i : releaseInfo) (hids : i.idsInRange = true) :
    Unmarshal (Marshal i.raw)
      = .ok ({ LocalPath := [], TagName := i.TagName, Assets := i.Assets } : releaseInfo).raw := by
  have hA : ∀ x ∈ i.Assets.getD [], -(2 : Int) ^ 63 ≤ x.ID ∧ x.ID < (2 : Int) ^ 63 := by
    intro x hx
    have := (List.all_eq_true.mp hids) x hx
    simpa using this
  rw [Marshal_eq]
  unfold Unmarshal
  rw [readObjectStart_fields]
  simp only
  generalize hT1 : ','.toNat :: '"'.toNat :: (utf8 "assets".toList ++ '"'.toNat :: ':'.toNat ::
    (encodeAssets i.raw.Assets ++ ['\x7d'.toNat])) = T1
  obtain ⟨k, hk⟩ : ∃ k, ('"'.toNat :: (utf8 "tag_name".toList ++ '"'.toNat :: ':'.toNat ::
      (WriteString i.raw.TagName ++ T1))).length + 1 = k + 2 := by
    refine ⟨('"'.toNat :: (utf8 "tag_name".toList ++ '"'.toNat :: ':'.toNat ::
      (WriteString i.raw.TagName ++ T1))).length - 1, ?_⟩
    simp only [List.length_cons, List.length_append]
    omega
  rw [hk]
  rw [decodeReleaseFields, readFieldName_plain _ (by decide)]
  simp only [if_true]
  rw [show i.raw.TagName = utf8 i.TagName from rfl, ReadString_WriteString]
  simp only
  rw [← hT1, isObjectEnd_comma]
  simp only
  rw [decodeReleaseFields, readFieldName_plain _ (by decide)]
  have n1 : ¬ (utf8 "assets".toList = utf8 "tag_name".toList) := by decide
  simp only [n1, if_false, if_true, Bool.false_eq_true]
  rw [show i.raw.Assets = i.Assets.map (fun l => l.map Asset.raw) from rfl,
    decodeAssets_encodeAssets i.Assets hA]
  simp only
  rw [isObjectEnd_brace]
  simp [skipWs, rawReleaseInfo.zero, releaseInfo.raw, utf8]

/-! ## The metadata round trip -/

theorem rawAsset_text_raw (a : Asset) : a.raw.text = some a := by
  simp only [rawAsset.text, Asset.raw, textOf_utf8]

theorem textAssets_raw (l : List Asset) : textAssets (l.map Asset.raw) = some l := by
  induction l with
  | nil => rfl
  | cons a l ih => simp only [List.map_cons, textAssets, rawAsset_text_raw, ih]

/-- The text of the bytes of a release is that release. -/
theorem rawReleaseInfo_text_raw (i : releaseInfo) : i.raw.text = some i := by
  rcases i with ⟨p, t, _ | l⟩
  · simp only [rawReleaseInfo.text, releaseInfo.raw, textOf_utf8, Option.map_none']
  · simp only [rawReleaseInfo.text, releaseInfo.raw, textOf_utf8, Option.map_some',
      textAssets_raw]

section MetaRoundTrip
variable {W : Type}

/-- C7, as amended. Metadata round trip for a release whose tag, asset names
and download URLs are text, that is, valid UTF-8, and whose asset identifiers
fit the type `int`: decoding the bytes of its encoding succeeds and yields the
same tag and the same assets in the same order, with an empty local path
whatever bytes the local path was, which the encoding leaves out. `saveMeta`
writes exactly the bytes the codec encodes to the file it created, and
`parseReleaseInfoFile` returns what the codec decodes from the bytes of the
file. -/
theorem saveMeta_parse_round_trip (r : releaseInfo) (hids : r.idsInRange = true) :
    (∀ p : Bytes, Unmarshal (Marshal { r.raw with LocalPath := p })
      = .ok { r.raw with LocalPath := [] })
    ∧ (∀ p : Bytes, Marshal { r.raw with LocalPath := p } = Marshal r.raw)
    ∧ exampleCodec.Marshal r = .ok (Marshal r.raw)
    ∧ exampleCodec.Unmarshal (Marshal r.raw)
        = .ok { LocalPath := [], TagName := r.TagName, Assets := r.Assets }
    ∧ (∀ (js : Codec) (os : OS W) (filename : Str) (s : St W) (data : Bytes),
        js.Marshal r = .ok data → (os.Create filename s.world).1 = none →
        s.since (r.saveMeta js os filename s).2
          = [.create filename, .write (.file filename) data, .close (.file filename)])
    ∧ (∀ (js : Codec) (os : OS W) (filename : Str) (s : St W) (data : Bytes),
        (os.Open filename s.world).1 = none →
        (os.ReadAll (.file filename) (os.Open filename s.world).2).1 = .ok data →
        (parseReleaseInfoFile js os filename s).1
          = (match js.Unmarshal data with
              | .error e => .error (.json e)
              | .ok info => .ok info)) := by
  have hrt := Unmarshal_Marshal r hids
  refine ⟨fun _ => hrt, fun _ => rfl, rfl, ?_, ?_, ?_⟩
  · show (match Unmarshal (Marshal r.raw) with
        | .error e => Except.error e
        | .unmodelled => .error "input outside the model of the codec".toList
        | .ok info =>
          match info.text with
          | some i => .ok i
          | none => .error "string outside the model: not valid UTF-8".toList) = _
    rw [hrt]
    simp only [rawReleaseInfo_text_raw]
  · intro js os filename s data hm hc
    have hcall : callCreate os filename s = (none, (callCreate os filename s).2) :=
      Prod.ext hc rfl
    unfold releaseInfo.saveMeta
    rw [hcall]
    simp only [hm]
    apply since_of_trace_eq
    simp
  · intro js os filename s data ho hr
    have hcall : callOpen os filename s = (none, (callOpen os filename s).2) :=
      Prod.ext ho rfl
    have hread : callReadAll os (.file filename) (callOpen os filename s).2
        = (.ok data, (callReadAll os (.file filename) (callOpen os filename s).2).2) :=
      Prod.ext hr rfl
    unfold parseReleaseInfoFile
    rw [hcall]
    simp only
    rw [hread]
    simp only
    cases js.Unmarshal data <;> rfl

end MetaRoundTrip

/-- C7, as amended, at an example: a release with a tag that holds a letter
outside ASCII, a line break and angle brackets, and one asset. Its encoding
decodes to it whatever the local path, here two bytes that are no text; it is
written by `saveMeta` in the concrete world and read back by
`parseReleaseInfoFile`. -/
theorem saveMeta_parse_round_trip_witness :
    Unmarshal (Marshal { (releaseOf "é\n<1.2.0>").raw with LocalPath := [0xFF, 0x2F] })
      = .ok (releaseOf "é\n<1.2.0>").raw
    ∧ worldOverride.start.since
        ((releaseOf "é\n<1.2.0>").saveMeta exampleCodec Sim.os ".models/1_2_0/meta.json".toList
          worldOverride.start).2
        = [.create ".models/1_2_0/meta.json".toList,
           .write (.file ".models/1_2_0/meta.json".toList) (Marshal (releaseOf "é\n<1.2.0>").raw),
           .close (.file ".models/1_2_0/meta.json".toList)]
    ∧ (parseReleaseInfoFile exampleCodec Sim.os ".models/1_2_0/meta.json".toList
        ((releaseOf "é\n<1.2.0>").saveMeta exampleCodec Sim.os
          ".models/1_2_0/meta.json".toList worldOverride.start).2).1
        = .ok (releaseOf "é\n<1.2.0>") :=
  ⟨(saveMeta_parse_round_trip (W := Sim) (releaseOf "é\n<1.2.0>") (by decide)).1
      [0xFF, 0x2F],
   (saveMeta_parse_round_trip (releaseOf "é\n<1.2.0>") (by decide)).2.2.2.2.1 exampleCodec
      Sim.os ".models/1_2_0/meta.json".toList worldOverride.start _ rfl (by decide),
   ((saveMeta_parse_round_trip (releaseOf "é\n<1.2.0>") (by decide)).2.2.2.2.2 exampleCodec
      Sim.os ".models/1_2_0/meta.json".toList
      ((releaseOf "é\n<1.2.0>").saveMeta exampleCodec Sim.os ".models/1_2_0/meta.json".toList
        worldOverride.start).2 (Marshal (releaseOf "é\n<1.2.0>").raw)
      (by decide) (by decide)).trans
    (by rw [(saveMeta_parse_round_trip (W := Sim) (releaseOf "é\n<1.2.0>")
      (by decide)).2.2.2.1]; rfl)⟩

/-- C7, the claim as stated fails. The tag of the release is the one byte
`0xFF`, which is not valid UTF-8. The encoder writes the escape of U+FFFD for
it, and the decoder returns a release whose tag is the three bytes of U+FFFD:
decoding succeeds, and the tag is not the one that was encoded. -/
theorem non_utf8_tag_not_restored :
    textOf [0xFF] = none
    ∧ Marshal { LocalPath := [], TagName := [0xFF], Assets := none }
        = utf8 "\x7b\"tag_name\":\"\\ufffd\",\"assets\":null\x7d".toList
    ∧ Unmarshal (Marshal { LocalPath := [], TagName := [0xFF], Assets := none })
        = .ok { LocalPath := [], TagName := [0xEF, 0xBF, 0xBD], Assets := none }
    ∧ ([0xEF, 0xBF, 0xBD] : Bytes) ≠ [0xFF] := by
  refine ⟨by decide, by decide, by decide, by decide⟩

/-! ## Runs in the example worlds -/

/-- C1, the claim as stated fails. The cache holds a valid entry at tag 1.2.0,
the feed would answer release 1.3.0, which `isNewer` than the cached one, no
override path is set and force-update is unset. The run lists the cache root,
reads the metadata, checks the marker file and returns the model path of the
cached entry 1.2.0: it makes no query of the feed and downloads nothing. -/
theorem valid_cache_is_returned_despite_newer_release :
    envStr emptyEnv "NSFW_MODEL_PATH".toList [] = []
    ∧ envBool emptyEnv "NSFW_MODEL_FORCE_UPDATE".toList = false
    ∧ (getLatestCached exampleCodec Sim.os (initDefaultCachePath emptyEnv) worldNewerRemote.start).1
        = .ok { (releaseOf "1.2.0") with LocalPath := ".models/1_2_0".toList }
    ∧ (looksLikeSavedModel Sim.os modelDir120 worldNewerRemote.start).1 = true
    ∧ (getLatestReleaseInfo exampleCodec Sim.os emptyEnv worldNewerRemote.start).1.1 = releaseOf "1.3.0"
    ∧ (releaseOf "1.3.0").isNewer (releaseOf "1.2.0") = true
    ∧ (GetLatestModelPath exampleCodec Sim.os emptyEnv (initDefaultCachePath emptyEnv)
        worldNewerRemote.start).1 = .ok modelDir120
    ∧ (GetLatestModelPath exampleCodec Sim.os emptyEnv (initDefaultCachePath emptyEnv)
        worldNewerRemote.start).2.trace =
        [.readDir "./.models/".toList, .openRead ".models/1_2_0/meta.json".toList,
         .readAll (.file ".models/1_2_0/meta.json".toList),
         .close (.file ".models/1_2_0/meta.json".toList),
         .stat ".models/1_2_0/model/mobilenet_v2_140_224/saved_model.pb".toList true] := by
  refine ⟨by decide, by decide, by decide, by decide, by decide, by decide, by decide, by decide⟩

/-- C1, as amended, at an example: the world of the counterexample, whose feed
would answer the newer release 1.3.0. -/
theorem GetLatestModelPath_prefers_valid_cache_witness :
    (GetLatestModelPath exampleCodec Sim.os emptyEnv (initDefaultCachePath emptyEnv)
        worldNewerRemote.start).1 = .ok modelDir120
    ∧ (GetLatestModelPath exampleCodec Sim.os emptyEnv (initDefaultCachePath emptyEnv)
        worldNewerRemote.start).2.trace
        = (getLatestCached exampleCodec Sim.os (initDefaultCachePath emptyEnv)
            worldNewerRemote.start).2.trace ++ [.stat (Join modelDir120 marker) true]
    ∧ (∀ ev ∈ worldNewerRemote.start.since (GetLatestModelPath exampleCodec Sim.os emptyEnv
          (initDefaultCachePath emptyEnv) worldNewerRemote.start).2,
        ev.isCacheRead = true ∨ ev = .stat (Join modelDir120 marker) true)
    ∧ ∀ url, Event.httpGet url ∉ worldNewerRemote.start.since (GetLatestModelPath exampleCodec Sim.os
        emptyEnv (initDefaultCachePath emptyEnv) worldNewerRemote.start).2 :=
  GetLatestModelPath_prefers_valid_cache exampleCodec Sim.os emptyEnv (initDefaultCachePath emptyEnv)
    worldNewerRemote.start
    (getLatestCached exampleCodec Sim.os (initDefaultCachePath emptyEnv) worldNewerRemote.start).2
    { (releaseOf "1.2.0") with LocalPath := ".models/1_2_0".toList } modelDir120
    (by decide) (by decide) (Prod.ext (by decide) rfl) (by decide) (by decide)

/-- C5, the claim as stated fails. The cached entry 1.2.0 lacks the marker
file and the feed does not answer. The check of the cached model directory
fails, the fallback release 1.2.0 is downloaded and unpacked into the same
cache entry, and the call returns that same directory, checked anew, not an
error and not a different path. -/
theorem failed_check_then_same_path_returned :
    Event.stat (Join modelDir120 marker) false
        ∈ (GetLatestModelPath exampleCodec Sim.os emptyEnv (initDefaultCachePath emptyEnv)
            worldBrokenEntry.start).2.trace
    ∧ (GetLatestModelPath exampleCodec Sim.os emptyEnv (initDefaultCachePath emptyEnv)
        worldBrokenEntry.start).1 = .ok modelDir120
    ∧ (getLatestCached exampleCodec Sim.os (initDefaultCachePath emptyEnv) worldBrokenEntry.start).1
        = .ok { (releaseOf "1.2.0") with LocalPath := ".models/1_2_0".toList }
    ∧ releaseInfo.getModelPath
        ({ (releaseOf "1.2.0") with LocalPath := ".models/1_2_0".toList } : releaseInfo)
        = some modelDir120 := by
  refine ⟨by decide, by decide, by decide, by decide⟩

/-- C5, as amended, at an example: the run that repairs the broken entry ends
with the successful check of the path it returns. -/
theorem GetLatestModelPath_returns_checked_path_witness :
    (GetLatestModelPath exampleCodec Sim.os emptyEnv (initDefaultCachePath emptyEnv)
        worldBrokenEntry.start).2.trace.getLast?
      = some (.stat (Join modelDir120 marker) true) :=
  (GetLatestModelPath_returns_checked_path exampleCodec Sim.os emptyEnv (initDefaultCachePath emptyEnv)
    worldBrokenEntry.start).1 modelDir120 _ (Prod.ext (by decide) rfl)

/-- C6 at an example: the override path is set with blanks around it and holds
a SavedModel; the run is the one marker check. -/
theorem GetLatestModelPath_override_witness :
    TrimSpace (overrideEnv "NSFW_MODEL_PATH".toList) = "/opt/model".toList
    ∧ (GetLatestModelPath exampleCodec Sim.os overrideEnv (initDefaultCachePath overrideEnv)
        worldOverride.start).1 = .ok "/opt/model".toList
    ∧ worldOverride.start.since (GetLatestModelPath exampleCodec Sim.os overrideEnv
        (initDefaultCachePath overrideEnv) worldOverride.start).2
        = [.stat "/opt/model/saved_model.pb".toList true] :=
  ⟨by decide,
   (GetLatestModelPath_override exampleCodec Sim.os overrideEnv (initDefaultCachePath overrideEnv)
      worldOverride.start (by decide)).1.trans (by decide),
   (GetLatestModelPath_override exampleCodec Sim.os overrideEnv (initDefaultCachePath overrideEnv)
      worldOverride.start (by decide)).2.trans (by decide)⟩

/-- C9, the code at the failing input. The winning cache entry has a metadata
file with an empty asset list. It decodes without error to a release with no
asset; `getModelPath` then indexes `Assets[0]` and the call aborts, in
`GetLocalModelPath` and in `GetLatestModelPath` alike, where the sibling
`download` returns an error for such a release. -/
theorem empty_assets_abort :
    (getLatestCached exampleCodec Sim.os (initDefaultCachePath emptyEnv) worldNoAssets.start).1
        = .ok { LocalPath := ".models/1_2_0".toList, TagName := "1.2.0".toList,
                Assets := some [] }
    ∧ releaseInfo.getModelPath
        ({ LocalPath := ".models/1_2_0".toList, TagName := "1.2.0".toList,
           Assets := some [] } : releaseInfo) = none
    ∧ (GetLocalModelPath exampleCodec Sim.os (initDefaultCachePath emptyEnv) worldNoAssets.start).1
        = .panic
    ∧ (GetLatestModelPath exampleCodec Sim.os emptyEnv (initDefaultCachePath emptyEnv)
        worldNoAssets.start).1 = .panic
    ∧ (releaseInfo.download Sim.os
        ({ LocalPath := ".models/1_2_0".toList, TagName := "1.2.0".toList,
           Assets := some [] } : releaseInfo)
        ".models/1_2_0/model.zip".toList worldNoAssets.start).1
        = some (.noAssets "1.2.0".toList) := by
  refine ⟨by decide, by decide, by decide, by decide, by decide⟩

/-- C4 at an example: the feed answers release 1.3.0 with status 200, and that
release is returned with a nil error. -/
theorem getLatestReleaseInfo_never_fails_witness :
    (getLatestReleaseInfo exampleCodec Sim.os emptyEnv worldNewerRemote.start).1.2 = none
    ∧ (getLatestReleaseInfo exampleCodec Sim.os emptyEnv worldNewerRemote.start).1.1 = releaseOf "1.3.0"
    ∧ (getLatestReleaseInfo exampleCodec Sim.os emptyEnv worldBrokenEntry.start).1.1
        = defaultFallbackRelease emptyEnv :=
  ⟨(getLatestReleaseInfo_never_fails exampleCodec Sim.os emptyEnv worldNewerRemote.start).1,
   (((getLatestReleaseInfo_never_fails exampleCodec Sim.os emptyEnv worldNewerRemote.start).2.2
      (by decide)).2.2.2.2 ok200 (jsonOf "1.3.0") (by decide) (by decide) (by decide)).trans
      (by decide),
   ((getLatestReleaseInfo_never_fails exampleCodec Sim.os emptyEnv worldBrokenEntry.start).2.2
      (by decide)).2.1 (Sim.fail "no such host") (by decide)⟩

/-- C8 at an example: the archive is missing, `unzip` fails, `unpack` returns its
error and removes nothing. -/
theorem unpack_returns_unzip_error_witness :
    ((releaseOf "1.2.0").unpack Sim.os worldOverride.start).1
        = some (.io (Sim.fail "no such file or directory"))
    ∧ (releaseOf "1.2.0").unpack Sim.os worldOverride.start
        = (releaseOf "1.2.0").unzip Sim.os worldOverride.start :=
  ⟨((unpack_returns_unzip_error Sim.os (releaseOf "1.2.0") worldOverride.start).1).trans
      (by decide),
   (unpack_returns_unzip_error Sim.os (releaseOf "1.2.0") worldOverride.start).2.2.1
      (.io (Sim.fail "no such file or directory")) (by decide)⟩

/-- C10, as amended, at an example: the subdirectories `0` and `latest` have no
positive ordinal and the root is reported as holding no cache. The closed form
of the ordinal at three long names: 19 digits that fit a `uint64` and then a
letter give 0, digits that denote `2^64` and then a letter give the largest
`int`, and the smallest after a minus sign. -/
theorem getLatestCached_none_cached_iff_witness :
    (getLatestCached exampleCodec Sim.os "./.models/".toList worldNoOrdinal.start).1
      = .error Err.ErrNoneCached
    ∧ dirOrdinal "9223372036854775808x".toList = 0
    ∧ dirOrdinal "18446744073709551616x".toList = 9223372036854775807
    ∧ dirOrdinal "-18_446_744_073_709_551_616x".toList = -9223372036854775808 :=
  ⟨(getLatestCached_none_cached_iff exampleCodec Sim.os "./.models/".toList
      worldNoOrdinal.start).1.mpr
    (Or.inr ⟨[subdir "0", { Name := "1_2_0".toList, IsDir := false }, subdir "latest"],
      by decide, by decide⟩),
   ((getLatestCached_none_cached_iff exampleCodec Sim.os "./.models/".toList
      worldNoOrdinal.start).2.2.1 "9223372036854775808x".toList).trans (by decide),
   ((getLatestCached_none_cached_iff exampleCodec Sim.os "./.models/".toList
      worldNoOrdinal.start).2.2.1 "18446744073709551616x".toList).trans (by decide),
   ((getLatestCached_none_cached_iff exampleCodec Sim.os "./.models/".toList
      worldNoOrdinal.start).2.2.1 "-18_446_744_073_709_551_616x".toList).trans (by decide)⟩
end Nsfw
